import Mathlib

/-!
# TranscriptEditingApp: parser and snapshot editor

A shallow embedding of the document model (`Speaker`, `Segment`, `Transcript`),
of `TranscriptParser` and of `TranscriptEditor`, followed by the properties
proved about them.

Modelling conventions.
* A `QString` is a list of characters (its UTF-16 code units); `size` is its length.
* `int` arguments (`index`, `splitPosition`, ...) are integers; the container
  sizes involved stay far below the 32-bit range, so no wrap-around is modelled.
* A `QVector` is a list in the same order (`append` adds at the end).
* `QDateTime::currentDateTimeUtc()` is an argument `now` of every operation
  that calls `markEdited`.
* `Qt::CaseInsensitive` comparison folds every character with `foldCase`.
* Containers are values. The one place where the implicit sharing of `QVector` shows
  through, a write through a reference bound before a copy was taken, is `splitSegment`;
  it is spelled out there.
-/

namespace TranscriptEditingApp

/-! ## Qt strings -/

abbrev QString := List Char

/-- The predicate `QChar::isSpace`: the ASCII blanks `U+0009..U+000D` and `U+0020`,
`U+0085`, `U+00A0`, and the Unicode separators (categories Zs, Zl, Zp). -/
def isSpace (c : Char) : Bool :=
  let u := c.toNat
  u == 0x20 || (decide (0x09 ≤ u) && decide (u ≤ 0x0d)) || u == 0x85 || u == 0xa0
    || u == 0x1680 || (decide (0x2000 ≤ u) && decide (u ≤ 0x200a))
    || u == 0x2028 || u == 0x2029 || u == 0x202f || u == 0x205f || u == 0x3000

/-- The function `QString::trimmed`: whitespace removed from both ends. -/
def trimmed (s : QString) : QString :=
  (s.dropWhile isSpace).rdropWhile isSpace

/-- The function `QString::mid(position, n)`, with the clipping rules of Qt: a position
past the end gives the empty string, a negative position shortens `n`, and a
negative or too large `n` means "up to the end". -/
def mid (s : QString) (position : Int) (n : Int) : QString :=
  let len : Int := s.length
  if position > len then []
  else if position < 0 then
    if n < 0 ∨ n + position ≥ len then s
    else if n + position ≤ 0 then []
    else s.take (n + position).toNat
  else if n < 0 ∨ n > len - position then s.drop position.toNat
  else (s.drop position.toNat).take n.toNat

/-- The function `QString::mid(position)`: everything from `position` on. -/
def midFrom (s : QString) (position : Int) : QString :=
  mid s position (-1)

/-- The function `QString::left(n)`: the first `n` characters; the whole string when
`n` is negative or not smaller than the size. -/
def left (s : QString) (n : Int) : QString :=
  if n < 0 ∨ n ≥ (s.length : Int) then s else s.take n.toNat

/-- The function `QString::endsWith("\n")`. -/
def endsWithNewline (s : QString) : Bool :=
  s.getLast? == some '\n'

/-- The two values of `Qt::CaseSensitivity`. -/
inductive CaseSensitivity where
  | CaseInsensitive
  | CaseSensitive
deriving DecidableEq, Repr

/-- Case folding of one character, used for `Qt::CaseInsensitive`. -/
def foldCase (c : Char) : Char :=
  c.toLower

/-- The character map applied before comparing under a case mode. -/
def foldWith (cs : CaseSensitivity) (s : QString) : QString :=
  match cs with
  | .CaseSensitive => s
  | .CaseInsensitive => s.map foldCase

/-- The test `a.compare(b, cs) == 0`. -/
def compareEq (cs : CaseSensitivity) (a b : QString) : Bool :=
  foldWith cs a == foldWith cs b

/-- Whether `pat` occurs at the very start of `s` under the case mode. -/
def matchesAt (cs : CaseSensitivity) (pat s : QString) : Bool :=
  decide (pat.length ≤ s.length) && compareEq cs (s.take pat.length) pat

/-- Scan for the first occurrence of `pat` in `rest`, which starts at offset `i`. -/
def indexOfAux (cs : CaseSensitivity) (pat : QString) : QString → Nat → Option Nat
  | [], i => if pat.isEmpty then some i else none
  | c :: rest, i =>
    if matchesAt cs pat (c :: rest) then some i else indexOfAux cs pat rest (i + 1)

/-- The function `QString::indexOf(pat, from, cs)` for `from ≥ 0`; `none` stands for the
result `-1`. -/
def indexOf (s pat : QString) (start : Nat) (cs : CaseSensitivity) : Option Nat :=
  if start > s.length then none else indexOfAux cs pat (s.drop start) start

/-- The function `QString::contains(pat, cs)`. -/
def contains (s pat : QString) (cs : CaseSensitivity) : Bool :=
  (indexOf s pat 0 cs).isSome

/-- The function `QString::replace(pos, n, after)`: `n` characters from `pos` on are
replaced by `after`. -/
def replaceAt (s : QString) (pos n : Nat) (after : QString) : QString :=
  s.take pos ++ after ++ s.drop (pos + n)

/-- The call `split(QRegularExpression("\\r?\\n"), Qt::KeepEmptyParts)`: cut at every line
feed, together with a carriage return right before it. -/
def splitLines : QString → List QString
  | [] => [[]]
  | [c] => if c = '\n' then [[], []] else [[c]]
  | c :: d :: rest =>
    if c = '\n' then [] :: splitLines (d :: rest)
    else if c = '\r' ∧ d = '\n' then [] :: splitLines rest
    else
      match splitLines (d :: rest) with
      | l :: ls => (c :: l) :: ls
      | [] => [[c]]

/-- The call `split('\n')`: cut at every line feed, empty parts kept. -/
def splitNewline : QString → List QString
  | [] => [[]]
  | c :: rest =>
    if c = '\n' then [] :: splitNewline rest
    else
      match splitNewline rest with
      | l :: ls => (c :: l) :: ls
      | [] => [[c]]

/-- The call `lines.join('\n')`. -/
def joinNewline (lines : List QString) : QString :=
  List.intercalate ['\n'] lines

/-- The call `replace(QRegularExpression("\\n{3,}"), "\n\n")`: `run` line feeds are
pending; a maximal run of three or more is written back as two. -/
def collapseNewlinesAux : Nat → QString → QString
  | run, [] => List.replicate (min run 2) '\n'
  | run, c :: rest =>
    if c = '\n' then collapseNewlinesAux (run + 1) rest
    else List.replicate (min run 2) '\n' ++ c :: collapseNewlinesAux 0 rest

/-- Collapse every run of three or more line feeds into two. -/
def collapseNewlines (s : QString) : QString :=
  collapseNewlinesAux 0 s

/-! ## Document model -/

/-- A speaker: `color` is `none` for the default (invalid) `QColor`. -/
structure Speaker where
  id : QString
  displayName : QString
  color : Option (Nat × Nat × Nat) := none
deriving DecidableEq, Repr

/-- A block of text spoken by one speaker. -/
structure Segment where
  speakerID : QString
  text : QString
deriving DecidableEq, Repr

namespace Segment

/-- The method `Segment::isValid`. -/
def isValid (s : Segment) : Bool :=
  !s.speakerID.isEmpty && !(trimmed s.text).isEmpty

/-- The method `Segment::appendText`. -/
def appendText (s : Segment) (extra : QString) : Segment :=
  if extra.isEmpty then s
  else
    let text1 := if !endsWithNewline s.text then s.text ++ ['\n'] else s.text
    { s with text := text1 ++ extra }

end Segment

/-- A transcript session. Times are abstract instants. -/
structure Transcript where
  id : QString := []
  title : QString := []
  folderPath : QString := []
  referencePath : QString := []
  editablePath : QString := []
  audioPath : QString := []
  speakers : List Speaker := []
  segments : List Segment := []
  dateImported : Nat := 0
  lastEdited : Nat := 0
  lastPlaybackPositionMs : Int := 0
deriving DecidableEq, Repr

namespace Transcript

/-- Loop of `Transcript::findSpeakerIndex` from index `i` on. -/
def findSpeakerIndexAux (speakerID : QString) : List Speaker → Nat → Int
  | [], _ => -1
  | sp :: rest, i => if sp.id = speakerID then (i : Int) else findSpeakerIndexAux speakerID rest (i + 1)

/-- The method `Transcript::findSpeakerIndex`: first index with that id, or `-1`. -/
def findSpeakerIndex (t : Transcript) (speakerID : QString) : Int :=
  findSpeakerIndexAux speakerID t.speakers 0

/-- The method `Transcript::addSpeakerIfMissing`. -/
def addSpeakerIfMissing (t : Transcript) (speakerID : QString) : Transcript :=
  if t.findSpeakerIndex speakerID = -1 then
    { t with speakers := t.speakers ++ [{ id := speakerID, displayName := speakerID }] }
  else t

/-- The method `Transcript::renameSpeaker`. -/
def renameSpeaker (t : Transcript) (oldID newID : QString) : Transcript :=
  let ind := t.findSpeakerIndex oldID
  if ind < 0 then t
  else
    { t with
      speakers := t.speakers.modify (fun sp => { sp with id := newID, displayName := newID }) ind.toNat
      segments := t.segments.map (fun seg => if seg.speakerID = oldID then { seg with speakerID := newID } else seg) }

/-- The method `Transcript::addSegment`. -/
def addSegment (t : Transcript) (s : Segment) : Transcript :=
  { t with segments := t.segments ++ [s] }

/-- Loop of `Transcript::mergeAdjacentSameSpeaker` over `segments[1..]`, with the
vector `merged` and the segment `current`; the last `current` is pushed at the end. -/
def mergeLoop : List Segment → List Segment → Segment → List Segment
  | [], merged, current => merged ++ [current]
  | next :: rest, merged, current =>
    if next.speakerID = current.speakerID then mergeLoop rest merged (current.appendText next.text)
    else mergeLoop rest (merged ++ [current]) next

/-- The method `Transcript::mergeAdjacentSameSpeaker`. -/
def mergeAdjacentSameSpeaker (t : Transcript) : Transcript :=
  match t.segments with
  | first :: second :: rest => { t with segments := mergeLoop (second :: rest) [] first }
  | _ => t

end Transcript

/-! ## TranscriptParser -/

namespace TranscriptParser

/-- The method `TranscriptParser::startsWithSpeakerLabel`: `none` is the result `false`; on
`true` the pair is `(outSpeakerID, outAfterLabel)`. The first speaker of the list whose
label matches wins. -/
def startsWithSpeakerLabel (line : QString) (knownSpeakers : List QString) :
    Option (QString × QString) :=
  let firstNonSpace := (line.takeWhile isSpace).length
  if firstNonSpace ≥ line.length then none
  else
    knownSpeakers.findSome? (fun sp =>
      let label := sp ++ [':']
      if compareEq .CaseInsensitive (mid line firstNonSpace label.length) label then
        some (sp, midFrom line ((firstNonSpace : Int) + label.length))
      else none)

/-- A label occurrence inside a line. -/
structure Hit where
  pos : Nat
  speaker : QString
deriving DecidableEq, Repr

/-- The inner `while (index != -1)` loop of `splitInlineLabels` for one speaker: `index`
is the occurrence just found. Every round moves the search start forward by the label
size, so `full.size() + 1` rounds are never exceeded. -/
def collectHits (full label sp : QString) : Nat → Option Nat → List Hit
  | 0, _ => []
  | _ + 1, none => []
  | fuel + 1, some index =>
    ⟨index, sp⟩ :: collectHits full label sp fuel
      (indexOf full label (index + label.length) .CaseInsensitive)

/-- All occurrences of the label of `sp` in `full`, non-overlapping, left to right. -/
def hitsOfSpeaker (full sp : QString) : List Hit :=
  let label := sp ++ [':']
  collectHits full label sp (full.length + 1) (indexOf full label 0 .CaseInsensitive)

/-- The outer loop collecting the hits of every known speaker, in list order. -/
def allHits (full : QString) (knownSpeakers : List QString) : List Hit :=
  knownSpeakers.foldl (fun hits sp => hits ++ hitsOfSpeaker full sp) []

/-- The call `std::sort` by position. The standard leaves the order of hits at the same
position open; here they keep the order in which they were collected. -/
def sortHits (hits : List Hit) : List Hit :=
  hits.insertionSort (fun a b => a.pos ≤ b.pos)

/-- Loop variables of the slicing loop of `splitInlineLabels`. -/
structure SliceState where
  result : List (QString × QString)
  activeSpeaker : QString
  lastPos : Int
deriving DecidableEq, Repr

/-- One round of the slicing loop: the text before the label goes to the active
speaker, then the label's speaker becomes active. -/
def sliceStep (full : QString) (st : SliceState) (hit : Hit) : SliceState :=
  let before := trimmed (mid full st.lastPos ((hit.pos : Int) - st.lastPos))
  { result :=
      if !before.isEmpty && !st.activeSpeaker.isEmpty then
        st.result ++ [(st.activeSpeaker, before)]
      else st.result
    activeSpeaker := hit.speaker
    lastPos := (hit.pos : Int) + (hit.speaker ++ [':']).length }

/-- The method `TranscriptParser::splitInlineLabels`. -/
def splitInlineLabels (text : QString) (knownSpeakers : List QString)
    (initialSpeaker : QString) : List (QString × QString) :=
  let full := text
  if full.isEmpty then []
  else
    let hits := allHits full knownSpeakers
    if hits.isEmpty then
      if !(trimmed full).isEmpty then [(initialSpeaker, trimmed full)] else []
    else
      let st := (sortHits hits).foldl (sliceStep full) ⟨[], initialSpeaker, 0⟩
      let tail := trimmed (midFrom full st.lastPos)
      if !tail.isEmpty && !st.activeSpeaker.isEmpty then
        st.result ++ [(st.activeSpeaker, tail)]
      else st.result

/-- The method `TranscriptParser::normalizeText`. -/
def normalizeText (text : QString) : QString :=
  let t := trimmed text
  if t.isEmpty then t
  else joinNewline ((splitNewline (collapseNewlines t)).map trimmed)

/-- Local variables of `parseSegments` that live across lines. -/
structure ParseState where
  segments : List Segment
  currentSpeaker : QString
  currentText : QString
deriving DecidableEq, Repr

/-- The lambda `flushSegment` of `parseSegments`. -/
def flushSegment (st : ParseState) : ParseState :=
  let norm := normalizeText st.currentText
  { st with
    segments :=
      if !st.currentSpeaker.isEmpty && !norm.isEmpty then
        st.segments ++ [⟨st.currentSpeaker, norm⟩]
      else st.segments
    currentText := [] }

/-- Appending to `currentText`, with a line feed first when it is not empty. -/
def appendToCurrent (st : ParseState) (txt : QString) : ParseState :=
  { st with
    currentText := (if !st.currentText.isEmpty then st.currentText ++ ['\n'] else st.currentText) ++ txt }

/-- Step 3 of `parseSegments` for one `(speaker, text)` pair. -/
def integratePart (st : ParseState) (part : QString × QString) : ParseState :=
  let sp := part.1
  let txt := part.2
  if (trimmed txt).isEmpty then st
  else if st.currentSpeaker.isEmpty then
    { st with currentSpeaker := sp, currentText := txt }
  else if compareEq .CaseInsensitive sp st.currentSpeaker then
    appendToCurrent st txt
  else
    { flushSegment st with currentSpeaker := sp, currentText := txt }

/-- Steps 2 and 3 of the loop body of `parseSegments`: the content of the line is split at
its inline labels and fed into the running buffer. -/
def integrateLine (knownSpeakers : List QString) (st : ParseState)
    (baseSpeaker content : QString) : ParseState :=
  let parts := splitInlineLabels content knownSpeakers baseSpeaker
  if parts.isEmpty then
    if !baseSpeaker.isEmpty then
      let st2 := if st.currentSpeaker.isEmpty then { st with currentSpeaker := baseSpeaker } else st
      if st2.currentSpeaker = baseSpeaker then appendToCurrent st2 content
      else { flushSegment st2 with currentSpeaker := baseSpeaker, currentText := content }
    else st
  else parts.foldl integratePart st

/-- The body of the `for (const QString& line : lines)` loop of `parseSegments`: a blank
line only adds a line feed to a non-empty buffer; a line that starts with a label
flushes the buffer and goes on with that speaker and the text after the label; any
other line goes on with the current speaker and the whole line. -/
def processLine (knownSpeakers : List QString) (st : ParseState) (line : QString) : ParseState :=
  if (trimmed line).isEmpty then
    if !st.currentText.isEmpty then { st with currentText := st.currentText ++ ['\n'] } else st
  else
    match startsWithSpeakerLabel line knownSpeakers with
    | some (speakerFromLine, afterLabel) =>
      integrateLine knownSpeakers (flushSegment st) speakerFromLine afterLabel
    | none => integrateLine knownSpeakers st st.currentSpeaker line

/-- The method `TranscriptParser::parseSegments`. -/
def parseSegments (rawText : QString) (knownSpeakers : List QString) : List Segment :=
  let lines := splitLines rawText
  let st := lines.foldl (processLine knownSpeakers) ⟨[], [], []⟩
  (flushSegment st).segments

/-- The method `TranscriptParser::parse`: the result is the returned flag and the
transcript left in `outTranscript`. -/
def parse (rawText : QString) (outTranscript : Transcript) (knownSpeakers : List QString) :
    Bool × Transcript :=
  let t0 := { outTranscript with segments := [], speakers := [] }
  if knownSpeakers.isEmpty then (false, t0)
  else
    let parsedSegments := parseSegments rawText knownSpeakers
    if parsedSegments.isEmpty then (false, t0)
    else
      let t1 := knownSpeakers.foldl (fun t sp => t.addSpeakerIfMissing sp) t0
      let t2 := parsedSegments.foldl (fun t s => t.addSegment s) t1
      (true, t2.mergeAdjacentSameSpeaker)

end TranscriptParser

/-! ## TranscriptEditor -/

/-- The struct `TranscriptEditor::Snapshot`: a copy of the speakers and the segments. -/
structure Snapshot where
  speakers : List Speaker
  segments : List Segment
deriving DecidableEq, Repr

/-- The editor: the transcript it edits (held by reference in the source) and the two
history stacks; the last element of a stack is its top. -/
structure TranscriptEditor where
  editedTranscript : Transcript
  undoStack : List Snapshot := []
  redoStack : List Snapshot := []
deriving DecidableEq, Repr

namespace TranscriptEditor

/-- The default-constructed `Segment()`, read where an index has been validated. -/
def emptySegment : Segment := ⟨[], []⟩

/-- The current `(speakers, segments)` as a snapshot value. -/
def current (e : TranscriptEditor) : Snapshot :=
  ⟨e.editedTranscript.speakers, e.editedTranscript.segments⟩

/-- The method `TranscriptEditor::isValidSegmentIndex`. -/
def isValidSegmentIndex (e : TranscriptEditor) (index : Int) : Bool :=
  decide (index ≥ 0) && decide (index < (e.editedTranscript.segments.length : Int))

/-- The method `TranscriptEditor::saveSnapshot`. -/
def saveSnapshot (e : TranscriptEditor) : TranscriptEditor :=
  { e with undoStack := e.undoStack ++ [e.current], redoStack := [] }

/-- The method `TranscriptEditor::restoreSnapshot`. -/
def restoreSnapshot (e : TranscriptEditor) (snapshot : Snapshot) : TranscriptEditor :=
  { e with
    editedTranscript :=
      { e.editedTranscript with speakers := snapshot.speakers, segments := snapshot.segments } }

/-- The method `TranscriptEditor::markEdited`; `now` is the current time. -/
def markEdited (e : TranscriptEditor) (now : Nat) : TranscriptEditor :=
  { e with editedTranscript := { e.editedTranscript with lastEdited := now } }

/-- Assignment to `editedTranscript.segments`. -/
def withSegments (e : TranscriptEditor) (segs : List Segment) : TranscriptEditor :=
  { e with editedTranscript := { e.editedTranscript with segments := segs } }

/-- The method `TranscriptEditor::hasSpeaker`. -/
def hasSpeaker (e : TranscriptEditor) (speakerID : QString) : Bool :=
  decide (e.editedTranscript.findSpeakerIndex speakerID ≥ 0)

/-- The method `TranscriptEditor::ensureSpeakerExists`. -/
def ensureSpeakerExists (e : TranscriptEditor) (speakerID : QString) : TranscriptEditor :=
  { e with editedTranscript := e.editedTranscript.addSpeakerIfMissing speakerID }

/-- The method `TranscriptEditor::setSegmentText`. -/
def setSegmentText (e : TranscriptEditor) (index : Int) (newText : QString) (now : Nat) :
    Bool × TranscriptEditor :=
  if !e.isValidSegmentIndex index then (false, e)
  else
    let e1 := e.saveSnapshot
    let e2 := e1.withSegments
      (e1.editedTranscript.segments.modify (fun seg => { seg with text := newText }) index.toNat)
    (true, e2.markEdited now)

/-- The method `TranscriptEditor::appendToSegment`. -/
def appendToSegment (e : TranscriptEditor) (index : Int) (extraText : QString) (now : Nat) :
    Bool × TranscriptEditor :=
  if !e.isValidSegmentIndex index || extraText.isEmpty then (false, e)
  else
    let e1 := e.saveSnapshot
    let e2 := e1.withSegments
      (e1.editedTranscript.segments.modify (fun seg => seg.appendText extraText) index.toNat)
    (true, e2.markEdited now)

/-- The method `TranscriptEditor::splitSegment`.

The reference `seg` is bound to `editedTranscript.segments[index]` before
`saveSnapshot()` copies the vector. `QVector` is implicitly shared, so the snapshot
pushed on the undo stack shares its buffer with `editedTranscript.segments` until the
next detaching call, and the assignment `seg.text = firstPart`, made through the old
reference, lands in that shared buffer: it is visible in the snapshot as well. The
following `insert` detaches, so the inserted segment is in the transcript only. -/
def splitSegment (e : TranscriptEditor) (index : Int) (splitPosition : Int) (now : Nat) :
    Int × TranscriptEditor :=
  if !e.isValidSegmentIndex index then (-1, e)
  else
    let seg := e.editedTranscript.segments.getD index.toNat emptySegment
    let text := seg.text
    if splitPosition ≤ 0 ∨ splitPosition ≥ (text.length : Int) then (-1, e)
    else
      let e1 := e.saveSnapshot
      let firstPart := trimmed (left text splitPosition)
      let secondPart := trimmed (midFrom text splitPosition)
      if firstPart.isEmpty || secondPart.isEmpty then (-1, e1)
      else
        let shared := e1.editedTranscript.segments.set index.toNat { seg with text := firstPart }
        let e2 : TranscriptEditor :=
          { e1.withSegments shared with
            undoStack := e1.undoStack.dropLast ++ [⟨e1.editedTranscript.speakers, shared⟩] }
        let newSeg : Segment := ⟨seg.speakerID, secondPart⟩
        let e3 := e2.withSegments (e2.editedTranscript.segments.insertIdx (index.toNat + 1) newSeg)
        (index + 1, e3.markEdited now)

/-- The method `TranscriptEditor::mergeWithNext`. -/
def mergeWithNext (e : TranscriptEditor) (index : Int) (now : Nat) : Bool × TranscriptEditor :=
  if !e.isValidSegmentIndex index then (false, e)
  else
    let nextIndex := index + 1
    if !e.isValidSegmentIndex nextIndex then (false, e)
    else
      let e1 := e.saveSnapshot
      let current := e1.editedTranscript.segments.getD index.toNat emptySegment
      let next := e1.editedTranscript.segments.getD nextIndex.toNat emptySegment
      let mergedText0 := current.text
      let mergedText1 :=
        if !mergedText0.isEmpty && !endsWithNewline mergedText0 then mergedText0 ++ ['\n']
        else mergedText0
      let mergedText := mergedText1 ++ next.text
      let segs1 := e1.editedTranscript.segments.set index.toNat { current with text := mergedText }
      let e2 := e1.withSegments (segs1.eraseIdx nextIndex.toNat)
      (true, e2.markEdited now)

/-- The method `TranscriptEditor::deleteSegment`. -/
def deleteSegment (e : TranscriptEditor) (index : Int) (now : Nat) : Bool × TranscriptEditor :=
  if !e.isValidSegmentIndex index then (false, e)
  else
    let e1 := e.saveSnapshot
    let e2 := e1.withSegments (e1.editedTranscript.segments.eraseIdx index.toNat)
    (true, e2.markEdited now)

/-- The method `TranscriptEditor::insertSegment`. -/
def insertSegment (e : TranscriptEditor) (index : Int) (segment : Segment) (now : Nat) :
    Bool × TranscriptEditor :=
  if index < 0 ∨ index > (e.editedTranscript.segments.length : Int) then (false, e)
  else
    let e1 := e.saveSnapshot
    let e2 := e1.withSegments (e1.editedTranscript.segments.insertIdx index.toNat segment)
    let e3 := e2.ensureSpeakerExists segment.speakerID
    (true, e3.markEdited now)

/-- The method `TranscriptEditor::moveSegment`. -/
def moveSegment (e : TranscriptEditor) (fromIndex toIndex : Int) (now : Nat) :
    Bool × TranscriptEditor :=
  if !e.isValidSegmentIndex fromIndex then (false, e)
  else if toIndex < 0 ∨ toIndex ≥ (e.editedTranscript.segments.length : Int) then (false, e)
  else if fromIndex = toIndex then (true, e)
  else
    let e1 := e.saveSnapshot
    let seg := e1.editedTranscript.segments.getD fromIndex.toNat emptySegment
    let taken := e1.editedTranscript.segments.eraseIdx fromIndex.toNat
    let toIndex1 := if fromIndex < toIndex then toIndex - 1 else toIndex
    let e2 := e1.withSegments (taken.insertIdx toIndex1.toNat seg)
    (true, e2.markEdited now)

/-- The method `TranscriptEditor::swapSegments`. -/
def swapSegments (e : TranscriptEditor) (indexA indexB : Int) (now : Nat) :
    Bool × TranscriptEditor :=
  if !e.isValidSegmentIndex indexA || !e.isValidSegmentIndex indexB then (false, e)
  else if indexA = indexB then (true, e)
  else
    let e1 := e.saveSnapshot
    let segs := e1.editedTranscript.segments
    let a := segs.getD indexA.toNat emptySegment
    let b := segs.getD indexB.toNat emptySegment
    let e2 := e1.withSegments ((segs.set indexA.toNat b).set indexB.toNat a)
    (true, e2.markEdited now)

/-- The method `TranscriptEditor::removeSegment`. -/
def removeSegment (e : TranscriptEditor) (index : Int) (now : Nat) : Bool × TranscriptEditor :=
  e.deleteSegment index now

/-- The method `TranscriptEditor::setSegments`. -/
def setSegments (e : TranscriptEditor) (newSegments : List Segment) (now : Nat) :
    TranscriptEditor :=
  let e1 := e.saveSnapshot
  (e1.withSegments newSegments).markEdited now

/-- The method `TranscriptEditor::setSegmentSpeaker`. -/
def setSegmentSpeaker (e : TranscriptEditor) (index : Int) (speakerID : QString) (now : Nat) :
    Bool × TranscriptEditor :=
  if !e.isValidSegmentIndex index || (trimmed speakerID).isEmpty then (false, e)
  else
    let e1 := e.saveSnapshot
    let e2 := e1.withSegments
      (e1.editedTranscript.segments.modify
        (fun seg => { seg with speakerID := trimmed speakerID }) index.toNat)
    let e3 := e2.ensureSpeakerExists (trimmed speakerID)
    (true, e3.markEdited now)

/-- The method `TranscriptEditor::renameSpeakerGlobal`. -/
def renameSpeakerGlobal (e : TranscriptEditor) (oldID newID : QString) (now : Nat) :
    Bool × TranscriptEditor :=
  let trimmedOld := trimmed oldID
  let trimmedNew := trimmed newID
  if trimmedOld.isEmpty || trimmedNew.isEmpty then (false, e)
  else if trimmedOld = trimmedNew then (false, e)
  else if !e.hasSpeaker trimmedOld then (false, e)
  else
    let e1 := e.saveSnapshot
    let e2 : TranscriptEditor :=
      { e1 with editedTranscript := e1.editedTranscript.renameSpeaker trimmedOld trimmedNew }
    (true, e2.markEdited now)

/-- The `while` loop of `replaceAllInString`, with the variables `text`, `pos`, `count`.
Every round consumes an occurrence of `fromStr` in the part of the text not yet
scanned, so `text.size() + 1` rounds are never exceeded. -/
def replaceLoop (fromStr toStr : QString) (cs : CaseSensitivity) :
    Nat → QString → Nat → Nat → Nat × QString
  | 0, text, _, count => (count, text)
  | fuel + 1, text, pos, count =>
    match indexOf text fromStr pos cs with
    | none => (count, text)
    | some p =>
      replaceLoop fromStr toStr cs fuel (replaceAt text p fromStr.length toStr)
        (p + toStr.length) (count + 1)

/-- The method `TranscriptEditor::replaceAllInString`: the count and the new text. -/
def replaceAllInString (text fromStr toStr : QString) (cs : CaseSensitivity) : Nat × QString :=
  if fromStr.isEmpty then (0, text)
  else replaceLoop fromStr toStr cs (text.length + 1) text 0 0

/-- The method `TranscriptEditor::replaceInSegment`. -/
def replaceInSegment (e : TranscriptEditor) (index : Int) (fromStr toStr : QString)
    (cs : CaseSensitivity) (now : Nat) : Nat × TranscriptEditor :=
  if !e.isValidSegmentIndex index then (0, e)
  else if fromStr.isEmpty then (0, e)
  else
    let e1 := e.saveSnapshot
    let seg := e1.editedTranscript.segments.getD index.toNat emptySegment
    let r := replaceAllInString seg.text fromStr toStr cs
    let e2 := e1.withSegments (e1.editedTranscript.segments.set index.toNat { seg with text := r.2 })
    let count := r.1
    if count > 0 then (count, e2.markEdited now)
    else (count, { e2 with undoStack := e2.undoStack.dropLast })

/-- The loop of `replaceAll` over the segments: the total and the rewritten segments. -/
def replaceAllLoop (fromStr toStr : QString) (cs : CaseSensitivity) :
    List Segment → Nat × List Segment
  | [] => (0, [])
  | seg :: rest =>
    let r := replaceAllInString seg.text fromStr toStr cs
    let rs := replaceAllLoop fromStr toStr cs rest
    (r.1 + rs.1, { seg with text := r.2 } :: rs.2)

/-- The method `TranscriptEditor::replaceAll`. -/
def replaceAll (e : TranscriptEditor) (fromStr toStr : QString) (cs : CaseSensitivity)
    (now : Nat) : Nat × TranscriptEditor :=
  if fromStr.isEmpty then (0, e)
  else
    let e1 := e.saveSnapshot
    let r := replaceAllLoop fromStr toStr cs e1.editedTranscript.segments
    let e2 := e1.withSegments r.2
    let total := r.1
    if total > 0 then (total, e2.markEdited now)
    else (total, { e2 with undoStack := e2.undoStack.dropLast })

/-- The "at most one blank line in a row" loop of `normalizeWhitespaceAll`. -/
def cleanLines : Bool → List QString → List QString
  | _, [] => []
  | lastWasEmpty, line :: rest =>
    if line.isEmpty then
      if !lastWasEmpty then [] :: cleanLines true rest else cleanLines lastWasEmpty rest
    else line :: cleanLines false rest

/-- The text written back to one segment by `normalizeWhitespaceAll`. -/
def normalizeSegmentText (t : QString) : QString :=
  let lines := (splitLines t).map trimmed
  trimmed (joinNewline (cleanLines false lines))

/-- The method `TranscriptEditor::normalizeWhitespaceAll`. -/
def normalizeWhitespaceAll (e : TranscriptEditor) (now : Nat) : TranscriptEditor :=
  if e.editedTranscript.segments.isEmpty then e
  else
    let e1 := e.saveSnapshot
    let e2 := e1.withSegments
      (e1.editedTranscript.segments.map (fun seg => { seg with text := normalizeSegmentText seg.text }))
    e2.markEdited now

/-- The method `TranscriptEditor::clearHistory`. -/
def clearHistory (e : TranscriptEditor) : TranscriptEditor :=
  { e with undoStack := [], redoStack := [] }

/-- The method `TranscriptEditor::canUndo`. -/
def canUndo (e : TranscriptEditor) : Bool :=
  !e.undoStack.isEmpty

/-- The method `TranscriptEditor::canRedo`. -/
def canRedo (e : TranscriptEditor) : Bool :=
  !e.redoStack.isEmpty

/-- The method `TranscriptEditor::undo`. -/
def undo (e : TranscriptEditor) (now : Nat) : Bool × TranscriptEditor :=
  match e.undoStack.getLast? with
  | none => (false, e)
  | some snapshot =>
    let e1 : TranscriptEditor :=
      { e with undoStack := e.undoStack.dropLast, redoStack := e.redoStack ++ [e.current] }
    (true, (e1.restoreSnapshot snapshot).markEdited now)

/-- The method `TranscriptEditor::redo`. -/
def redo (e : TranscriptEditor) (now : Nat) : Bool × TranscriptEditor :=
  match e.redoStack.getLast? with
  | none => (false, e)
  | some snapshot =>
    let e1 : TranscriptEditor :=
      { e with redoStack := e.redoStack.dropLast, undoStack := e.undoStack ++ [e.current] }
    (true, (e1.restoreSnapshot snapshot).markEdited now)

end TranscriptEditor

/-! ## Sequences of editor calls -/

/-- A call of one of the mutating operations of the editor, with its arguments. -/
inductive EditorCall where
  | setSegmentText (index : Int) (newText : QString)
  | appendToSegment (index : Int) (extraText : QString)
  | splitSegment (index splitPosition : Int)
  | mergeWithNext (index : Int)
  | deleteSegment (index : Int)
  | insertSegment (index : Int) (segment : Segment)
  | moveSegment (fromIndex toIndex : Int)
  | swapSegments (indexA indexB : Int)
  | removeSegment (index : Int)
  | setSegments (newSegments : List Segment)
  | setSegmentSpeaker (index : Int) (speakerID : QString)
  | renameSpeakerGlobal (oldID newID : QString)
  | replaceInSegment (index : Int) (fromStr toStr : QString) (cs : CaseSensitivity)
  | replaceAll (fromStr toStr : QString) (cs : CaseSensitivity)
  | normalizeWhitespaceAll
deriving DecidableEq, Repr

/-- What a call hands back: a flag, an index (`-1` on failure), a count, or nothing;
for a `void` call `edited` tells whether it got past its early return. -/
inductive Outcome where
  | flag (ok : Bool)
  | index (i : Int)
  | count (n : Nat)
  | unit (edited : Bool)
deriving DecidableEq, Repr

/-- A call reports success by `true`, an index `≥ 0`, a count `> 0`, or, for a `void`
call, by having edited. -/
def Outcome.success : Outcome → Bool
  | .flag ok => ok
  | .index i => decide (i ≥ 0)
  | .count n => decide (n > 0)
  | .unit edited => edited

namespace EditorCall

/-- Run one call at time `now`. -/
def perform (e : TranscriptEditor) (c : EditorCall) (now : Nat) : Outcome × TranscriptEditor :=
  match c with
  | .setSegmentText index newText =>
    let r := e.setSegmentText index newText now; (.flag r.1, r.2)
  | .appendToSegment index extraText =>
    let r := e.appendToSegment index extraText now; (.flag r.1, r.2)
  | .splitSegment index splitPosition =>
    let r := e.splitSegment index splitPosition now; (.index r.1, r.2)
  | .mergeWithNext index =>
    let r := e.mergeWithNext index now; (.flag r.1, r.2)
  | .deleteSegment index =>
    let r := e.deleteSegment index now; (.flag r.1, r.2)
  | .insertSegment index segment =>
    let r := e.insertSegment index segment now; (.flag r.1, r.2)
  | .moveSegment fromIndex toIndex =>
    let r := e.moveSegment fromIndex toIndex now; (.flag r.1, r.2)
  | .swapSegments indexA indexB =>
    let r := e.swapSegments indexA indexB now; (.flag r.1, r.2)
  | .removeSegment index =>
    let r := e.removeSegment index now; (.flag r.1, r.2)
  | .setSegments newSegments => (.unit true, e.setSegments newSegments now)
  | .setSegmentSpeaker index speakerID =>
    let r := e.setSegmentSpeaker index speakerID now; (.flag r.1, r.2)
  | .renameSpeakerGlobal oldID newID =>
    let r := e.renameSpeakerGlobal oldID newID now; (.flag r.1, r.2)
  | .replaceInSegment index fromStr toStr cs =>
    let r := e.replaceInSegment index fromStr toStr cs now; (.count r.1, r.2)
  | .replaceAll fromStr toStr cs =>
    let r := e.replaceAll fromStr toStr cs now; (.count r.1, r.2)
  | .normalizeWhitespaceAll =>
    (.unit (!e.editedTranscript.segments.isEmpty), e.normalizeWhitespaceAll now)

/-- A `moveSegment` or `swapSegments` call whose two indices are equal. -/
def sameIndex : EditorCall → Bool
  | .moveSegment fromIndex toIndex => decide (fromIndex = toIndex)
  | .swapSegments indexA indexB => decide (indexA = indexB)
  | _ => false

/-- A `splitSegment` call. -/
def isSplit : EditorCall → Bool
  | .splitSegment _ _ => true
  | _ => false

end EditorCall

namespace TranscriptEditor

/-- Run the calls one after the other, each at its own time. -/
def performAll (e : TranscriptEditor) : List (EditorCall × Nat) → TranscriptEditor
  | [] => e
  | (c, now) :: rest => performAll (c.perform e now).2 rest

/-- Every call of the sequence reports success when its turn comes. -/
def allSucceed (e : TranscriptEditor) : List (EditorCall × Nat) → Bool
  | [] => true
  | (c, now) :: rest => (c.perform e now).1.success && allSucceed (c.perform e now).2 rest

/-- One `undo()` call per listed time. -/
def undoAll (e : TranscriptEditor) : List Nat → TranscriptEditor
  | [] => e
  | now :: rest => undoAll (e.undo now).2 rest

/-- One `redo()` call per listed time. -/
def redoAll (e : TranscriptEditor) : List Nat → TranscriptEditor
  | [] => e
  | now :: rest => redoAll (e.redo now).2 rest

end TranscriptEditor

/-! ## Segment::startsWithLabel, TranscriptSearch and TranscriptExporter -/

/-- The value of `QString::indexOf` as the C++ `int` it is: `-1` when the pattern is not
found. -/
def indexOfInt (s pat : QString) (from_ : Nat) (cs : CaseSensitivity) : Int :=
  match indexOf s pat from_ cs with
  | some i => (i : Int)
  | none => -1

/-- Embedding of `Segment::startsWithLabel` (Segment.cpp 17-21):
`text.contains(":") && text.indexOf(":") < text.indexOf(" ")`. -/
def Segment.startsWithLabel (s : Segment) : Bool :=
  contains s.text [':'] .CaseSensitive &&
    decide (indexOfInt s.text [':'] 0 .CaseSensitive < indexOfInt s.text [' '] 0 .CaseSensitive)

namespace TranscriptSearch

/-- The loop of `findSegmentsContaining`, at segment number `i`. -/
def findSegmentsContainingLoop (pattern : QString) (cs : CaseSensitivity) :
    List Segment → Nat → List Int
  | [], _ => []
  | seg :: rest, i =>
    if contains seg.text pattern cs then
      (i : Int) :: findSegmentsContainingLoop pattern cs rest (i + 1)
    else findSegmentsContainingLoop pattern cs rest (i + 1)

/-- Embedding of `TranscriptSearch::findSegmentsContaining` (TranscriptSearch.cpp 18-35): the
indices of the segments whose text contains the pattern, and nothing for the empty pattern. -/
def findSegmentsContaining (t : Transcript) (pattern : QString) (cs : CaseSensitivity) :
    List Int :=
  if pattern.isEmpty then []
  else findSegmentsContainingLoop pattern cs t.segments 0

/-- The loop of `findBySpeakersAndText`, at segment number `i`; a segment is skipped when
the speaker filter is on and its speaker is not listed, or when the text filter is on and
its text does not contain the pattern. -/
def findBySpeakersAndTextLoop (speakerIDs : List QString) (pattern : QString)
    (cs : CaseSensitivity) (filterBySpeakers filterByText : Bool) :
    List Segment → Nat → List Int
  | [], _ => []
  | seg :: rest, i =>
    if filterBySpeakers && !decide (seg.speakerID ∈ speakerIDs) then
      findBySpeakersAndTextLoop speakerIDs pattern cs filterBySpeakers filterByText rest (i + 1)
    else if filterByText && !contains seg.text pattern cs then
      findBySpeakersAndTextLoop speakerIDs pattern cs filterBySpeakers filterByText rest (i + 1)
    else
      (i : Int) ::
        findBySpeakersAndTextLoop speakerIDs pattern cs filterBySpeakers filterByText rest (i + 1)

/-- Embedding of `TranscriptSearch::findBySpeakersAndText` (TranscriptSearch.cpp 107-133). -/
def findBySpeakersAndText (t : Transcript) (speakerIDs : List QString) (pattern : QString)
    (cs : CaseSensitivity) : List Int :=
  findBySpeakersAndTextLoop speakerIDs pattern cs (!speakerIDs.isEmpty) (!pattern.isEmpty)
    t.segments 0

end TranscriptSearch

namespace TranscriptExporter

/-- The lines one segment contributes in `buildTranscriptText`: nothing for a segment of
blank text, otherwise `speaker: first line`, the remaining lines and one empty line. -/
def segmentLines (seg : Segment) : List QString :=
  let speaker := if seg.speakerID.isEmpty then "UNKNOWN".toList else seg.speakerID
  let segText := trimmed seg.text
  if segText.isEmpty then []
  else
    match splitNewline segText with
    | [] => []
    | first :: segLines => (speaker ++ ": ".toList ++ first) :: segLines ++ [[]]

/-- Embedding of `TranscriptExporter::buildTranscriptText` (TranscriptExporter.cpp 143-182):
the lines of all segments, without the blank lines at the end, joined by newlines and
closed by one newline. -/
def buildTranscriptText (t : Transcript) : QString :=
  let lines := (t.segments.map segmentLines).flatten
  joinNewline (lines.rdropWhile (fun l => (trimmed l).isEmpty)) ++ ['\n']

end TranscriptExporter

/-! ## Specification vocabulary and sample states -/

/-- A string is made of whitespace only. -/
def allSpace (s : QString) : Prop :=
  ∀ c ∈ s, isSpace c = true

/-- Same document and same history: all of the state that `undo` and `redo` read. -/
def sameHistory (a b : TranscriptEditor) : Prop :=
  a.current = b.current ∧ a.undoStack = b.undoStack ∧ a.redoStack = b.redoStack

/-- The editor `after` has, compared with `before`, one more snapshot on its undo stack,
the `(speakers, segments)` of `before`, and an empty redo stack. -/
def pushedSnapshot (before after : TranscriptEditor) : Prop :=
  after.undoStack = before.undoStack ++ [before.current] ∧ after.redoStack = []

/-- A segment the parser may emit for the speaker list `ks`: its speaker is one of the
list and its text, trimmed, is not empty. -/
def acceptable (ks : List QString) (s : Segment) : Prop :=
  s.speakerID ∈ ks ∧ trimmed s.text ≠ []

/-- Invariant of the line loop of `parseSegments`: the segments emitted so far are
acceptable, and the current speaker is unset or one of the list. -/
def parseInv (ks : List QString) (st : TranscriptParser.ParseState) : Prop :=
  (∀ s ∈ st.segments, acceptable ks s) ∧ (st.currentSpeaker = [] ∨ st.currentSpeaker ∈ ks)

/-- The left-to-right scan behind `replaceAllInString`, for either case mode: where
`fromStr` matches, the occurrence is counted, `toStr` is written and the occurrence is
passed over; elsewhere the character is copied. `skip` is the number of characters of
the current occurrence still to pass over. -/
def scanReplace (cs : CaseSensitivity) (fromStr toStr : QString) : Nat → QString → Nat × QString
  | _, [] => (0, [])
  | skip + 1, _ :: rest => scanReplace cs fromStr toStr skip rest
  | 0, c :: rest =>
    if matchesAt cs fromStr (c :: rest) then
      let r := scanReplace cs fromStr toStr (fromStr.length - 1) rest
      (r.1 + 1, toStr ++ r.2)
    else
      let r := scanReplace cs fromStr toStr 0 rest
      (r.1, c :: r.2)

/-- Specification of the case-sensitive replacement, in the words of the spec: the
original text is scanned left to right; at a position where the next characters are
`fromStr`, one occurrence is counted, `toStr` is written in its place and the scan goes
on right after the occurrence (so occurrences do not overlap and nothing written is
scanned again); at any other position the character is copied. `skip` is the number of
characters of the occurrence just replaced that are still to be passed over. -/
def replaceOccurrencesSpec (fromStr toStr : QString) : Nat → QString → Nat × QString
  | _, [] => (0, [])
  | skip + 1, _ :: rest => replaceOccurrencesSpec fromStr toStr skip rest
  | 0, c :: rest =>
    if (c :: rest).take fromStr.length = fromStr then
      let r := replaceOccurrencesSpec fromStr toStr (fromStr.length - 1) rest
      (r.1 + 1, toStr ++ r.2)
    else
      let r := replaceOccurrencesSpec fromStr toStr 0 rest
      (r.1, c :: r.2)

/-- Every segment's `speakerID` is the id of an entry of the speakers. -/
def speakersRegistered (t : Transcript) : Prop :=
  ∀ s ∈ t.segments, ∃ sp ∈ t.speakers, sp.id = s.speakerID

/-- Every speaker of the segments `after` is the speaker of one of the segments `before`. -/
def idsWithin (after before : List Segment) : Prop :=
  ∀ s ∈ after, ∃ s0 ∈ before, s.speakerID = s0.speakerID

/-- The speakers `after` are the speakers `before` with `speakerID` registered: an entry
with that id is there; nothing changed when `before` had one, and otherwise one entry
named after the id was appended at the end. -/
def registeredAfter (before : List Speaker) (speakerID : QString) (after : List Speaker) :
    Prop :=
  (∃ sp ∈ after, sp.id = speakerID) ∧
    ((∃ sp ∈ before, sp.id = speakerID) → after = before) ∧
    ((∀ sp ∈ before, sp.id ≠ speakerID) →
      ∃ sp : Speaker, sp.id = speakerID ∧ sp.displayName = speakerID ∧ after = before ++ [sp])

/-- No two neighbours in the list have the same speaker. -/
def noAdjacentSameSpeaker (segs : List Segment) : Prop :=
  List.Chain' (fun a b => a.speakerID ≠ b.speakerID) segs

/-- The text holds three line feeds in a row. -/
def hasTripleNewline : QString → Bool
  | a :: b :: c :: rest =>
    (a == '\n' && b == '\n' && c == '\n') || hasTripleNewline (b :: c :: rest)
  | _ => false

/-- Every line of the text, cut at the line feeds, has no whitespace at either end. -/
def linesTrimmed (t : QString) : Prop :=
  ∀ l ∈ splitNewline t, trimmed l = l

/-- No two consecutive lines of the text are blank. -/
def noTwoBlankLines (t : QString) : Prop :=
  List.Chain' (fun a b => ¬ (allSpace a ∧ allSpace b)) (splitNewline t)

/-- Normal form of a segment text: no whitespace at either end of the text or of any of
its lines, and no run of three or more line feeds. -/
def normalForm (t : QString) : Prop :=
  trimmed t = t ∧ linesTrimmed t ∧ hasTripleNewline t = false

/-- Every line of the text after the first is empty or holds a non-blank. -/
def laterLinesOpen (text : QString) : Prop :=
  ∀ l ∈ (splitNewline text).tail, l = [] ∨ ∃ c ∈ l, isSpace c = false

/-- A tidy text: no whitespace at either end of the text or of any of its lines, and no
two blank lines in a row. -/
def tidyText (t : QString) : Prop :=
  trimmed t = t ∧ linesTrimmed t ∧ noTwoBlankLines t

/-- Invariant of the line loop of `parseSegments` on the texts: every text emitted so far
is tidy and not empty, and no line of the buffer after the first is blank without being
empty. -/
def textInv (st : TranscriptParser.ParseState) : Prop :=
  (∀ s ∈ st.segments, tidyText s.text ∧ s.text ≠ []) ∧ laterLinesOpen st.currentText

/-- An editor freshly bound to a transcript of two segments of speaker `A`. -/
def sampleStart : TranscriptEditor :=
  { editedTranscript :=
      { speakers := [⟨"A".toList, "A".toList, none⟩]
        segments := [⟨"A".toList, "ABCDE".toList⟩, ⟨"A".toList, "old".toList⟩] } }

/-- The editor `sampleStart` after `setSegmentText(1, " y")`, `setSegmentText(1, "z")` and
one `undo()`: a snapshot on each stack. -/
def sampleEditor : TranscriptEditor :=
  { editedTranscript :=
      { speakers := [⟨"A".toList, "A".toList, none⟩]
        segments := [⟨"A".toList, "ABCDE".toList⟩, ⟨"A".toList, " y".toList⟩]
        lastEdited := 3 }
    undoStack :=
      [⟨[⟨"A".toList, "A".toList, none⟩],
        [⟨"A".toList, "ABCDE".toList⟩, ⟨"A".toList, "old".toList⟩]⟩]
    redoStack :=
      [⟨[⟨"A".toList, "A".toList, none⟩],
        [⟨"A".toList, "ABCDE".toList⟩, ⟨"A".toList, "z".toList⟩]⟩] }

/-- An editor over an empty transcript with empty history. -/
def emptyEditor : TranscriptEditor :=
  { editedTranscript := {} }

open TranscriptParser TranscriptEditor

/-! ## Trimming -/

theorem rdropWhile_append_rtakeWhile {α : Type} (p : α → Bool) (l : List α) :
    l.rdropWhile p ++ l.rtakeWhile p = l := by
  have h := List.takeWhile_append_dropWhile p l.reverse
  have h2 := congrArg List.reverse h
  rw [List.reverse_append, List.reverse_reverse] at h2
  exact h2

theorem rtakeWhile_all {α : Type} (p : α → Bool) (l : List α) :
    ∀ x ∈ l.rtakeWhile p, p x = true := by
  intro x hx
  simp only [List.rtakeWhile, List.mem_reverse] at hx
  exact List.mem_takeWhile_imp hx

/-- Every string is its trimmed core between two runs of whitespace. -/
theorem trimmed_decompose (s : QString) :
    ∃ pre post, s = pre ++ trimmed s ++ post ∧ allSpace pre ∧ allSpace post := by
  refine ⟨s.takeWhile isSpace, (s.dropWhile isSpace).rtakeWhile isSpace, ?_, ?_, ?_⟩
  · unfold trimmed
    rw [List.append_assoc, rdropWhile_append_rtakeWhile, List.takeWhile_append_dropWhile]
  · intro c hc; exact List.mem_takeWhile_imp hc
  · exact rtakeWhile_all isSpace _

theorem trimmed_eq_nil_iff (s : QString) : trimmed s = [] ↔ allSpace s := by
  unfold trimmed allSpace
  rw [List.rdropWhile_eq_nil_iff]
  constructor
  · intro h c hc
    by_contra hsp
    have hne : List.dropWhile isSpace s ≠ [] := by
      intro h0
      exact hsp (List.dropWhile_eq_nil_iff.mp h0 c hc)
    have h1 := List.head_dropWhile_not isSpace s hne
    have h2 := h _ (List.head_mem hne)
    simp [h2] at h1
  · intro h c hc
    exact h c ((List.dropWhile_sublist _).subset hc)

/-- The first character of a non-empty trimmed string is not whitespace. -/
theorem trimmed_head (s : QString) (h : trimmed s ≠ []) :
    ∃ x rest, trimmed s = x :: rest ∧ isSpace x = false := by
  have hne : List.dropWhile isSpace s ≠ [] := by
    intro h0; apply h; unfold trimmed; rw [h0]; simp
  have hpre : trimmed s <+: List.dropWhile isSpace s := List.rdropWhile_prefix _ _
  have hhead := hpre.head h
  have h1 := List.head_dropWhile_not isSpace s hne
  cases hts : trimmed s with
  | nil => exact absurd hts h
  | cons x rest =>
    refine ⟨x, rest, rfl, ?_⟩
    have : (trimmed s).head h = x := by simp [hts]
    rw [← this, hhead]
    simpa using h1

/-- The last character of a non-empty trimmed string is not whitespace. -/
theorem trimmed_last (s : QString) (h : trimmed s ≠ []) :
    ∃ init y, trimmed s = init ++ [y] ∧ isSpace y = false := by
  have h1 := List.rdropWhile_last_not (p := isSpace) (l := List.dropWhile isSpace s) h
  refine ⟨(trimmed s).dropLast, (trimmed s).getLast h, (List.dropLast_append_getLast h).symm, ?_⟩
  simpa [trimmed] using h1

/-- A string that starts and ends with a non-blank is what trimming leaves of it when
whitespace is put around it. -/
theorem trimmed_sandwich (pre a post : QString) (x y : Char) (rest init : QString)
    (hx : a = x :: rest) (hxs : isSpace x = false) (hy : a = init ++ [y])
    (hys : isSpace y = false) (hpre : allSpace pre) (hpost : allSpace post) :
    trimmed (pre ++ a ++ post) = a := by
  unfold trimmed
  have h1 : List.dropWhile isSpace (pre ++ a ++ post) = a ++ post := by
    rw [List.append_assoc, List.dropWhile_append_of_pos hpre, hx]
    simp [List.dropWhile_cons_of_neg, hxs]
  rw [h1, List.rdropWhile, List.reverse_append]
  have hpr : ∀ c ∈ post.reverse, isSpace c = true := fun c hc => hpost c (List.mem_reverse.mp hc)
  rw [List.dropWhile_append_of_pos hpr]
  rw [hy]
  simp [List.dropWhile_cons_of_neg, hys]

/-- Trimming the concatenation of two strings that both have a non-blank character:
the trimmed parts with the whitespace between them. -/
theorem trimmed_append (l r : QString) (hl : trimmed l ≠ []) (hr : trimmed r ≠ []) :
    ∃ ws, allSpace ws ∧ trimmed (l ++ r) = trimmed l ++ ws ++ trimmed r := by
  obtain ⟨p1, q1, hl1, hp1, hq1⟩ := trimmed_decompose l
  obtain ⟨p2, q2, hr1, hp2, hq2⟩ := trimmed_decompose r
  obtain ⟨x, rest, hx, hxs⟩ := trimmed_head l hl
  obtain ⟨init, y, hy, hys⟩ := trimmed_last r hr
  refine ⟨q1 ++ p2, ?_, ?_⟩
  · intro c hc
    rcases List.mem_append.mp hc with h | h
    · exact hq1 c h
    · exact hp2 c h
  · have hs : l ++ r = p1 ++ (trimmed l ++ (q1 ++ p2) ++ trimmed r) ++ q2 := by
      conv_lhs => rw [hl1, hr1]
      simp [List.append_assoc]
    rw [hs]
    apply trimmed_sandwich p1 _ q2 x y (rest ++ (q1 ++ p2) ++ trimmed r)
      (trimmed l ++ (q1 ++ p2) ++ init) _ hxs _ hys hp1 hq2
    · rw [hx]; simp
    · rw [hy]; simp

/-! ## Parser invariants -/

theorem trimmed_ne_nil_iff (s : QString) : trimmed s ≠ [] ↔ ∃ c ∈ s, isSpace c = false := by
  rw [Ne, trimmed_eq_nil_iff]
  unfold allSpace
  constructor
  · intro h
    by_contra hc
    apply h
    intro c hcs
    by_contra hsp
    exact hc ⟨c, hcs, by simpa using hsp⟩
  · rintro ⟨c, hcs, hsp⟩ h
    rw [h c hcs] at hsp
    exact Bool.noConfusion hsp

theorem isSpace_newline : isSpace '\n' = true := by decide

theorem splitNewline_cons_of_ne (x : Char) (r : QString) (hx : x ≠ '\n') :
    ∃ l ls, splitNewline (x :: r) = (x :: l) :: ls := by
  simp only [splitNewline, if_neg hx]
  cases h : splitNewline r with
  | nil => exact ⟨[], [], rfl⟩
  | cons l ls => exact ⟨l, ls, rfl⟩

theorem joinNewline_cons (a : QString) (rest : List QString) :
    ∃ more, joinNewline (a :: rest) = a ++ more := by
  cases rest with
  | nil => exact ⟨[], by simp [joinNewline, List.intercalate]⟩
  | cons b r =>
    exact ⟨'\n' :: joinNewline (b :: r), by simp [joinNewline, List.intercalate]⟩

/-- A text that normalises to something non-empty normalises to something with a
non-blank character in it. -/
theorem normalizeText_nonBlank (text : QString) (h : normalizeText text ≠ []) :
    ∃ c ∈ normalizeText text, isSpace c = false := by
  unfold normalizeText at h ⊢
  simp only [] at h ⊢
  by_cases ht : (trimmed text).isEmpty = true
  · rw [if_pos ht] at h
    exact absurd (List.isEmpty_iff.mp ht) h
  · rw [if_neg ht]
    have hne : trimmed text ≠ [] := fun h0 => ht (List.isEmpty_iff.mpr h0)
    obtain ⟨x, rest, hx, hxs⟩ := trimmed_head text hne
    have hxn : x ≠ '\n' := by
      intro h0; rw [h0, isSpace_newline] at hxs; exact Bool.noConfusion hxs
    have hc : collapseNewlines (trimmed text) = x :: collapseNewlinesAux 0 rest := by
      rw [hx]; simp [collapseNewlines, collapseNewlinesAux, hxn]
    obtain ⟨l, ls, hsplit⟩ := splitNewline_cons_of_ne x (collapseNewlinesAux 0 rest) hxn
    rw [hc, hsplit, List.map_cons]
    have hne2 : trimmed (x :: l) ≠ [] := (trimmed_ne_nil_iff _).mpr ⟨x, by simp, hxs⟩
    obtain ⟨y, rest2, hy, hys⟩ := trimmed_head (x :: l) hne2
    obtain ⟨more, hj⟩ := joinNewline_cons (trimmed (x :: l)) (List.map trimmed ls)
    rw [hj, hy]
    exact ⟨y, by simp, hys⟩

theorem startsWithSpeakerLabel_mem (line : QString) (ks : List QString) (sp after : QString)
    (h : startsWithSpeakerLabel line ks = some (sp, after)) : sp ∈ ks := by
  unfold startsWithSpeakerLabel at h
  simp only [] at h
  split at h
  · exact Option.noConfusion h
  · obtain ⟨a, ha, hfa⟩ := List.exists_of_findSome?_eq_some h
    split at hfa
    · simp only [Option.some.injEq, Prod.mk.injEq] at hfa
      rw [← hfa.1]; exact ha
    · exact Option.noConfusion hfa

theorem collectHits_speaker (full label sp : QString) (fuel : Nat) (idx : Option Nat) :
    ∀ h ∈ collectHits full label sp fuel idx, h.speaker = sp := by
  induction fuel generalizing idx with
  | zero => intro h hh; simp [collectHits] at hh
  | succ n ih =>
    intro h hh
    cases idx with
    | none => simp [collectHits] at hh
    | some i =>
      simp only [collectHits, List.mem_cons] at hh
      rcases hh with rfl | hh
      · rfl
      · exact ih _ h hh

theorem foldl_hits_speaker (full : QString) (ks : List QString) :
    ∀ (acc : List Hit), ∀ h ∈ ks.foldl (fun hits sp => hits ++ hitsOfSpeaker full sp) acc,
      h ∈ acc ∨ h.speaker ∈ ks := by
  induction ks with
  | nil => intro acc h hh; exact Or.inl hh
  | cons k ks ih =>
    intro acc h hh
    rw [List.foldl_cons] at hh
    rcases ih _ h hh with h1 | h1
    · rcases List.mem_append.mp h1 with h2 | h2
      · exact Or.inl h2
      · right
        have := collectHits_speaker _ _ _ _ _ h h2
        rw [this]; exact List.mem_cons_self _ _
    · exact Or.inr (List.mem_cons_of_mem _ h1)

theorem allHits_speaker (full : QString) (ks : List QString) :
    ∀ h ∈ allHits full ks, h.speaker ∈ ks := by
  intro h hh
  rcases foldl_hits_speaker full ks [] h hh with h1 | h1
  · simp at h1
  · exact h1

theorem sortHits_speaker (hits : List Hit) (ks : List QString)
    (h : ∀ x ∈ hits, x.speaker ∈ ks) : ∀ x ∈ sortHits hits, x.speaker ∈ ks := by
  intro x hx
  exact h x ((List.perm_insertionSort _ hits).mem_iff.mp hx)

/-- The slicing loop only hands out the initial speaker and speakers of the hits. -/
theorem foldl_sliceStep_speaker (full : QString) (ks : List QString) (init : QString)
    (hits : List Hit) (hh : ∀ x ∈ hits, x.speaker ∈ ks) :
    ∀ (st : SliceState), (st.activeSpeaker = init ∨ st.activeSpeaker ∈ ks) →
      (∀ p ∈ st.result, p.1 = init ∨ p.1 ∈ ks) →
      ((hits.foldl (sliceStep full) st).activeSpeaker = init ∨
          (hits.foldl (sliceStep full) st).activeSpeaker ∈ ks) ∧
        ∀ p ∈ (hits.foldl (sliceStep full) st).result, p.1 = init ∨ p.1 ∈ ks := by
  induction hits with
  | nil => intro st h1 h2; exact ⟨h1, h2⟩
  | cons x xs ih =>
    intro st h1 h2
    rw [List.foldl_cons]
    apply ih (fun y hy => hh y (List.mem_cons_of_mem _ hy))
    · exact Or.inr (hh x (List.mem_cons_self _ _))
    · intro p hp
      simp only [sliceStep] at hp
      split at hp
      · rcases List.mem_append.mp hp with h3 | h3
        · exact h2 p h3
        · simp only [List.mem_singleton] at h3
          rw [h3]; exact h1
      · exact h2 p hp

/-- Every run of `splitInlineLabels` belongs to the initial speaker or to a known one. -/
theorem splitInlineLabels_speaker (text : QString) (ks : List QString) (init : QString) :
    ∀ p ∈ splitInlineLabels text ks init, p.1 = init ∨ p.1 ∈ ks := by
  intro p hp
  unfold splitInlineLabels at hp
  simp only [] at hp
  split at hp
  · simp at hp
  · split at hp
    · split at hp
      · simp only [List.mem_singleton] at hp
        rw [hp]; exact Or.inl rfl
      · simp at hp
    · have hfold := foldl_sliceStep_speaker text ks init (sortHits (allHits text ks))
        (sortHits_speaker _ ks (allHits_speaker text ks)) ⟨[], init, 0⟩ (Or.inl rfl)
        (by intro q hq; simp at hq)
      split at hp
      · rcases List.mem_append.mp hp with h3 | h3
        · exact hfold.2 p h3
        · simp only [List.mem_singleton] at h3
          rw [h3]; exact hfold.1
      · exact hfold.2 p hp

theorem flushSegment_inv (ks : List QString) (st : ParseState) (h : parseInv ks st) :
    parseInv ks (flushSegment st) := by
  obtain ⟨h1, h2⟩ := h
  refine ⟨?_, h2⟩
  intro s hs
  simp only [flushSegment] at hs
  split at hs
  next hc =>
    simp only [Bool.and_eq_true, Bool.not_eq_true', List.isEmpty_eq_false] at hc
    rcases List.mem_append.mp hs with h3 | h3
    · exact h1 s h3
    · simp only [List.mem_singleton] at h3
      subst h3
      refine ⟨?_, ?_⟩
      · rcases h2 with h4 | h4
        · exact absurd h4 hc.1
        · exact h4
      · exact (trimmed_ne_nil_iff _).mpr (normalizeText_nonBlank _ hc.2)
  next => exact h1 s hs

theorem integratePart_inv (ks : List QString) (st : ParseState) (part : QString × QString)
    (h : parseInv ks st) (hp : part.1 = [] ∨ part.1 ∈ ks) :
    parseInv ks (integratePart st part) := by
  unfold integratePart
  simp only []
  split
  · exact h
  · split
    · exact ⟨h.1, hp⟩
    · split
      · exact ⟨h.1, h.2⟩
      · exact ⟨(flushSegment_inv ks st h).1, hp⟩

theorem foldl_integratePart_inv (ks : List QString) (parts : List (QString × QString))
    (hp : ∀ p ∈ parts, p.1 = [] ∨ p.1 ∈ ks) :
    ∀ st, parseInv ks st → parseInv ks (parts.foldl integratePart st) := by
  induction parts with
  | nil => intro st h; exact h
  | cons p ps ih =>
    intro st h
    rw [List.foldl_cons]
    exact ih (fun q hq => hp q (List.mem_cons_of_mem _ hq)) _
      (integratePart_inv ks st p h (hp p (List.mem_cons_self _ _)))

theorem integrateLine_inv (ks : List QString) (st : ParseState) (base content : QString)
    (h : parseInv ks st) (hbase : base = [] ∨ base ∈ ks) :
    parseInv ks (integrateLine ks st base content) := by
  unfold integrateLine
  simp only []
  split
  · split
    · have hst2 : parseInv ks
          (if st.currentSpeaker.isEmpty then { st with currentSpeaker := base } else st) := by
        split
        · exact ⟨h.1, hbase⟩
        · exact h
      generalize (if st.currentSpeaker.isEmpty then { st with currentSpeaker := base } else st)
        = st2 at hst2 ⊢
      split
      · exact ⟨hst2.1, hst2.2⟩
      · exact ⟨(flushSegment_inv ks _ hst2).1, hbase⟩
    · exact h
  · apply foldl_integratePart_inv ks _ _ _ h
    intro p hp
    rcases splitInlineLabels_speaker _ ks _ p hp with h1 | h1
    · rw [h1]; exact hbase
    · exact Or.inr h1

theorem processLine_inv (ks : List QString) (st : ParseState) (line : QString)
    (h : parseInv ks st) : parseInv ks (processLine ks st line) := by
  unfold processLine
  split
  · split
    · exact ⟨h.1, h.2⟩
    · exact h
  · split
    next sp after hl =>
      exact integrateLine_inv ks _ sp after (flushSegment_inv ks st h)
        (Or.inr (startsWithSpeakerLabel_mem line ks sp after hl))
    next => exact integrateLine_inv ks st _ line h h.2

theorem foldl_processLine_inv (ks : List QString) (lines : List QString) :
    ∀ st, parseInv ks st → parseInv ks (lines.foldl (processLine ks) st) := by
  induction lines with
  | nil => intro st h; exact h
  | cons l ls ih =>
    intro st h
    rw [List.foldl_cons]
    exact ih _ (processLine_inv ks st l h)

/-- Every segment that `parseSegments` returns is acceptable. -/
theorem parseSegments_acceptable (rawText : QString) (ks : List QString) :
    ∀ s ∈ parseSegments rawText ks, acceptable ks s := by
  unfold parseSegments
  simp only []
  exact (flushSegment_inv ks _
    (foldl_processLine_inv ks _ _ ⟨by intro s hs; simp at hs, Or.inl rfl⟩)).1

/-! ## Registration of speakers and the final merge -/

theorem appendText_acceptable (ks : List QString) (s : Segment) (extra : QString)
    (h : acceptable ks s) : acceptable ks (s.appendText extra) := by
  unfold Segment.appendText
  split
  · exact h
  · refine ⟨h.1, ?_⟩
    obtain ⟨c, hc, hcs⟩ := (trimmed_ne_nil_iff _).mp h.2
    apply (trimmed_ne_nil_iff _).mpr
    refine ⟨c, ?_, hcs⟩
    simp only []
    split
    · simp [hc]
    · simp [hc]

theorem mergeLoop_acceptable (ks : List QString) (rest : List Segment) :
    ∀ (merged : List Segment) (current : Segment),
      (∀ s ∈ rest, acceptable ks s) → (∀ s ∈ merged, acceptable ks s) → acceptable ks current →
      ∀ s ∈ Transcript.mergeLoop rest merged current, acceptable ks s := by
  induction rest with
  | nil =>
    intro merged current _ hm hc s hs
    simp only [Transcript.mergeLoop, List.mem_append, List.mem_singleton] at hs
    rcases hs with h | h
    · exact hm s h
    · rw [h]; exact hc
  | cons next rest ih =>
    intro merged current hr hm hc s hs
    simp only [Transcript.mergeLoop] at hs
    have hrest : ∀ s ∈ rest, acceptable ks s := fun x hx => hr x (List.mem_cons_of_mem _ hx)
    split at hs
    · exact ih merged _ hrest hm (appendText_acceptable ks current _ hc) s hs
    · refine ih _ next hrest ?_ (hr next (List.mem_cons_self _ _)) s hs
      intro x hx
      rcases List.mem_append.mp hx with h | h
      · exact hm x h
      · simp only [List.mem_singleton] at h
        rw [h]; exact hc

theorem mergeAdjacentSameSpeaker_acceptable (ks : List QString) (t : Transcript)
    (h : ∀ s ∈ t.segments, acceptable ks s) :
    ∀ s ∈ t.mergeAdjacentSameSpeaker.segments, acceptable ks s := by
  unfold Transcript.mergeAdjacentSameSpeaker
  split
  next first second rest heq =>
    simp only []
    rw [heq] at h
    exact mergeLoop_acceptable ks _ [] first
      (fun s hs => h s (List.mem_cons_of_mem _ hs)) (by intro s hs; simp at hs)
      (h first (List.mem_cons_self _ _))
  next => exact h

theorem mergeAdjacentSameSpeaker_speakers (t : Transcript) :
    t.mergeAdjacentSameSpeaker.speakers = t.speakers := by
  unfold Transcript.mergeAdjacentSameSpeaker
  split <;> rfl

theorem foldl_addSegment (l : List Segment) :
    ∀ t : Transcript, (l.foldl (fun t s => t.addSegment s) t).segments = t.segments ++ l ∧
      (l.foldl (fun t s => t.addSegment s) t).speakers = t.speakers := by
  induction l with
  | nil => intro t; simp
  | cons s l ih =>
    intro t
    rw [List.foldl_cons]
    obtain ⟨h1, h2⟩ := ih (t.addSegment s)
    rw [h1, h2]
    simp [Transcript.addSegment]

theorem findSpeakerIndexAux_eq_neg_one (speakerID : QString) (l : List Speaker) :
    ∀ i : Nat, Transcript.findSpeakerIndexAux speakerID l i = -1 ↔ ∀ sp ∈ l, sp.id ≠ speakerID := by
  induction l with
  | nil => intro i; simp [Transcript.findSpeakerIndexAux]
  | cons sp rest ih =>
    intro i
    simp only [Transcript.findSpeakerIndexAux]
    split
    next heq =>
      constructor
      · intro h; omega
      · intro h; exact absurd heq (h sp (List.mem_cons_self _ _))
    next hne =>
      rw [ih (i + 1)]
      constructor
      · intro h x hx
        rcases List.mem_cons.mp hx with rfl | hx
        · exact hne
        · exact h x hx
      · intro h x hx
        exact h x (List.mem_cons_of_mem _ hx)

/-- The speaker list after `addSpeakerIfMissing`: the id is there, no id is lost, the
ids stay free of repetitions, and the segments are not touched. -/
theorem addSpeakerIfMissing_spec (t : Transcript) (speakerID : QString)
    (h : (t.speakers.map Speaker.id).Nodup) :
    ((t.addSpeakerIfMissing speakerID).speakers.map Speaker.id).Nodup ∧
      speakerID ∈ (t.addSpeakerIfMissing speakerID).speakers.map Speaker.id ∧
      (∀ x ∈ t.speakers.map Speaker.id, x ∈ (t.addSpeakerIfMissing speakerID).speakers.map Speaker.id) ∧
      (t.addSpeakerIfMissing speakerID).segments = t.segments := by
  unfold Transcript.addSpeakerIfMissing
  split
  next heq =>
    have hnot := (findSpeakerIndexAux_eq_neg_one speakerID t.speakers 0).mp heq
    have hnotin : speakerID ∉ t.speakers.map Speaker.id := by
      intro hin
      obtain ⟨sp, hsp, hid⟩ := List.mem_map.mp hin
      exact hnot sp hsp hid
    refine ⟨?_, ?_, ?_, rfl⟩
    · simp only [List.map_append, List.map_cons, List.map_nil]
      rw [List.nodup_append]
      refine ⟨h, List.nodup_singleton _, ?_⟩
      intro x hx hx2
      simp only [List.mem_singleton] at hx2
      rw [hx2] at hx
      exact hnotin hx
    · simp
    · intro x hx; simp only [List.map_append, List.mem_append]; exact Or.inl hx
  next hne =>
    refine ⟨h, ?_, fun x hx => hx, rfl⟩
    by_contra hnotin
    apply hne
    apply (findSpeakerIndexAux_eq_neg_one speakerID t.speakers 0).mpr
    intro sp hsp hid
    exact hnotin (List.mem_map.mpr ⟨sp, hsp, hid⟩)

theorem foldl_addSpeakerIfMissing (ks : List QString) :
    ∀ t : Transcript, (t.speakers.map Speaker.id).Nodup →
      ((ks.foldl (fun t sp => t.addSpeakerIfMissing sp) t).speakers.map Speaker.id).Nodup ∧
      (∀ k ∈ ks, k ∈ (ks.foldl (fun t sp => t.addSpeakerIfMissing sp) t).speakers.map Speaker.id) ∧
      (∀ x ∈ t.speakers.map Speaker.id,
        x ∈ (ks.foldl (fun t sp => t.addSpeakerIfMissing sp) t).speakers.map Speaker.id) ∧
      (ks.foldl (fun t sp => t.addSpeakerIfMissing sp) t).segments = t.segments := by
  induction ks with
  | nil => intro t h; exact ⟨h, by intro k hk; simp at hk, fun x hx => hx, rfl⟩
  | cons k ks ih =>
    intro t h
    rw [List.foldl_cons]
    obtain ⟨a1, a2, a3, a4⟩ := addSpeakerIfMissing_spec t k h
    obtain ⟨b1, b2, b3, b4⟩ := ih (t.addSpeakerIfMissing k) a1
    refine ⟨b1, ?_, fun x hx => b3 x (a3 x hx), b4.trans a4⟩
    intro x hx
    rcases List.mem_cons.mp hx with rfl | hx
    · exact b3 _ a2
    · exact b2 x hx

/-- What a successful `parse` leaves: acceptable segments, and a speaker list without
repeated ids that holds every known speaker. -/
theorem parse_success (rawText : QString) (t : Transcript) (ks : List QString)
    (h : (parse rawText t ks).1 = true) :
    (∀ s ∈ (parse rawText t ks).2.segments, acceptable ks s) ∧
      ((parse rawText t ks).2.speakers.map Speaker.id).Nodup ∧
      ∀ k ∈ ks, k ∈ (parse rawText t ks).2.speakers.map Speaker.id := by
  revert h
  unfold parse
  simp only []
  split
  · simp
  · split
    · simp
    · intro _
      simp only []
      obtain ⟨b1, b2, _, b4⟩ := foldl_addSpeakerIfMissing ks
        { t with segments := [], speakers := [] } (by simp)
      obtain ⟨c1, c2⟩ := foldl_addSegment (parseSegments rawText ks)
        (ks.foldl (fun t sp => t.addSpeakerIfMissing sp) { t with segments := [], speakers := [] })
      refine ⟨?_, ?_, ?_⟩
      · apply mergeAdjacentSameSpeaker_acceptable
        rw [c1, b4]
        simpa using parseSegments_acceptable rawText ks
      · rw [mergeAdjacentSameSpeaker_speakers, c2]; exact b1
      · rw [mergeAdjacentSameSpeaker_speakers, c2]; exact b2

/-- A failed `parse` leaves neither segments nor speakers. -/
theorem parse_false_clears (rawText : QString) (t : Transcript) (ks : List QString)
    (h : (parse rawText t ks).1 = false) :
    (parse rawText t ks).2.segments = [] ∧ (parse rawText t ks).2.speakers = [] := by
  revert h
  unfold parse
  simp only []
  split
  · simp
  · split
    · simp
    · simp

/-! ## Claims on the parser -/

/-- C1: for a non-empty `rawText` and a non-empty `knownSpeakers`, `parse` either returns
`false` and leaves a transcript without segments and without speakers, or returns
`true` and leaves segments whose `speakerID` is an element of `knownSpeakers` and whose
text, trimmed, is not empty. -/
theorem parse_fails_empty_or_segments_known (rawText : QString) (t : Transcript)
    (knownSpeakers : List QString) (_hraw : rawText ≠ []) (_hks : knownSpeakers ≠ []) :
    ((parse rawText t knownSpeakers).1 = false ∧
        (parse rawText t knownSpeakers).2.segments = [] ∧
        (parse rawText t knownSpeakers).2.speakers = []) ∨
      ((parse rawText t knownSpeakers).1 = true ∧
        ∀ s ∈ (parse rawText t knownSpeakers).2.segments,
          s.speakerID ∈ knownSpeakers ∧ trimmed s.text ≠ []) := by
  cases h : (parse rawText t knownSpeakers).1 with
  | false => exact Or.inl ⟨rfl, parse_false_clears rawText t knownSpeakers h⟩
  | true => exact Or.inr ⟨rfl, (parse_success rawText t knownSpeakers h).1⟩

/-- C1 on the second scenario of the specification: the parse succeeds. -/
theorem parse_fails_empty_or_segments_known_witness :
    "Stephen: Hi Stan: hello back".toList ≠ [] ∧
      ["Stephen".toList, "Stan".toList] ≠ [] ∧
      (parse "Stephen: Hi Stan: hello back".toList sampleEditor.editedTranscript
        ["Stephen".toList, "Stan".toList]).1 = true ∧
      ∀ s ∈ (parse "Stephen: Hi Stan: hello back".toList sampleEditor.editedTranscript
          ["Stephen".toList, "Stan".toList]).2.segments,
        s.speakerID ∈ ["Stephen".toList, "Stan".toList] ∧ trimmed s.text ≠ [] :=
  ⟨by decide, by decide, by decide,
    ((parse_fails_empty_or_segments_known "Stephen: Hi Stan: hello back".toList
      sampleEditor.editedTranscript ["Stephen".toList, "Stan".toList]
      (by decide) (by decide)).resolve_left (by decide)).2⟩

/-- C2: `parse` returns `false` exactly when `knownSpeakers` is empty or `parseSegments`
yields no segment; and whenever it returns `false`, the transcript it leaves has no
segments and no speakers, whatever the transcript held before. -/
theorem parse_false_iff_and_clears (rawText : QString) (t : Transcript)
    (knownSpeakers : List QString) :
    ((parse rawText t knownSpeakers).1 = false ↔
        (knownSpeakers = [] ∨ parseSegments rawText knownSpeakers = [])) ∧
      ((parse rawText t knownSpeakers).1 = false →
        (parse rawText t knownSpeakers).2.segments = [] ∧
          (parse rawText t knownSpeakers).2.speakers = []) := by
  refine ⟨?_, parse_false_clears rawText t knownSpeakers⟩
  unfold parse
  simp only []
  split
  next h1 => simp [List.isEmpty_iff.mp h1]
  next h1 =>
    split
    next h2 => simp [List.isEmpty_iff.mp h2]
    next h2 =>
      simp only [List.isEmpty_iff] at h1 h2
      simp [h1, h2]

/-- C2 at a sample input: a text without any label, parsed into a transcript that held
two segments and a speaker. -/
theorem parse_false_iff_and_clears_witness :
    (parse "no label here".toList sampleEditor.editedTranscript ["Stan".toList]).1 = false ∧
      sampleEditor.editedTranscript.segments ≠ [] ∧
      (parse "no label here".toList sampleEditor.editedTranscript ["Stan".toList]).2.segments = [] ∧
      (parse "no label here".toList sampleEditor.editedTranscript ["Stan".toList]).2.speakers = [] :=
  ⟨by decide, by decide,
    (parse_false_iff_and_clears "no label here".toList sampleEditor.editedTranscript
      ["Stan".toList]).2 (by decide)⟩

/-- C3: after a successful `parse`, for any `knownSpeakers` (repeated names included),
every segment's `speakerID` is the id of an entry of the transcript's speakers, and no
two entries of the speakers have the same id. -/
theorem parse_registers_speakers (rawText : QString) (t : Transcript)
    (knownSpeakers : List QString) (h : (parse rawText t knownSpeakers).1 = true) :
    (∀ s ∈ (parse rawText t knownSpeakers).2.segments,
        ∃ sp ∈ (parse rawText t knownSpeakers).2.speakers, sp.id = s.speakerID) ∧
      ((parse rawText t knownSpeakers).2.speakers.map Speaker.id).Nodup := by
  obtain ⟨h1, h2, h3⟩ := parse_success rawText t knownSpeakers h
  refine ⟨?_, h2⟩
  intro s hs
  obtain ⟨sp, hsp, hid⟩ := List.mem_map.mp (h3 _ (h1 s hs).1)
  exact ⟨sp, hsp, hid⟩

/-- C3 at a sample input with a repeated name in `knownSpeakers`. -/
theorem parse_registers_speakers_witness :
    (parse "Stan: hi\nStephen: ho".toList sampleEditor.editedTranscript
        ["Stan".toList, "Stan".toList, "Stephen".toList]).1 = true ∧
      ((parse "Stan: hi\nStephen: ho".toList sampleEditor.editedTranscript
        ["Stan".toList, "Stan".toList, "Stephen".toList]).2.speakers.map Speaker.id).Nodup :=
  ⟨by decide,
    (parse_registers_speakers "Stan: hi\nStephen: ho".toList sampleEditor.editedTranscript
      ["Stan".toList, "Stan".toList, "Stephen".toList] (by decide)).2⟩

/-! ## Snapshots pushed by the calls -/

/-- A successful call other than `splitSegment` and other than a same-index
`moveSegment`/`swapSegments` pushes the state it found and clears the redo stack. -/
theorem perform_records (e : TranscriptEditor) (c : EditorCall) (now : Nat)
    (hs : (c.perform e now).1.success = true) (hsame : c.sameIndex = false)
    (hsplit : c.isSplit = false) :
    (c.perform e now).2.undoStack = e.undoStack ++ [e.current] ∧
      (c.perform e now).2.redoStack = [] := by
  cases c <;> simp only [EditorCall.perform, Outcome.success, EditorCall.sameIndex,
      EditorCall.isSplit] at hs hsame hsplit ⊢
  case setSegmentText index newText =>
    revert hs; simp only [setSegmentText]; split_ifs <;>
      simp [saveSnapshot, withSegments, markEdited]
  case appendToSegment index extraText =>
    revert hs; simp only [appendToSegment]; split_ifs <;>
      simp [saveSnapshot, withSegments, markEdited]
  case splitSegment => simp at hsplit
  case mergeWithNext index =>
    revert hs; simp only [mergeWithNext]; split_ifs <;>
      simp [saveSnapshot, withSegments, markEdited]
  case deleteSegment index =>
    revert hs; simp only [deleteSegment]; split_ifs <;>
      simp [saveSnapshot, withSegments, markEdited]
  case insertSegment index segment =>
    revert hs; simp only [insertSegment]; split_ifs <;>
      simp [saveSnapshot, withSegments, markEdited, ensureSpeakerExists]
  case moveSegment fromIndex toIndex =>
    revert hs; simp only [moveSegment]; split_ifs with h1 h2 h3
    · simp
    · simp
    · simp [h3] at hsame
    · simp [saveSnapshot, withSegments, markEdited]
    · simp [saveSnapshot, withSegments, markEdited]
  case swapSegments indexA indexB =>
    revert hs; simp only [swapSegments]; split_ifs with h1 h3
    · simp
    · simp [h3] at hsame
    · simp [saveSnapshot, withSegments, markEdited]
  case removeSegment index =>
    revert hs; simp only [removeSegment, deleteSegment]; split_ifs <;>
      simp [saveSnapshot, withSegments, markEdited]
  case setSegments newSegments =>
    simp [setSegments, saveSnapshot, withSegments, markEdited]
  case setSegmentSpeaker index speakerID =>
    revert hs; simp only [setSegmentSpeaker]; split_ifs <;>
      simp [saveSnapshot, withSegments, markEdited, ensureSpeakerExists]
  case renameSpeakerGlobal oldID newID =>
    revert hs; simp only [renameSpeakerGlobal]; split_ifs <;>
      simp [saveSnapshot, withSegments, markEdited]
  case replaceInSegment index fromStr toStr cs =>
    revert hs; simp only [replaceInSegment]; split_ifs <;>
      simp_all [saveSnapshot, withSegments, markEdited]
  case replaceAll fromStr toStr cs =>
    revert hs; simp only [replaceAll]; split_ifs <;>
      simp_all [saveSnapshot, withSegments, markEdited]
  case normalizeWhitespaceAll =>
    revert hs; simp only [normalizeWhitespaceAll]; split_ifs <;>
      simp_all [saveSnapshot, withSegments, markEdited]

/-! ## Undo and redo -/

/-- What `undo()` does when the undo stack ends with `snap`. -/
theorem undo_of_top (e : TranscriptEditor) (base : List Snapshot) (snap : Snapshot) (now : Nat)
    (h : e.undoStack = base ++ [snap]) :
    (e.undo now).1 = true ∧ (e.undo now).2.current = snap ∧
      (e.undo now).2.undoStack = base ∧
      (e.undo now).2.redoStack = e.redoStack ++ [e.current] := by
  simp [undo, h, restoreSnapshot, markEdited, current]

/-- What `redo()` does when the redo stack ends with `snap`. -/
theorem redo_of_top (e : TranscriptEditor) (base : List Snapshot) (snap : Snapshot) (now : Nat)
    (h : e.redoStack = base ++ [snap]) :
    (e.redo now).1 = true ∧ (e.redo now).2.current = snap ∧
      (e.redo now).2.redoStack = base ∧
      (e.redo now).2.undoStack = e.undoStack ++ [e.current] := by
  simp [redo, h, restoreSnapshot, markEdited, current]

theorem undoAll_append (e : TranscriptEditor) (l1 l2 : List Nat) :
    undoAll e (l1 ++ l2) = undoAll (undoAll e l1) l2 := by
  induction l1 generalizing e with
  | nil => rfl
  | cons n l1 ih => simp [undoAll, ih]

theorem redoAll_append (e : TranscriptEditor) (l1 l2 : List Nat) :
    redoAll e (l1 ++ l2) = redoAll (redoAll e l1) l2 := by
  induction l1 generalizing e with
  | nil => rfl
  | cons n l1 ih => simp [redoAll, ih]

/-- A list of `n + 1` elements ends with a last element. -/
theorem exists_snoc_of_length {α : Type} (l : List α) (n : Nat) (h : l.length = n + 1) :
    ∃ init last, l = init ++ [last] ∧ init.length = n := by
  rcases List.eq_nil_or_concat l with h0 | ⟨init, last, hl⟩
  · subst h0; simp at h
  · refine ⟨init, last, by simpa using hl, ?_⟩
    subst hl; simpa using h

/-- After a run of successful snapshot-recording calls, as many `undo()` calls bring
back the document and the undo stack of the start. -/
theorem undoAll_performAll (calls : List (EditorCall × Nat)) :
    ∀ (e : TranscriptEditor) (nows : List Nat),
      allSucceed e calls = true →
      (∀ c ∈ calls, c.1.sameIndex = false ∧ c.1.isSplit = false) →
      nows.length = calls.length →
      (undoAll (performAll e calls) nows).current = e.current ∧
        (undoAll (performAll e calls) nows).undoStack = e.undoStack := by
  induction calls with
  | nil =>
    intro e nows _ _ hlen
    have : nows = [] := by simpa using hlen
    subst this
    simp [performAll, undoAll]
  | cons c cs ih =>
    intro e nows hs hc hlen
    obtain ⟨c, now⟩ := c
    simp only [allSucceed, Bool.and_eq_true] at hs
    obtain ⟨init, last, rfl, hinit⟩ := exists_snoc_of_length nows cs.length (by simpa using hlen)
    have hrec := perform_records e c now hs.1 (hc (c, now) (by simp)).1 (hc (c, now) (by simp)).2
    have h := ih (c.perform e now).2 init hs.2 (fun d hd => hc d (by simp [hd])) hinit
    simp only [performAll, undoAll_append]
    have hu := undo_of_top _ e.undoStack e.current last (h.2.trans hrec.1)
    simp only [undoAll]
    exact ⟨hu.2.1, hu.2.2.1⟩

theorem redo_sameHistory (a b : TranscriptEditor) (n m : Nat) (h : sameHistory a b) :
    sameHistory (a.redo n).2 (b.redo m).2 := by
  obtain ⟨h1, h2, h3⟩ := h
  rcases List.eq_nil_or_concat b.redoStack with hb | ⟨base, snap, hb⟩
  · simp [redo, h3, hb, sameHistory, h1, h2]
  · have hb2 : b.redoStack = base ++ [snap] := by simpa using hb
    have ra := redo_of_top a base snap n (h3.trans hb2)
    have rb := redo_of_top b base snap m hb2
    exact ⟨ra.2.1.trans rb.2.1.symm, by rw [ra.2.2.2, rb.2.2.2, h1, h2],
      ra.2.2.1.trans rb.2.2.1.symm⟩

theorem redo_undo_sameHistory (e : TranscriptEditor) (n m : Nat) (h : e.undoStack ≠ []) :
    sameHistory ((e.undo n).2.redo m).2 e := by
  rcases List.eq_nil_or_concat e.undoStack with hb | ⟨base, snap, hb⟩
  · exact absurd hb h
  · have hb2 : e.undoStack = base ++ [snap] := by simpa using hb
    have hu := undo_of_top e base snap n hb2
    have hr := redo_of_top (e.undo n).2 e.redoStack e.current m hu.2.2.2
    exact ⟨hr.2.1, by rw [hr.2.2.2, hu.2.2.1, hu.2.1, hb2], hr.2.2.1⟩

/-- With `K` snapshots on the undo stack, `K` undos then `K` redos give back document and history. -/
theorem redoAll_undoAll_sameHistory (us : List Nat) :
    ∀ (e : TranscriptEditor) (rs : List Nat), rs.length = us.length →
      us.length ≤ e.undoStack.length → sameHistory (redoAll (undoAll e us) rs) e := by
  induction us with
  | nil =>
    intro e rs hlen _
    have : rs = [] := by simpa using hlen
    subst this
    exact ⟨rfl, rfl, rfl⟩
  | cons u us ih =>
    intro e rs hlen hK
    obtain ⟨init, last, rfl, hinit⟩ := exists_snoc_of_length rs us.length (by simpa using hlen)
    have hne : e.undoStack ≠ [] := by
      intro h0; simp [h0] at hK
    rcases List.eq_nil_or_concat e.undoStack with hb | ⟨base, snap, hb⟩
    · exact absurd hb hne
    · have hb2 : e.undoStack = base ++ [snap] := by simpa using hb
      have hu := undo_of_top e base snap u hb2
      have hK2 : us.length ≤ (e.undo u).2.undoStack.length := by
        rw [hu.2.2.1]; simp [hb2] at hK; exact hK
      have h := ih (e.undo u).2 init hinit hK2
      simp only [undoAll, redoAll_append, redoAll]
      have h2 := redo_sameHistory _ _ last last h
      have h3 := redo_undo_sameHistory e u last hne
      exact ⟨h2.1.trans h3.1, h2.2.1.trans h3.2.1, h2.2.2.trans h3.2.2⟩

/-! ## splitSegment -/

theorem left_append_midFrom (text : QString) (pos : Int) (h0 : 0 < pos)
    (h1 : pos < (text.length : Int)) : left text pos ++ midFrom text pos = text := by
  have hl : left text pos = text.take pos.toNat := by
    unfold left; rw [if_neg]; omega
  have hm : midFrom text pos = text.drop pos.toNat := by
    unfold midFrom mid
    simp only []
    rw [if_neg (by omega), if_neg (by omega), if_pos (by omega)]
  rw [hl, hm, List.take_append_drop]

/-- The segments after `set i a` followed by `insertIdx (i + 1) b`. -/
theorem set_insertIdx_eq (segs : List Segment) (i : Nat) (a b : Segment) (h : i < segs.length) :
    (segs.set i a).insertIdx (i + 1) b = segs.take i ++ a :: b :: segs.drop (i + 1) := by
  induction segs generalizing i with
  | nil => simp at h
  | cons s rest ih =>
    cases i with
    | zero => simp [List.insertIdx_succ_cons]
    | succ j =>
      have hj : j < rest.length := by simpa using h
      simp [List.insertIdx_succ_cons, ih j hj]

/-- A split that does not return `-1` passed every check. -/
theorem splitSegment_success_inv (e : TranscriptEditor) (index pos : Int) (now : Nat)
    (h : (e.splitSegment index pos now).1 ≠ -1) :
    e.isValidSegmentIndex index = true ∧ 0 < pos ∧
      pos < (((e.editedTranscript.segments.getD index.toNat emptySegment).text.length : Nat) : Int) ∧
      trimmed (left (e.editedTranscript.segments.getD index.toNat emptySegment).text pos) ≠ [] ∧
      trimmed (midFrom (e.editedTranscript.segments.getD index.toNat emptySegment).text pos) ≠ [] := by
  revert h
  simp only [splitSegment]
  split_ifs with h1 h2 h3
  · simp
  · simp
  · simp
  · intro _
    simp only [Bool.not_eq_true, Bool.not_eq_false', Bool.or_eq_true, List.isEmpty_iff,
      not_or] at h1 h2 h3
    refine ⟨by simpa using h1, by omega, by omega, h3.1, h3.2⟩

/-- What a split that passes every check returns and leaves in the transcript. -/
theorem splitSegment_success (e : TranscriptEditor) (index pos : Int) (now : Nat)
    (hidx : e.isValidSegmentIndex index = true) (h0 : 0 < pos)
    (h1 : pos < (((e.editedTranscript.segments.getD index.toNat emptySegment).text.length : Nat) : Int))
    (hf : trimmed (left (e.editedTranscript.segments.getD index.toNat emptySegment).text pos) ≠ [])
    (hm : trimmed (midFrom (e.editedTranscript.segments.getD index.toNat emptySegment).text pos) ≠ []) :
    (e.splitSegment index pos now).1 = index + 1 ∧
      (e.splitSegment index pos now).2.editedTranscript.segments =
        e.editedTranscript.segments.take index.toNat ++
          ⟨(e.editedTranscript.segments.getD index.toNat emptySegment).speakerID,
            trimmed (left (e.editedTranscript.segments.getD index.toNat emptySegment).text pos)⟩ ::
          ⟨(e.editedTranscript.segments.getD index.toNat emptySegment).speakerID,
            trimmed (midFrom (e.editedTranscript.segments.getD index.toNat emptySegment).text pos)⟩ ::
          e.editedTranscript.segments.drop (index.toNat + 1) ∧
      (e.splitSegment index pos now).2.editedTranscript.speakers = e.editedTranscript.speakers := by
  have hi : index.toNat < e.editedTranscript.segments.length := by
    simp only [isValidSegmentIndex, Bool.and_eq_true, decide_eq_true_eq] at hidx
    omega
  simp only [splitSegment]
  rw [if_neg (by simp [hidx]), if_neg (by omega),
    if_neg (by simp only [Bool.or_eq_true, List.isEmpty_iff, not_or]; exact ⟨hf, hm⟩)]
  refine ⟨rfl, ?_, ?_⟩
  · simp only [markEdited, withSegments, saveSnapshot]
    exact set_insertIdx_eq _ _ _ _ hi
  · simp [markEdited, withSegments, saveSnapshot]

/-- The sample editor is a state the editor reaches by its own calls. -/
theorem sampleEditor_reachable :
    (((sampleStart.setSegmentText 1 " y".toList 1).2.setSegmentText 1 "z".toList 2).2.undo 3).2
      = sampleEditor := by
  decide

/-- The snapshot that a successful `splitSegment` leaves on the undo stack already holds
the shortened first half: `"ABCDE"` split at 2 and undone comes back as `"AB"`. -/
theorem splitSegment_then_undo_sample :
    (((sampleStart.splitSegment 0 2 1).2.undo 2).2.editedTranscript.segments.map Segment.text)
      = ["AB".toList, "old".toList] := by
  decide

/-- A successful `splitSegment` leaves the previous undo stack with one snapshot
appended. -/
theorem splitSegment_pushes_one (e : TranscriptEditor) (index pos : Int) (now : Nat)
    (h : (e.splitSegment index pos now).1 ≥ 0) :
    ∃ snap, (e.splitSegment index pos now).2.undoStack = e.undoStack ++ [snap] := by
  revert h
  simp only [splitSegment]
  split_ifs
  · simp
  · simp
  · simp
  · intro _
    apply Exists.intro
    simp only [markEdited, withSegments, saveSnapshot, List.dropLast_concat]
    rfl

/-- A successful call other than a same-index `moveSegment`/`swapSegments` leaves the
previous undo stack with one snapshot appended. -/
theorem perform_pushes_one (e : TranscriptEditor) (c : EditorCall) (now : Nat)
    (hs : (c.perform e now).1.success = true) (hsame : c.sameIndex = false) :
    ∃ snap, (c.perform e now).2.undoStack = e.undoStack ++ [snap] := by
  by_cases hsplit : c.isSplit = true
  · cases c with
    | splitSegment index pos =>
      simp only [EditorCall.perform, Outcome.success, decide_eq_true_eq] at hs ⊢
      exact splitSegment_pushes_one e index pos now hs
    | _ => exact absurd hsplit (by simp [EditorCall.isSplit])
  · exact ⟨e.current, (perform_records e c now hs hsame (by simpa using hsplit)).1⟩

/-- After a run of successful calls, none of them a same-index `moveSegment` or
`swapSegments`, as many `undo()` calls bring back the undo stack of the start and the
snapshot that the first call pushed. -/
theorem undoAll_performAll_first (calls : List (EditorCall × Nat)) :
    ∀ (e : TranscriptEditor) (nows : List Nat),
      allSucceed e calls = true →
      (∀ c ∈ calls, c.1.sameIndex = false) →
      nows.length = calls.length →
      (undoAll (performAll e calls) nows).undoStack = e.undoStack ∧
        ∀ (c : EditorCall) (now : Nat) (rest : List (EditorCall × Nat)) (snap : Snapshot),
          calls = (c, now) :: rest →
          (c.perform e now).2.undoStack = e.undoStack ++ [snap] →
          (undoAll (performAll e calls) nows).current = snap := by
  induction calls with
  | nil =>
    intro e nows _ _ hlen
    have : nows = [] := by simpa using hlen
    subst this
    exact ⟨rfl, fun c now rest snap h => absurd h (by simp)⟩
  | cons c cs ih =>
    intro e nows hs hc hlen
    obtain ⟨c, now⟩ := c
    simp only [allSucceed, Bool.and_eq_true] at hs
    obtain ⟨init, last, rfl, hinit⟩ := exists_snoc_of_length nows cs.length (by simpa using hlen)
    obtain ⟨snap0, hpush⟩ := perform_pushes_one e c now hs.1 (hc (c, now) (by simp))
    have h := (ih (c.perform e now).2 init hs.2 (fun d hd => hc d (by simp [hd])) hinit).1
    simp only [performAll, undoAll_append]
    have hu := undo_of_top _ e.undoStack snap0 last (h.trans hpush)
    simp only [undoAll]
    refine ⟨hu.2.2.1, ?_⟩
    intro c1 now1 rest snap heq hsnap
    obtain ⟨h1, _⟩ := List.cons.inj heq
    obtain ⟨hc1, hn1⟩ := Prod.mk.inj h1
    subst hc1 hn1
    have : snap0 = snap := by
      have h2 := List.append_cancel_left (hpush.symm.trans hsnap)
      exact (List.cons.inj h2).1
    rw [← this]
    exact hu.2.1

/-! ## Claims on the editor -/

/-- C4, counterexample: on an editor whose undo stack is not empty, the call
`moveSegment(0, 0)` reports success, and one `undo()` afterwards leaves segments that
differ from those before the call. -/
theorem undo_after_same_index_move_differs :
    allSucceed sampleEditor [(.moveSegment 0 0, 1)] = true ∧
      (undoAll (performAll sampleEditor [(.moveSegment 0 0, 1)]) [2]).editedTranscript.segments
        ≠ sampleEditor.editedTranscript.segments := by
  decide

/-- C4, amended: after `N` calls that each report success, none of them a
`moveSegment`/`swapSegments` with equal indices and the first of them not a
`splitSegment`, `N` calls of `undo()` leave the speakers and the segments of the
transcript as they were before the sequence. -/
theorem undo_restores_after_successful_calls (e : TranscriptEditor)
    (calls : List (EditorCall × Nat)) (nows : List Nat)
    (hs : allSucceed e calls = true)
    (hc : ∀ c ∈ calls, c.1.sameIndex = false)
    (hfirst : ∀ c ∈ calls.head?, c.1.isSplit = false)
    (hlen : nows.length = calls.length) :
    (undoAll (performAll e calls) nows).editedTranscript.speakers = e.editedTranscript.speakers ∧
      (undoAll (performAll e calls) nows).editedTranscript.segments
        = e.editedTranscript.segments := by
  have h : (undoAll (performAll e calls) nows).current = e.current := by
    cases calls with
    | nil =>
      have : nows = [] := by simpa using hlen
      subst this
      rfl
    | cons c rest =>
      obtain ⟨c, now⟩ := c
      have hs1 : (c.perform e now).1.success = true := by
        simp only [allSucceed, Bool.and_eq_true] at hs
        exact hs.1
      have hrec := perform_records e c now hs1 (hc (c, now) (by simp)) (hfirst (c, now) rfl)
      exact (undoAll_performAll_first ((c, now) :: rest) e nows hs hc hlen).2 c now rest
        e.current rfl hrec.1
  simp only [current, Snapshot.mk.injEq] at h
  exact h

/-- C4, amended, at a sample run: four successful calls, the third a `splitSegment`, then
four undos. -/
theorem undo_restores_after_successful_calls_witness :
    allSucceed sampleEditor
        [(.setSegmentText 0 "new word".toList, 1), (.deleteSegment 1, 2),
          (.splitSegment 0 3, 3),
          (.replaceAll "n".toList "m".toList .CaseSensitive, 4)] = true ∧
      (undoAll (performAll sampleEditor
          [(.setSegmentText 0 "new word".toList, 1), (.deleteSegment 1, 2),
            (.splitSegment 0 3, 3),
            (.replaceAll "n".toList "m".toList .CaseSensitive, 4)])
          [5, 6, 7, 8]).editedTranscript.segments
        = sampleEditor.editedTranscript.segments :=
  ⟨by decide,
    (undo_restores_after_successful_calls sampleEditor
      [(.setSegmentText 0 "new word".toList, 1), (.deleteSegment 1, 2),
        (.splitSegment 0 3, 3),
        (.replaceAll "n".toList "m".toList .CaseSensitive, 4)] [5, 6, 7, 8]
      (by decide) (by decide) (by decide) (by decide)).2⟩

/-- C5: when the undo stack holds at least `K` snapshots, `K` calls of `undo()` followed
by `K` calls of `redo()` leave the speakers and the segments of the transcript as they
were before the first undo. -/
theorem undo_then_redo_restores (e : TranscriptEditor) (us rs : List Nat)
    (hK : us.length ≤ e.undoStack.length) (hlen : rs.length = us.length) :
    (redoAll (undoAll e us) rs).editedTranscript.speakers = e.editedTranscript.speakers ∧
      (redoAll (undoAll e us) rs).editedTranscript.segments = e.editedTranscript.segments := by
  have h := (redoAll_undoAll_sameHistory us e rs hlen hK).1
  simp only [current, Snapshot.mk.injEq] at h
  exact h

/-- C5 at a sample state: one undo, then one redo. -/
theorem undo_then_redo_restores_witness :
    [1].length ≤ sampleEditor.undoStack.length ∧
      (redoAll (undoAll sampleEditor [1]) [2]).editedTranscript.segments
        = sampleEditor.editedTranscript.segments :=
  ⟨by decide, (undo_then_redo_restores sampleEditor [1] [2] (by decide) (by decide)).2⟩

/-- C6, the failing input: `splitSegment(1, 1)` on the text `" y"` returns `-1` since the
first half is blank, yet the undo stack has grown by a snapshot and the redo stack,
which held a snapshot, has been emptied. -/
theorem splitSegment_blank_half_touches_history :
    (sampleEditor.splitSegment 1 1 7).1 = -1 ∧
      (sampleEditor.splitSegment 1 1 7).2.undoStack
        = sampleEditor.undoStack ++ [sampleEditor.current] ∧
      (sampleEditor.splitSegment 1 1 7).2.undoStack ≠ sampleEditor.undoStack ∧
      (sampleEditor.splitSegment 1 1 7).2.redoStack = [] ∧
      sampleEditor.redoStack ≠ [] := by
  decide

/-- C7: each of `setSegmentText`, `appendToSegment`, `mergeWithNext`, `deleteSegment`,
`insertSegment`, `moveSegment`, `swapSegments`, `setSegmentSpeaker` and
`renameSpeakerGlobal`, when it returns `false`, hands back the editor it was given:
transcript (speakers and segments included), undo stack and redo stack are unchanged. -/
theorem failed_call_leaves_editor_unchanged (e : TranscriptEditor) (index indexB : Int)
    (text : QString) (segment : Segment) (oldID newID : QString) (now : Nat) :
    ((e.setSegmentText index text now).1 = false → (e.setSegmentText index text now).2 = e) ∧
    ((e.appendToSegment index text now).1 = false → (e.appendToSegment index text now).2 = e) ∧
    ((e.mergeWithNext index now).1 = false → (e.mergeWithNext index now).2 = e) ∧
    ((e.deleteSegment index now).1 = false → (e.deleteSegment index now).2 = e) ∧
    ((e.insertSegment index segment now).1 = false → (e.insertSegment index segment now).2 = e) ∧
    ((e.moveSegment index indexB now).1 = false → (e.moveSegment index indexB now).2 = e) ∧
    ((e.swapSegments index indexB now).1 = false → (e.swapSegments index indexB now).2 = e) ∧
    ((e.setSegmentSpeaker index text now).1 = false → (e.setSegmentSpeaker index text now).2 = e) ∧
    ((e.renameSpeakerGlobal oldID newID now).1 = false →
      (e.renameSpeakerGlobal oldID newID now).2 = e) := by
  refine ⟨?_, ?_, ?_, ?_, ?_, ?_, ?_, ?_, ?_⟩
  · simp only [setSegmentText]; split_ifs <;> simp
  · simp only [appendToSegment]; split_ifs <;> simp
  · simp only [mergeWithNext]; split_ifs <;> simp
  · simp only [deleteSegment]; split_ifs <;> simp
  · simp only [insertSegment]; split_ifs <;> simp
  · simp only [moveSegment]; split_ifs <;> simp
  · simp only [swapSegments]; split_ifs <;> simp
  · simp only [setSegmentSpeaker]; split_ifs <;> simp
  · simp only [renameSpeakerGlobal]; split_ifs <;> simp

/-- C7 at a sample input: on the empty editor every one of the nine calls fails, and
hands the editor back unchanged. -/
theorem failed_call_leaves_editor_unchanged_witness :
    (emptyEditor.setSegmentText 3 [] 1).1 = false ∧
      (emptyEditor.appendToSegment 3 [] 1).1 = false ∧
      (emptyEditor.mergeWithNext 3 1).1 = false ∧
      (emptyEditor.deleteSegment 3 1).1 = false ∧
      (emptyEditor.insertSegment 3 emptySegment 1).1 = false ∧
      (emptyEditor.moveSegment 3 0 1).1 = false ∧
      (emptyEditor.swapSegments 3 0 1).1 = false ∧
      (emptyEditor.setSegmentSpeaker 3 [] 1).1 = false ∧
      (emptyEditor.renameSpeakerGlobal [] [] 1).1 = false ∧
      (emptyEditor.setSegmentText 3 [] 1).2 = emptyEditor ∧
      (emptyEditor.appendToSegment 3 [] 1).2 = emptyEditor ∧
      (emptyEditor.mergeWithNext 3 1).2 = emptyEditor ∧
      (emptyEditor.deleteSegment 3 1).2 = emptyEditor ∧
      (emptyEditor.insertSegment 3 emptySegment 1).2 = emptyEditor ∧
      (emptyEditor.moveSegment 3 0 1).2 = emptyEditor ∧
      (emptyEditor.swapSegments 3 0 1).2 = emptyEditor ∧
      (emptyEditor.setSegmentSpeaker 3 [] 1).2 = emptyEditor ∧
      (emptyEditor.renameSpeakerGlobal [] [] 1).2 = emptyEditor :=
  have h := failed_call_leaves_editor_unchanged emptyEditor 3 0 [] emptySegment [] [] 1
  ⟨by decide, by decide, by decide, by decide, by decide, by decide, by decide, by decide,
    by decide, h.1 (by decide), h.2.1 (by decide), h.2.2.1 (by decide), h.2.2.2.1 (by decide),
    h.2.2.2.2.1 (by decide), h.2.2.2.2.2.1 (by decide), h.2.2.2.2.2.2.1 (by decide),
    h.2.2.2.2.2.2.2.1 (by decide), h.2.2.2.2.2.2.2.2 (by decide)⟩

/-- C8, counterexample: `moveSegment(0, 0)` reports success, yet no snapshot has been
appended to the undo stack and the redo stack is not empty. -/
theorem same_index_move_records_nothing :
    (sampleEditor.moveSegment 0 0 1).1 = true ∧
      (sampleEditor.moveSegment 0 0 1).2.undoStack ≠
        sampleEditor.undoStack ++ [sampleEditor.current] ∧
      (sampleEditor.moveSegment 0 0 1).2.redoStack ≠ [] := by
  decide

/-- C8, amended: a successful `setSegmentText`, `appendToSegment`, `mergeWithNext`,
`deleteSegment`, `insertSegment`, `setSegmentSpeaker` or `renameSpeakerGlobal`, a
successful `moveSegment` or `swapSegments` with two different indices, and every
`setSegments`, leave the previous undo stack with exactly one snapshot appended, equal to
the `(speakers, segments)` held before the call, and an empty redo stack. A
`moveSegment` or `swapSegments` with twice the same valid index succeeds and hands the
editor back untouched. A successful `splitSegment` leaves the previous undo stack with
exactly one snapshot appended and an empty redo stack. -/
theorem successful_call_pushes_snapshot (e : TranscriptEditor)
    (index indexB splitPosition : Int) (text : QString) (segment : Segment)
    (newSegments : List Segment) (oldID newID : QString) (now : Nat) :
    ((e.setSegmentText index text now).1 = true →
      pushedSnapshot e (e.setSegmentText index text now).2) ∧
    ((e.appendToSegment index text now).1 = true →
      pushedSnapshot e (e.appendToSegment index text now).2) ∧
    ((e.mergeWithNext index now).1 = true → pushedSnapshot e (e.mergeWithNext index now).2) ∧
    ((e.deleteSegment index now).1 = true → pushedSnapshot e (e.deleteSegment index now).2) ∧
    ((e.insertSegment index segment now).1 = true →
      pushedSnapshot e (e.insertSegment index segment now).2) ∧
    ((e.setSegmentSpeaker index text now).1 = true →
      pushedSnapshot e (e.setSegmentSpeaker index text now).2) ∧
    ((e.renameSpeakerGlobal oldID newID now).1 = true →
      pushedSnapshot e (e.renameSpeakerGlobal oldID newID now).2) ∧
    ((e.moveSegment index indexB now).1 = true → index ≠ indexB →
      pushedSnapshot e (e.moveSegment index indexB now).2) ∧
    ((e.swapSegments index indexB now).1 = true → index ≠ indexB →
      pushedSnapshot e (e.swapSegments index indexB now).2) ∧
    pushedSnapshot e (e.setSegments newSegments now) ∧
    ((e.moveSegment index index now).1 = true → (e.moveSegment index index now).2 = e) ∧
    ((e.swapSegments index index now).1 = true → (e.swapSegments index index now).2 = e) ∧
    ((e.splitSegment index splitPosition now).1 ≥ 0 →
      (∃ snap, (e.splitSegment index splitPosition now).2.undoStack = e.undoStack ++ [snap]) ∧
        (e.splitSegment index splitPosition now).2.redoStack = []) := by
  refine ⟨?_, ?_, ?_, ?_, ?_, ?_, ?_, ?_, ?_, ?_, ?_, ?_, ?_⟩
  · exact fun h => perform_records e (.setSegmentText index text) now h rfl rfl
  · exact fun h => perform_records e (.appendToSegment index text) now h rfl rfl
  · exact fun h => perform_records e (.mergeWithNext index) now h rfl rfl
  · exact fun h => perform_records e (.deleteSegment index) now h rfl rfl
  · exact fun h => perform_records e (.insertSegment index segment) now h rfl rfl
  · exact fun h => perform_records e (.setSegmentSpeaker index text) now h rfl rfl
  · exact fun h => perform_records e (.renameSpeakerGlobal oldID newID) now h rfl rfl
  · exact fun h hne => perform_records e (.moveSegment index indexB) now h
      (by simp [EditorCall.sameIndex, hne]) rfl
  · exact fun h hne => perform_records e (.swapSegments index indexB) now h
      (by simp [EditorCall.sameIndex, hne]) rfl
  · exact perform_records e (.setSegments newSegments) now rfl rfl rfl
  · simp only [moveSegment]; split_ifs <;> simp
  · simp only [swapSegments]; split_ifs <;> simp
  · simp only [splitSegment]; split_ifs
    · simp
    · simp
    · simp
    · intro _
      constructor
      · apply Exists.intro
        simp only [markEdited, withSegments, saveSnapshot, List.dropLast_concat]
        rfl
      · simp [markEdited, withSegments, saveSnapshot]

/-- C8, amended, at sample inputs: on the sample editor each of the calls succeeds, with
the indices 0 and 1, the split position 2, the text `"new"` and the rename of `A` to `B`. -/
theorem successful_call_pushes_snapshot_witness :
    ((sampleEditor.setSegmentText 0 "new".toList 1).1 = true ∧
      (sampleEditor.appendToSegment 0 "new".toList 1).1 = true ∧
      (sampleEditor.mergeWithNext 0 1).1 = true ∧
      (sampleEditor.deleteSegment 0 1).1 = true ∧
      (sampleEditor.insertSegment 0 ⟨"B".toList, "t".toList⟩ 1).1 = true ∧
      (sampleEditor.setSegmentSpeaker 0 "new".toList 1).1 = true ∧
      (sampleEditor.renameSpeakerGlobal "A".toList "B".toList 1).1 = true ∧
      (sampleEditor.moveSegment 0 1 1).1 = true ∧
      (sampleEditor.swapSegments 0 1 1).1 = true ∧
      (sampleEditor.moveSegment 0 0 1).1 = true ∧
      (sampleEditor.swapSegments 0 0 1).1 = true ∧
      (sampleEditor.splitSegment 0 2 1).1 ≥ 0) ∧
    pushedSnapshot sampleEditor (sampleEditor.setSegmentText 0 "new".toList 1).2 ∧
    pushedSnapshot sampleEditor (sampleEditor.appendToSegment 0 "new".toList 1).2 ∧
    pushedSnapshot sampleEditor (sampleEditor.mergeWithNext 0 1).2 ∧
    pushedSnapshot sampleEditor (sampleEditor.deleteSegment 0 1).2 ∧
    pushedSnapshot sampleEditor (sampleEditor.insertSegment 0 ⟨"B".toList, "t".toList⟩ 1).2 ∧
    pushedSnapshot sampleEditor (sampleEditor.setSegmentSpeaker 0 "new".toList 1).2 ∧
    pushedSnapshot sampleEditor (sampleEditor.renameSpeakerGlobal "A".toList "B".toList 1).2 ∧
    pushedSnapshot sampleEditor (sampleEditor.moveSegment 0 1 1).2 ∧
    pushedSnapshot sampleEditor (sampleEditor.swapSegments 0 1 1).2 ∧
    (sampleEditor.moveSegment 0 0 1).2 = sampleEditor ∧
    (sampleEditor.swapSegments 0 0 1).2 = sampleEditor ∧
    (sampleEditor.splitSegment 0 2 1).2.redoStack = [] :=
  have h := successful_call_pushes_snapshot sampleEditor 0 1 2 "new".toList
    ⟨"B".toList, "t".toList⟩ [] "A".toList "B".toList 1
  ⟨by decide, h.1 (by decide), h.2.1 (by decide), h.2.2.1 (by decide), h.2.2.2.1 (by decide),
    h.2.2.2.2.1 (by decide), h.2.2.2.2.2.1 (by decide), h.2.2.2.2.2.2.1 (by decide),
    h.2.2.2.2.2.2.2.1 (by decide) (by decide),
    h.2.2.2.2.2.2.2.2.1 (by decide) (by decide),
    h.2.2.2.2.2.2.2.2.2.2.1 (by decide),
    h.2.2.2.2.2.2.2.2.2.2.2.1 (by decide),
    (h.2.2.2.2.2.2.2.2.2.2.2.2 (by decide)).2⟩

/-- C9: for a valid index `i` and a position `pos` with `0 < pos < length` of the text
of `segments[i]`, when both `text.left(pos)` and `text.mid(pos)` are non-empty after
trimming, `splitSegment(i, pos)` returns `i + 1`; afterwards there is one segment more,
`segments[i]` and `segments[i + 1]` carry the original speaker with the trimmed first and
second half, the segments before `i` and those after it are the old ones in the old
order, and the speakers are unchanged. -/
theorem splitSegment_splits (e : TranscriptEditor) (index pos : Int) (now : Nat)
    (hidx : e.isValidSegmentIndex index = true) (h0 : 0 < pos)
    (h1 : pos < (((e.editedTranscript.segments.getD index.toNat emptySegment).text.length : Nat) : Int))
    (hf : trimmed (left (e.editedTranscript.segments.getD index.toNat emptySegment).text pos) ≠ [])
    (hm : trimmed (midFrom (e.editedTranscript.segments.getD index.toNat emptySegment).text pos) ≠ []) :
    (e.splitSegment index pos now).1 = index + 1 ∧
      (e.splitSegment index pos now).2.editedTranscript.segments.length
        = e.editedTranscript.segments.length + 1 ∧
      (e.splitSegment index pos now).2.editedTranscript.segments[index.toNat]? =
        some ⟨(e.editedTranscript.segments.getD index.toNat emptySegment).speakerID,
          trimmed (left (e.editedTranscript.segments.getD index.toNat emptySegment).text pos)⟩ ∧
      (e.splitSegment index pos now).2.editedTranscript.segments[index.toNat + 1]? =
        some ⟨(e.editedTranscript.segments.getD index.toNat emptySegment).speakerID,
          trimmed (midFrom (e.editedTranscript.segments.getD index.toNat emptySegment).text pos)⟩ ∧
      (e.splitSegment index pos now).2.editedTranscript.segments.take index.toNat
        = e.editedTranscript.segments.take index.toNat ∧
      (e.splitSegment index pos now).2.editedTranscript.segments.drop (index.toNat + 2)
        = e.editedTranscript.segments.drop (index.toNat + 1) ∧
      (e.splitSegment index pos now).2.editedTranscript.speakers
        = e.editedTranscript.speakers := by
  obtain ⟨hr, hsegs, hsp⟩ := splitSegment_success e index pos now hidx h0 h1 hf hm
  have hi : index.toNat < e.editedTranscript.segments.length := by
    simp only [isValidSegmentIndex, Bool.and_eq_true, decide_eq_true_eq] at hidx
    omega
  have hlen : (e.editedTranscript.segments.take index.toNat).length = index.toNat := by
    rw [List.length_take]; omega
  refine ⟨hr, ?_, ?_, ?_, ?_, ?_, hsp⟩
  · rw [hsegs]
    simp only [List.length_append, List.length_cons, List.length_take, List.length_drop]
    omega
  · rw [hsegs, List.getElem?_append_right (by omega)]
    simp [hlen]
  · rw [hsegs, List.getElem?_append_right (by omega)]
    simp [hlen]
  · rw [hsegs, List.take_append_eq_append_take]
    simp [hlen]
  · rw [hsegs, List.drop_append_eq_append_drop]
    simp only [hlen]
    have h2 : index.toNat + 2 - index.toNat = 2 := by omega
    rw [h2, List.drop_eq_nil_of_le (by rw [List.length_take]; omega)]
    simp

/-- C9 on the sample of the specification: `"ABCDE"` split at 2. -/
theorem splitSegment_splits_witness :
    (sampleEditor.splitSegment 0 2 1).1 = 1 ∧
      (sampleEditor.splitSegment 0 2 1).2.editedTranscript.segments
        = [⟨"A".toList, "AB".toList⟩, ⟨"A".toList, "CDE".toList⟩, ⟨"A".toList, " y".toList⟩] ∧
      (sampleEditor.splitSegment 0 2 1).2.editedTranscript.segments[0]? =
        some ⟨(sampleEditor.editedTranscript.segments.getD 0 emptySegment).speakerID,
          trimmed (left (sampleEditor.editedTranscript.segments.getD 0 emptySegment).text 2)⟩ :=
  ⟨by decide, by decide,
    (splitSegment_splits sampleEditor 0 2 1 (by decide) (by decide) (by decide) (by decide)
      (by decide)).2.2.1⟩

/-- C10, counterexample: `"ABCDE"` split at 2 succeeds with the texts `"AB"` and `"CDE"`;
joined by one line feed and trimmed they are `"AB\nCDE"`, not the original text
trimmed. -/
theorem splitSegment_newline_join_differs :
    (sampleEditor.splitSegment 0 2 1).1 = 1 ∧
      trimmed (((sampleEditor.splitSegment 0 2 1).2.editedTranscript.segments.getD 0 emptySegment).text
          ++ ['\n'] ++
          ((sampleEditor.splitSegment 0 2 1).2.editedTranscript.segments.getD 1 emptySegment).text)
        ≠ trimmed (sampleEditor.editedTranscript.segments.getD 0 emptySegment).text := by
  decide

/-- C10, amended: when `splitSegment(i, p)` does not fail, the original text trimmed is
the text of the new `segments[i]`, followed by a run of whitespace characters (the
whitespace that surrounded position `p`, possibly none), followed by the text of the
new `segments[i + 1]`. -/
theorem splitSegment_halves_rejoin (e : TranscriptEditor) (index pos : Int) (now : Nat)
    (h : (e.splitSegment index pos now).1 ≠ -1) :
    ∃ ws, allSpace ws ∧
      trimmed (e.editedTranscript.segments.getD index.toNat emptySegment).text =
        ((e.splitSegment index pos now).2.editedTranscript.segments.getD index.toNat
            emptySegment).text ++ ws ++
          ((e.splitSegment index pos now).2.editedTranscript.segments.getD (index.toNat + 1)
            emptySegment).text := by
  obtain ⟨hidx, h0, h1, hf, hm⟩ := splitSegment_success_inv e index pos now h
  obtain ⟨_, hsegs, _⟩ := splitSegment_success e index pos now hidx h0 h1 hf hm
  have hi : index.toNat < e.editedTranscript.segments.length := by
    simp only [isValidSegmentIndex, Bool.and_eq_true, decide_eq_true_eq] at hidx
    omega
  have hlen : (e.editedTranscript.segments.take index.toNat).length = index.toNat := by
    rw [List.length_take]; omega
  obtain ⟨ws, hws, heq⟩ := trimmed_append _ _ hf hm
  rw [left_append_midFrom _ pos h0 h1] at heq
  refine ⟨ws, hws, ?_⟩
  rw [heq, hsegs]
  simp only [List.getD_eq_getElem?_getD]
  rw [List.getElem?_append_right (by omega), List.getElem?_append_right (by omega)]
  simp [hlen]

/-- C10, amended, on a sample: `" a b "` split at 3. -/
theorem splitSegment_halves_rejoin_witness :
    ((sampleEditor.setSegmentText 1 " a b ".toList 1).2.splitSegment 1 3 2).1 ≠ -1 ∧
      ∃ ws, allSpace ws ∧
        trimmed " a b ".toList =
          ((((sampleEditor.setSegmentText 1 " a b ".toList 1).2.splitSegment 1 3 2).2
            ).editedTranscript.segments.getD 1 emptySegment).text ++ ws ++
          ((((sampleEditor.setSegmentText 1 " a b ".toList 1).2.splitSegment 1 3 2).2
            ).editedTranscript.segments.getD 2 emptySegment).text :=
  ⟨by decide,
    splitSegment_halves_rejoin (sampleEditor.setSegmentText 1 " a b ".toList 1).2 1 3 2
      (by decide)⟩

/-! ## The replacement loop -/

theorem matchesAt_caseSensitive (pat s : QString) :
    matchesAt .CaseSensitive pat s = true ↔ s.take pat.length = pat := by
  simp only [matchesAt, compareEq, foldWith, Bool.and_eq_true, decide_eq_true_eq, beq_iff_eq]
  constructor
  · exact fun h => h.2
  · intro h
    refine ⟨?_, h⟩
    have := congrArg List.length h
    rw [List.length_take] at this
    omega

theorem scanReplace_skip (cs : CaseSensitivity) (fromStr toStr : QString) (n : Nat) :
    ∀ s : QString, scanReplace cs fromStr toStr n s = scanReplace cs fromStr toStr 0 (s.drop n) := by
  induction n with
  | zero => intro s; rfl
  | succ n ih =>
    intro s
    cases s with
    | nil => simp [scanReplace]
    | cons c rest => simp only [scanReplace, List.drop_succ_cons]; exact ih rest

/-- The specification scan is the case-sensitive instance of the scan of the loop. -/
theorem replaceOccurrencesSpec_eq (fromStr toStr : QString) (s : QString) :
    ∀ n : Nat, replaceOccurrencesSpec fromStr toStr n s
      = scanReplace .CaseSensitive fromStr toStr n s := by
  induction s with
  | nil => intro n; cases n <;> simp [replaceOccurrencesSpec, scanReplace]
  | cons c rest ih =>
    intro n
    cases n with
    | succ n => simp only [replaceOccurrencesSpec, scanReplace]; exact ih n
    | zero =>
      simp only [replaceOccurrencesSpec, scanReplace]
      by_cases h : (c :: rest).take fromStr.length = fromStr
      · rw [if_pos h, if_pos ((matchesAt_caseSensitive _ _).mpr h), ih]
      · rw [if_neg h, if_neg (fun hm => h ((matchesAt_caseSensitive _ _).mp hm)), ih]

theorem indexOfAux_none_scan (cs : CaseSensitivity) (fromStr toStr : QString) (s : QString) :
    ∀ i : Nat, indexOfAux cs fromStr s i = none → scanReplace cs fromStr toStr 0 s = (0, s) := by
  induction s with
  | nil => intro i _; rfl
  | cons c rest ih =>
    intro i h
    simp only [indexOfAux] at h
    split at h
    · exact Option.noConfusion h
    next hm =>
      simp only [scanReplace, if_neg hm, ih (i + 1) h]

theorem indexOfAux_some_scan (cs : CaseSensitivity) (fromStr toStr : QString)
    (hne : fromStr ≠ []) (s : QString) :
    ∀ (i p : Nat), indexOfAux cs fromStr s i = some p →
      ∃ k, p = i + k ∧ k + fromStr.length ≤ s.length ∧
        scanReplace cs fromStr toStr 0 s =
          ((scanReplace cs fromStr toStr 0 (s.drop (k + fromStr.length))).1 + 1,
            s.take k ++ toStr ++ (scanReplace cs fromStr toStr 0 (s.drop (k + fromStr.length))).2) := by
  have hL : 1 ≤ fromStr.length := by
    cases fromStr with
    | nil => exact absurd rfl hne
    | cons _ _ => simp
  induction s with
  | nil =>
    intro i p h
    simp only [indexOfAux, List.isEmpty_iff] at h
    rw [if_neg hne] at h
    exact Option.noConfusion h
  | cons c rest ih =>
    intro i p h
    simp only [indexOfAux] at h
    split at h
    next hm =>
      refine ⟨0, by simpa using (Option.some.inj h).symm, ?_, ?_⟩
      · simp only [matchesAt, Bool.and_eq_true, decide_eq_true_eq] at hm
        omega
      · simp only [scanReplace, if_pos hm, scanReplace_skip cs fromStr toStr (fromStr.length - 1) rest]
        have hd : (c :: rest).drop (0 + fromStr.length) = rest.drop (fromStr.length - 1) := by
          obtain ⟨m, hm2⟩ : ∃ m, fromStr.length = m + 1 := ⟨fromStr.length - 1, by omega⟩
          rw [hm2]; simp
        rw [hd]; simp
    next hm =>
      obtain ⟨k, hp, hk, hscan⟩ := ih (i + 1) p h
      refine ⟨k + 1, by omega, by simp only [List.length_cons]; omega, ?_⟩
      simp only [scanReplace, if_neg hm]
      have hd : (c :: rest).drop (k + 1 + fromStr.length) = rest.drop (k + fromStr.length) := by
        have : k + 1 + fromStr.length = (k + fromStr.length) + 1 := by omega
        rw [this, List.drop_succ_cons]
      rw [hd, hscan]
      simp

theorem indexOf_append_at (done rest pat : QString) (cs : CaseSensitivity) :
    indexOf (done ++ rest) pat done.length cs = indexOfAux cs pat rest done.length := by
  unfold indexOf
  rw [if_neg (by simp), List.drop_left]

/-- The loop of `replaceAllInString`, started after the part `done` already written, with
more rounds allowed than the rest has characters, ends with the result of the scan of
the rest. -/
theorem replaceLoop_eq_scan (cs : CaseSensitivity) (fromStr toStr : QString)
    (hne : fromStr ≠ []) (fuel : Nat) :
    ∀ (done rest : QString) (count : Nat), rest.length < fuel →
      replaceLoop fromStr toStr cs fuel (done ++ rest) done.length count =
        (count + (scanReplace cs fromStr toStr 0 rest).1,
          done ++ (scanReplace cs fromStr toStr 0 rest).2) := by
  have hL : 1 ≤ fromStr.length := by
    cases fromStr with
    | nil => exact absurd rfl hne
    | cons _ _ => simp
  induction fuel with
  | zero => intro done rest count h; omega
  | succ fuel ih =>
    intro done rest count hlen
    simp only [replaceLoop, indexOf_append_at]
    cases hidx : indexOfAux cs fromStr rest done.length with
    | none =>
      simp only []
      rw [indexOfAux_none_scan cs fromStr toStr rest _ hidx]
      simp
    | some p =>
      simp only []
      obtain ⟨k, hp, hk, hscan⟩ := indexOfAux_some_scan cs fromStr toStr hne rest _ p hidx
      have hk2 : k ≤ rest.length := by omega
      have hrep : replaceAt (done ++ rest) p fromStr.length toStr
          = (done ++ rest.take k ++ toStr) ++ rest.drop (k + fromStr.length) := by
        unfold replaceAt
        rw [hp, List.take_append, Nat.add_assoc, List.drop_append]
      have hpos : p + toStr.length = (done ++ rest.take k ++ toStr).length := by
        simp only [List.length_append, List.length_take]
        omega
      rw [hrep, hpos, ih _ _ _ (by simp only [List.length_drop]; omega), hscan]
      simp [List.append_assoc, Nat.add_assoc, Nat.add_comm]

/-- The scan counts at most `length / fromStr.length` occurrences. -/
theorem scanReplace_count_le (cs : CaseSensitivity) (fromStr toStr : QString)
    (hne : fromStr ≠ []) (s : QString) :
    ∀ n : Nat, (scanReplace cs fromStr toStr n s).1 * fromStr.length ≤ s.length - n := by
  have hL : 1 ≤ fromStr.length := by
    cases fromStr with
    | nil => exact absurd rfl hne
    | cons _ _ => simp
  induction s with
  | nil => intro n; simp [scanReplace]
  | cons c rest ih =>
    intro n
    cases n with
    | succ n =>
      simp only [scanReplace, List.length_cons]
      have := ih n
      omega
    | zero =>
      simp only [scanReplace]
      split
      next hm =>
        simp only [matchesAt, Bool.and_eq_true, decide_eq_true_eq, List.length_cons] at hm
        have := ih (fromStr.length - 1)
        simp only [List.length_cons, Nat.sub_zero, Nat.add_mul, Nat.one_mul]
        omega
      next hm =>
        have := ih 0
        simp only [List.length_cons, Nat.sub_zero] at this ⊢
        omega

/-- The counter of the loop never goes down. -/
theorem replaceLoop_count_ge (cs : CaseSensitivity) (fromStr toStr : QString) (fuel : Nat) :
    ∀ (text : QString) (pos count : Nat),
      count ≤ (replaceLoop fromStr toStr cs fuel text pos count).1 := by
  induction fuel with
  | zero => intro text pos count; simp [replaceLoop]
  | succ fuel ih =>
    intro text pos count
    simp only [replaceLoop]
    split
    · exact Nat.le_refl _
    · exact Nat.le_trans (Nat.le_succ _) (ih _ _ _)

/-- A replacement that counts nothing returns the text it was given. -/
theorem replaceAllInString_zero (text fromStr toStr : QString) (cs : CaseSensitivity)
    (h : (replaceAllInString text fromStr toStr cs).1 = 0) :
    (replaceAllInString text fromStr toStr cs).2 = text := by
  unfold replaceAllInString at h ⊢
  split
  · rfl
  · rw [if_neg (by assumption)] at h
    simp only [replaceLoop] at h ⊢
    split
    · rfl
    next p hp =>
      rw [hp] at h
      simp only [] at h
      have := replaceLoop_count_ge cs fromStr toStr text.length
        (replaceAt text p fromStr.length toStr) (p + toStr.length) (0 + 1)
      omega

theorem set_getD_self (segs : List Segment) (i : Nat) (d : Segment) (h : i < segs.length) :
    segs.set i (segs.getD i d) = segs := by
  induction segs generalizing i with
  | nil => simp at h
  | cons s rest ih =>
    cases i with
    | zero => simp
    | succ j =>
      have hj : j < rest.length := by simpa using h
      simpa using ih j hj

/-- A pass of `replaceAll` over the segments that counts nothing changes no segment. -/
theorem replaceAllLoop_zero (fromStr toStr : QString) (cs : CaseSensitivity)
    (segs : List Segment) (h : (replaceAllLoop fromStr toStr cs segs).1 = 0) :
    (replaceAllLoop fromStr toStr cs segs).2 = segs := by
  induction segs with
  | nil => rfl
  | cons seg rest ih =>
    simp only [replaceAllLoop] at h ⊢
    have h1 : (replaceAllInString seg.text fromStr toStr cs).1 = 0 := by omega
    have h2 : (replaceAllLoop fromStr toStr cs rest).1 = 0 := by omega
    rw [replaceAllInString_zero _ _ _ _ h1, ih h2]

/-! ## Claims on replacement -/

/-- C14: whenever `replaceInSegment` or `replaceAll` returns 0, the undo stack is the one
from before the call (same depth, same contents, so `canUndo()` has the same value),
and the segments, hence every segment text, are unchanged. -/
theorem replace_zero_keeps_undo_and_texts (e : TranscriptEditor) (index : Int)
    (fromStr toStr : QString) (cs : CaseSensitivity) (now : Nat) :
    ((e.replaceInSegment index fromStr toStr cs now).1 = 0 →
      (e.replaceInSegment index fromStr toStr cs now).2.undoStack = e.undoStack ∧
      (e.replaceInSegment index fromStr toStr cs now).2.canUndo = e.canUndo ∧
      (e.replaceInSegment index fromStr toStr cs now).2.editedTranscript.segments
        = e.editedTranscript.segments) ∧
    ((e.replaceAll fromStr toStr cs now).1 = 0 →
      (e.replaceAll fromStr toStr cs now).2.undoStack = e.undoStack ∧
      (e.replaceAll fromStr toStr cs now).2.canUndo = e.canUndo ∧
      (e.replaceAll fromStr toStr cs now).2.editedTranscript.segments
        = e.editedTranscript.segments) := by
  constructor
  · simp only [replaceInSegment]
    split_ifs with h1 h2 h3
    · intro _; exact ⟨rfl, rfl, rfl⟩
    · intro _; exact ⟨rfl, rfl, rfl⟩
    · intro h0; simp only [] at h0; omega
    · intro h0
      simp only [] at h0
      have hi : index.toNat < e.editedTranscript.segments.length := by
        simp only [isValidSegmentIndex, Bool.not_eq_true', Bool.and_eq_false_iff,
          decide_eq_false_iff_not, not_or, not_not] at h1
        omega
      have hu : (e.saveSnapshot.withSegments
            (e.saveSnapshot.editedTranscript.segments.set index.toNat
              { e.saveSnapshot.editedTranscript.segments.getD index.toNat emptySegment with
                text := (replaceAllInString
                  (e.saveSnapshot.editedTranscript.segments.getD index.toNat emptySegment).text
                  fromStr toStr cs).2 })).undoStack.dropLast = e.undoStack := by
        simp [withSegments, saveSnapshot]
      refine ⟨hu, by simp only [canUndo, hu], ?_⟩
      simp only [withSegments, saveSnapshot]
      have h0' : (replaceAllInString
          (e.editedTranscript.segments.getD index.toNat emptySegment).text fromStr toStr cs).1
            = 0 := h0
      rw [replaceAllInString_zero _ _ _ _ h0']
      exact set_getD_self _ _ _ hi
  · simp only [replaceAll]
    split_ifs with h1 h2
    · intro _; exact ⟨rfl, rfl, rfl⟩
    · intro h0; simp only [] at h0; omega
    · intro h0
      simp only [] at h0
      have hu : (e.saveSnapshot.withSegments
          (replaceAllLoop fromStr toStr cs e.saveSnapshot.editedTranscript.segments).2
            ).undoStack.dropLast = e.undoStack := by
        simp [withSegments, saveSnapshot]
      refine ⟨hu, by simp only [canUndo, hu], ?_⟩
      simp only [withSegments]
      exact replaceAllLoop_zero _ _ _ _ h0

/-- C14 on the sixth scenario of the specification: no `"zzz"` in the transcript. -/
theorem replace_zero_keeps_undo_and_texts_witness :
    (sampleEditor.replaceInSegment 0 "zzz".toList "qqq".toList .CaseSensitive 9).1 = 0 ∧
      (sampleEditor.replaceAll "zzz".toList "qqq".toList .CaseSensitive 9).1 = 0 ∧
      (sampleEditor.replaceInSegment 0 "zzz".toList "qqq".toList .CaseSensitive 9).2.canUndo
        = sampleEditor.canUndo ∧
      (sampleEditor.replaceAll "zzz".toList "qqq".toList .CaseSensitive 9).2.canUndo
        = sampleEditor.canUndo :=
  have h := replace_zero_keeps_undo_and_texts sampleEditor 0 "zzz".toList "qqq".toList
    .CaseSensitive 9
  ⟨by decide, by decide, (h.1 (by decide)).2.1, (h.2 (by decide)).2.1⟩

/-- C15, the failing input: on an editor with a snapshot on its redo stack,
`replaceAll("zzz", "qqq")` and `replaceInSegment(0, "zzz", "qqq")` find nothing and
return 0, yet the redo stack is empty afterwards. -/
theorem replace_zero_clears_redo :
    (sampleEditor.replaceAll "zzz".toList "qqq".toList .CaseSensitive 9).1 = 0 ∧
      (sampleEditor.replaceAll "zzz".toList "qqq".toList .CaseSensitive 9).2.redoStack = [] ∧
      (sampleEditor.replaceInSegment 0 "zzz".toList "qqq".toList .CaseSensitive 9).1 = 0 ∧
      (sampleEditor.replaceInSegment 0 "zzz".toList "qqq".toList .CaseSensitive 9).2.redoStack
        = [] ∧
      sampleEditor.redoStack ≠ [] ∧ sampleEditor.canRedo = true ∧
      (sampleEditor.replaceAll "zzz".toList "qqq".toList .CaseSensitive 9).2.canRedo = false := by
  decide

/-- C16: for a non-empty `fromStr`, in case-sensitive mode, `replaceAllInString` returns
the count and the text of the specification: the non-overlapping occurrences of
`fromStr` met when scanning the original text left to right are counted and replaced by
`toStr`, everything else is kept, and nothing of an inserted `toStr` is scanned. -/
theorem replaceAllInString_eq_spec (text fromStr toStr : QString) (hne : fromStr ≠ []) :
    replaceAllInString text fromStr toStr .CaseSensitive
      = replaceOccurrencesSpec fromStr toStr 0 text := by
  unfold replaceAllInString
  rw [if_neg (by simpa using hne)]
  have h := replaceLoop_eq_scan .CaseSensitive fromStr toStr hne (text.length + 1) [] text 0
    (Nat.lt_succ_self _)
  simp only [List.nil_append, List.length_nil, Nat.zero_add] at h
  rw [h, replaceOccurrencesSpec_eq]

/-- C16 at a sample where `toStr` contains `fromStr`: `"a"` replaced by `"aa"` in `"aXa"`. -/
theorem replaceAllInString_eq_spec_witness :
    "a".toList ≠ [] ∧
      replaceAllInString "aXa".toList "a".toList "aa".toList .CaseSensitive
        = (2, "aaXaa".toList) ∧
      replaceAllInString "aXa".toList "a".toList "aa".toList .CaseSensitive
        = replaceOccurrencesSpec "a".toList "aa".toList 0 "aXa".toList :=
  ⟨by decide, by decide,
    replaceAllInString_eq_spec "aXa".toList "a".toList "aa".toList (by decide)⟩

/-- C17: for a non-empty `fromStr` the loop of `replaceAllInString` comes to its end within
`text.size() + 1` rounds, whatever `toStr` is: allowing it any larger number of rounds
gives the same count and text. For every `fromStr` (the empty one returns 0 at once) the
returned count is at most the length of the original text divided by the length of
`fromStr`. -/
theorem replaceAllInString_terminates (text fromStr toStr : QString) (cs : CaseSensitivity) :
    (fromStr ≠ [] → ∀ fuel : Nat, text.length < fuel →
      replaceLoop fromStr toStr cs fuel text 0 0 = replaceAllInString text fromStr toStr cs) ∧
    (replaceAllInString text fromStr toStr cs).1 ≤ text.length / fromStr.length := by
  constructor
  · intro hne fuel hfuel
    unfold replaceAllInString
    rw [if_neg (by simpa using hne)]
    have h1 := replaceLoop_eq_scan cs fromStr toStr hne fuel [] text 0 hfuel
    have h2 := replaceLoop_eq_scan cs fromStr toStr hne (text.length + 1) [] text 0
      (Nat.lt_succ_self _)
    simp only [List.nil_append, List.length_nil] at h1 h2
    rw [h1, h2]
  · unfold replaceAllInString
    split
    · exact Nat.zero_le _
    next hne =>
      have hne2 : fromStr ≠ [] := by simpa using hne
      have hL : 0 < fromStr.length := List.length_pos.mpr hne2
      have h2 := replaceLoop_eq_scan cs fromStr toStr hne2 (text.length + 1) [] text 0
        (Nat.lt_succ_self _)
      simp only [List.nil_append, List.length_nil, Nat.zero_add] at h2
      rw [h2]
      have h3 := scanReplace_count_le cs fromStr toStr hne2 text 0
      exact (Nat.le_div_iff_mul_le hL).mpr (by simpa using h3)

/-- C17 at samples: `toStr` containing `fromStr`, and an empty `toStr`. -/
theorem replaceAllInString_terminates_witness :
    "a".toList ≠ [] ∧ "aXa".toList.length < 100 ∧
      replaceLoop "a".toList "aa".toList .CaseSensitive 100 "aXa".toList 0 0
        = replaceAllInString "aXa".toList "a".toList "aa".toList .CaseSensitive ∧
      replaceLoop "a".toList [] .CaseInsensitive 100 "aXa".toList 0 0
        = replaceAllInString "aXa".toList "a".toList [] .CaseInsensitive ∧
      (replaceAllInString "aXa".toList "a".toList [] .CaseInsensitive).1 = 2 :=
  ⟨by decide, by decide,
    (replaceAllInString_terminates "aXa".toList "a".toList "aa".toList .CaseSensitive).1
      (by decide) 100 (by decide),
    (replaceAllInString_terminates "aXa".toList "a".toList [] .CaseInsensitive).1
      (by decide) 100 (by decide),
    by decide⟩

/-! ## mergeWithNext, moveSegment, swapSegments -/

theorem isValidSegmentIndex_iff (e : TranscriptEditor) (index : Int) :
    e.isValidSegmentIndex index = true ↔
      0 ≤ index ∧ index.toNat < e.editedTranscript.segments.length := by
  simp only [isValidSegmentIndex, Bool.and_eq_true, decide_eq_true_eq]
  omega

/-- The segments after `set i a` followed by `eraseIdx (i + 1)`. -/
theorem set_eraseIdx_succ (segs : List Segment) (i : Nat) (a : Segment)
    (h : i + 1 < segs.length) :
    (segs.set i a).eraseIdx (i + 1) = segs.take i ++ a :: segs.drop (i + 2) := by
  induction segs generalizing i with
  | nil => simp at h
  | cons s rest ih =>
    cases i with
    | zero =>
      cases rest with
      | nil => simp at h
      | cons t rest2 => simp
    | succ j =>
      have hj : j + 1 < rest.length := by simpa using h
      simp [ih j hj]

theorem getD_cons_eraseIdx_perm (l : List Segment) (i : Nat) (d : Segment) (h : i < l.length) :
    List.Perm (l.getD i d :: l.eraseIdx i) l := by
  induction l generalizing i with
  | nil => simp at h
  | cons s rest ih =>
    cases i with
    | zero => simp
    | succ j =>
      have hj : j < rest.length := by simpa using h
      simp only [List.getD_cons_succ, List.eraseIdx_cons_succ]
      exact (List.Perm.swap _ _ _).trans ((ih j hj).cons s)

theorem set_perm_cons_eraseIdx (l : List Segment) (i : Nat) (a : Segment) (h : i < l.length) :
    List.Perm (l.set i a) (a :: l.eraseIdx i) := by
  induction l generalizing i with
  | nil => simp at h
  | cons s rest ih =>
    cases i with
    | zero => simp
    | succ j =>
      have hj : j < rest.length := by simpa using h
      simp only [List.set_cons_succ, List.eraseIdx_cons_succ]
      exact ((ih j hj).cons s).trans (List.Perm.swap _ _ _)

/-- Exchanging two entries of a list, as `swapItemsAt` does, permutes it. -/
theorem swap_perm (l : List Segment) (d : Segment) :
    ∀ i j : Nat, i < l.length → j < l.length →
      List.Perm ((l.set i (l.getD j d)).set j (l.getD i d)) l := by
  induction l with
  | nil => intro i j hi; simp at hi
  | cons s rest ih =>
    intro i j hi hj
    cases i with
    | zero =>
      cases j with
      | zero => simp
      | succ j =>
        have hj2 : j < rest.length := by simpa using hj
        simp only [List.getD_cons_succ, List.getD_cons_zero, List.set_cons_zero,
          List.set_cons_succ]
        exact ((set_perm_cons_eraseIdx rest j s hj2).cons _).trans
          ((List.Perm.swap _ _ _).trans ((getD_cons_eraseIdx_perm rest j d hj2).cons s))
    | succ i =>
      have hi2 : i < rest.length := by simpa using hi
      cases j with
      | zero =>
        simp only [List.getD_cons_succ, List.getD_cons_zero, List.set_cons_zero,
          List.set_cons_succ]
        exact ((set_perm_cons_eraseIdx rest i s hi2).cons _).trans
          ((List.Perm.swap _ _ _).trans ((getD_cons_eraseIdx_perm rest i d hi2).cons s))
      | succ j =>
        have hj2 : j < rest.length := by simpa using hj
        simp only [List.getD_cons_succ, List.set_cons_succ]
        exact (ih i j hi2 hj2).cons s

/-- Whatever the indices, `moveSegment` permutes the segments and keeps the speakers. -/
theorem moveSegment_perm (e : TranscriptEditor) (fromIndex toIndex : Int) (now : Nat) :
    List.Perm (e.moveSegment fromIndex toIndex now).2.editedTranscript.segments
        e.editedTranscript.segments ∧
      (e.moveSegment fromIndex toIndex now).2.editedTranscript.speakers
        = e.editedTranscript.speakers := by
  simp only [moveSegment]
  split_ifs with h1 h2 h3 h4
  · exact ⟨List.Perm.refl _, rfl⟩
  · exact ⟨List.Perm.refl _, rfl⟩
  · exact ⟨List.Perm.refl _, rfl⟩
  all_goals
    have hv := (isValidSegmentIndex_iff e fromIndex).mp (by simpa using h1)
    refine ⟨?_, rfl⟩
    simp only [markEdited, withSegments, saveSnapshot]
    refine (List.perm_insertIdx _ _ ?_).trans (getD_cons_eraseIdx_perm _ _ _ hv.2)
    rw [List.length_eraseIdx_of_lt hv.2]
    omega

/-- Whatever the indices, `swapSegments` permutes the segments and keeps the speakers. -/
theorem swapSegments_perm (e : TranscriptEditor) (indexA indexB : Int) (now : Nat) :
    List.Perm (e.swapSegments indexA indexB now).2.editedTranscript.segments
        e.editedTranscript.segments ∧
      (e.swapSegments indexA indexB now).2.editedTranscript.speakers
        = e.editedTranscript.speakers := by
  simp only [swapSegments]
  split_ifs with h1 h2
  · exact ⟨List.Perm.refl _, rfl⟩
  · exact ⟨List.Perm.refl _, rfl⟩
  · simp only [Bool.or_eq_true, Bool.not_eq_true', not_or, Bool.not_eq_false] at h1
    have ha := (isValidSegmentIndex_iff e indexA).mp h1.1
    have hb := (isValidSegmentIndex_iff e indexB).mp h1.2
    refine ⟨?_, rfl⟩
    simp only [markEdited, withSegments, saveSnapshot]
    exact swap_perm _ _ _ _ ha.2 hb.2

/-- C11: when `i` and `i + 1` are both valid, `mergeWithNext(i)` returns `true`; afterwards
there is one segment less, `segments[i]` has its old speaker and the old text of
`segments[i]`, then one line feed exactly when that text was not empty and did not end
with a line feed, then the old text of `segments[i + 1]`; the segments before `i` are
the old ones and those after `i` are the old ones after `i + 1`, in the same order.
When `i` or `i + 1` is out of range it returns `false`. -/
theorem mergeWithNext_merges (e : TranscriptEditor) (index : Int) (now : Nat) :
    (e.isValidSegmentIndex index = true ∧ e.isValidSegmentIndex (index + 1) = true →
      (e.mergeWithNext index now).1 = true ∧
      (e.mergeWithNext index now).2.editedTranscript.segments.length + 1
        = e.editedTranscript.segments.length ∧
      (e.mergeWithNext index now).2.editedTranscript.segments[index.toNat]? =
        some ⟨(e.editedTranscript.segments.getD index.toNat emptySegment).speakerID,
          (e.editedTranscript.segments.getD index.toNat emptySegment).text ++
            (if (e.editedTranscript.segments.getD index.toNat emptySegment).text ≠ [] ∧
                endsWithNewline (e.editedTranscript.segments.getD index.toNat emptySegment).text
                  = false
              then ['\n'] else []) ++
            (e.editedTranscript.segments.getD (index.toNat + 1) emptySegment).text⟩ ∧
      (e.mergeWithNext index now).2.editedTranscript.segments.take index.toNat
        = e.editedTranscript.segments.take index.toNat ∧
      (e.mergeWithNext index now).2.editedTranscript.segments.drop (index.toNat + 1)
        = e.editedTranscript.segments.drop (index.toNat + 2)) ∧
    (¬ (e.isValidSegmentIndex index = true ∧ e.isValidSegmentIndex (index + 1) = true) →
      (e.mergeWithNext index now).1 = false) := by
  constructor
  · rintro ⟨h1, h2⟩
    have hv1 := (isValidSegmentIndex_iff e index).mp h1
    have hv2 := (isValidSegmentIndex_iff e (index + 1)).mp h2
    have hn : (index + 1).toNat = index.toNat + 1 := by omega
    have hi : index.toNat + 1 < e.editedTranscript.segments.length := by omega
    have hlen : (e.editedTranscript.segments.take index.toNat).length = index.toNat := by
      rw [List.length_take]; omega
    simp only [mergeWithNext]
    rw [if_neg (by simp [h1]), if_neg (by simp [h2])]
    simp only [markEdited, withSegments, saveSnapshot, hn]
    rw [set_eraseIdx_succ _ _ _ hi]
    generalize e.editedTranscript.segments.getD index.toNat emptySegment = cur
    generalize e.editedTranscript.segments.getD (index.toNat + 1) emptySegment = next
    refine ⟨?_, ?_, ?_, ?_, ?_⟩
    · trivial
    · simp only [List.length_append, List.length_cons, List.length_take, List.length_drop]
      omega
    · rw [List.getElem?_append_right (by omega)]
      simp only [hlen, Nat.sub_self, List.getElem?_cons_zero, Option.some.injEq,
        Segment.mk.injEq, true_and]
      by_cases ht : cur.text = []
      · simp [ht]
      · by_cases hnl : endsWithNewline cur.text = true
        · simp [ht, hnl]
        · simp [ht, hnl]
    · rw [List.take_append_eq_append_take]
      simp [hlen]
    · rw [List.drop_append_eq_append_drop]
      simp only [hlen]
      have h3 : index.toNat + 1 - index.toNat = 1 := by omega
      rw [h3, List.drop_eq_nil_of_le (by rw [List.length_take]; omega)]
      simp
  · intro h
    simp only [mergeWithNext]
    split_ifs with h1 h2
    · rfl
    · rfl
    · exact absurd ⟨by simpa using h1, by simpa using h2⟩ h

/-- C11 on the fourth scenario of the specification, and with an index whose successor
is out of range. -/
theorem mergeWithNext_merges_witness :
    (sampleStart.withSegments [⟨"A".toList, "x".toList⟩, ⟨"A".toList, "y".toList⟩]
        ).isValidSegmentIndex 0 = true ∧
      ((sampleStart.withSegments [⟨"A".toList, "x".toList⟩, ⟨"A".toList, "y".toList⟩]
        ).mergeWithNext 0 1).2.editedTranscript.segments = [⟨"A".toList, "x\ny".toList⟩] ∧
      ((sampleStart.withSegments [⟨"A".toList, "x".toList⟩, ⟨"A".toList, "y".toList⟩]
        ).mergeWithNext 0 1).1 = true ∧
      ((sampleStart.withSegments [⟨"A".toList, "x".toList⟩, ⟨"A".toList, "y".toList⟩]
        ).mergeWithNext 1 1).1 = false :=
  ⟨by decide, by decide,
    ((mergeWithNext_merges
      (sampleStart.withSegments [⟨"A".toList, "x".toList⟩, ⟨"A".toList, "y".toList⟩]) 0 1).1
      (by decide)).1,
    (mergeWithNext_merges
      (sampleStart.withSegments [⟨"A".toList, "x".toList⟩, ⟨"A".toList, "y".toList⟩]) 1 1).2
      (by decide)⟩

/-- C13: for every editor state and all index arguments, `moveSegment` and `swapSegments`,
successful or not, leave the number of segments, the multiset of the segments and the
speakers unchanged. -/
theorem move_swap_preserve_segments (e : TranscriptEditor) (indexA indexB : Int) (now : Nat) :
    ((e.moveSegment indexA indexB now).2.editedTranscript.segments.length
        = e.editedTranscript.segments.length ∧
      Multiset.ofList (e.moveSegment indexA indexB now).2.editedTranscript.segments
        = Multiset.ofList e.editedTranscript.segments ∧
      (e.moveSegment indexA indexB now).2.editedTranscript.speakers
        = e.editedTranscript.speakers) ∧
    ((e.swapSegments indexA indexB now).2.editedTranscript.segments.length
        = e.editedTranscript.segments.length ∧
      Multiset.ofList (e.swapSegments indexA indexB now).2.editedTranscript.segments
        = Multiset.ofList e.editedTranscript.segments ∧
      (e.swapSegments indexA indexB now).2.editedTranscript.speakers
        = e.editedTranscript.speakers) := by
  obtain ⟨hm, hms⟩ := moveSegment_perm e indexA indexB now
  obtain ⟨hs, hss⟩ := swapSegments_perm e indexA indexB now
  exact ⟨⟨hm.length_eq, Multiset.coe_eq_coe.mpr hm, hms⟩,
    ⟨hs.length_eq, Multiset.coe_eq_coe.mpr hs, hss⟩⟩

/-! ## Speakers -/

/-- The search of `findSpeakerIndex` either finds no entry with the id and returns `-1`,
or returns the position of the first entry with the id. -/
theorem findSpeakerIndexAux_cases (speakerID : QString) (l : List Speaker) :
    ∀ i : Nat,
      (Transcript.findSpeakerIndexAux speakerID l i = -1 ∧ ∀ sp ∈ l, sp.id ≠ speakerID) ∨
      (∃ pre sp post, l = pre ++ sp :: post ∧ sp.id = speakerID ∧
        (∀ x ∈ pre, x.id ≠ speakerID) ∧
        Transcript.findSpeakerIndexAux speakerID l i = ((i + pre.length : Nat) : Int)) := by
  induction l with
  | nil => intro i; left; simp [Transcript.findSpeakerIndexAux]
  | cons s rest ih =>
    intro i
    simp only [Transcript.findSpeakerIndexAux]
    by_cases hs : s.id = speakerID
    · right
      refine ⟨[], s, rest, rfl, hs, by simp, ?_⟩
      simp [hs]
    · rw [if_neg hs]
      rcases ih (i + 1) with ⟨h1, h2⟩ | ⟨pre, sp, post, h1, h2, h3, h4⟩
      · left
        refine ⟨h1, ?_⟩
        intro x hx
        rcases List.mem_cons.mp hx with rfl | hx
        · exact hs
        · exact h2 x hx
      · right
        refine ⟨s :: pre, sp, post, by simp [h1], h2, ?_, ?_⟩
        · intro x hx
          rcases List.mem_cons.mp hx with rfl | hx
          · exact hs
          · exact h3 x hx
        · rw [h4]; simp only [List.length_cons]; congr 1; omega

theorem hasSpeaker_iff (e : TranscriptEditor) (speakerID : QString) :
    e.hasSpeaker speakerID = true ↔ ∃ sp ∈ e.editedTranscript.speakers, sp.id = speakerID := by
  simp only [hasSpeaker, Transcript.findSpeakerIndex, decide_eq_true_eq]
  rcases findSpeakerIndexAux_cases speakerID e.editedTranscript.speakers 0 with
    ⟨h1, h2⟩ | ⟨pre, sp, post, h1, h2, _, h4⟩
  · rw [h1]
    constructor
    · intro h; omega
    · rintro ⟨sp, hsp, hid⟩; exact absurd hid (h2 sp hsp)
  · rw [h4]
    constructor
    · intro _; exact ⟨sp, by rw [h1]; simp, h2⟩
    · intro _; omega

theorem modify_append_cons (f : Speaker → Speaker) (pre : List Speaker) (sp : Speaker)
    (post : List Speaker) :
    (pre ++ sp :: post).modify f pre.length = pre ++ f sp :: post := by
  induction pre with
  | nil => simp [List.modify_zero_cons]
  | cons x pre ih => simp [List.modify_succ_cons, ih]

/-- What `Transcript::renameSpeaker` does when an entry with the old id exists. -/
theorem renameSpeaker_found (t : Transcript) (oldID newID : QString)
    (h : ∃ sp ∈ t.speakers, sp.id = oldID) :
    (∃ pre sp post, t.speakers = pre ++ sp :: post ∧ sp.id = oldID ∧
      (∀ x ∈ pre, x.id ≠ oldID) ∧
      (t.renameSpeaker oldID newID).speakers
        = pre ++ { sp with id := newID, displayName := newID } :: post) ∧
    (t.renameSpeaker oldID newID).segments =
      t.segments.map (fun seg =>
        if seg.speakerID = oldID then { seg with speakerID := newID } else seg) := by
  obtain ⟨sp0, hsp0, hid0⟩ := h
  unfold Transcript.renameSpeaker Transcript.findSpeakerIndex
  rcases findSpeakerIndexAux_cases oldID t.speakers 0 with
    ⟨_, h2⟩ | ⟨pre, sp, post, h1, h2, h3, h4⟩
  · exact absurd hid0 (h2 sp0 hsp0)
  · simp only [h4]
    rw [if_neg (by omega)]
    refine ⟨⟨pre, sp, post, h1, h2, h3, ?_⟩, rfl⟩
    simp only [Nat.zero_add, Int.toNat_ofNat]
    rw [h1, modify_append_cons]

/-! ## Claims on speakers -/

/-- C18, the failing input: with the two speakers `A` and `B` registered, no id twice,
`renameSpeakerGlobal("A", "B")` reports success and leaves two entries with the id `B`. -/
theorem rename_to_existing_id_duplicates :
    ((sampleEditor.insertSegment 2 ⟨"B".toList, "t".toList⟩ 4).2.editedTranscript.speakers.map
        Speaker.id).Nodup ∧
      ((sampleEditor.insertSegment 2 ⟨"B".toList, "t".toList⟩ 4).2.renameSpeakerGlobal
        "A".toList "B".toList 5).1 = true ∧
      ((sampleEditor.insertSegment 2 ⟨"B".toList, "t".toList⟩ 4).2.renameSpeakerGlobal
        "A".toList "B".toList 5).2.editedTranscript.speakers.map Speaker.id
        = ["B".toList, "B".toList] ∧
      ¬ (((sampleEditor.insertSegment 2 ⟨"B".toList, "t".toList⟩ 4).2.renameSpeakerGlobal
        "A".toList "B".toList 5).2.editedTranscript.speakers.map Speaker.id).Nodup := by
  decide

/-- C19, the failing input: every segment of the sample editor has a registered speaker;
after `setSegments` with one segment of the unknown speaker `Z`, that segment's speaker
has no entry in the speakers. -/
theorem setSegments_registers_nothing :
    (∀ s ∈ sampleEditor.editedTranscript.segments,
        ∃ sp ∈ sampleEditor.editedTranscript.speakers, sp.id = s.speakerID) ∧
      ¬ (∀ s ∈ (sampleEditor.setSegments [⟨"Z".toList, "t".toList⟩] 5).editedTranscript.segments,
        ∃ sp ∈ (sampleEditor.setSegments [⟨"Z".toList, "t".toList⟩] 5).editedTranscript.speakers,
          sp.id = s.speakerID) := by
  decide

/-- C20: `renameSpeakerGlobal(oldID, newID)` returns `true` exactly when both arguments,
trimmed, are non-empty and different and a speaker with the trimmed `oldID` exists. On
success the first speaker entry with that id has its id and display name set to the
trimmed `newID` and the other entries are as before; every segment that had the old id
has the new one, every other segment and every text is unchanged, so no segment has the
old id; and exactly one snapshot, of the state before the call, has been pushed. -/
theorem renameSpeakerGlobal_renames (e : TranscriptEditor) (oldID newID : QString) (now : Nat) :
    ((e.renameSpeakerGlobal oldID newID now).1 = true ↔
      (trimmed oldID ≠ [] ∧ trimmed newID ≠ [] ∧ trimmed oldID ≠ trimmed newID ∧
        ∃ sp ∈ e.editedTranscript.speakers, sp.id = trimmed oldID)) ∧
    ((e.renameSpeakerGlobal oldID newID now).1 = true →
      (∃ pre sp post, e.editedTranscript.speakers = pre ++ sp :: post ∧
        sp.id = trimmed oldID ∧ (∀ x ∈ pre, x.id ≠ trimmed oldID) ∧
        (e.renameSpeakerGlobal oldID newID now).2.editedTranscript.speakers
          = pre ++ { sp with id := trimmed newID, displayName := trimmed newID } :: post) ∧
      (e.renameSpeakerGlobal oldID newID now).2.editedTranscript.segments =
        e.editedTranscript.segments.map (fun seg =>
          if seg.speakerID = trimmed oldID then { seg with speakerID := trimmed newID }
          else seg) ∧
      (∀ s ∈ (e.renameSpeakerGlobal oldID newID now).2.editedTranscript.segments,
        s.speakerID ≠ trimmed oldID) ∧
      pushedSnapshot e (e.renameSpeakerGlobal oldID newID now).2) := by
  have hiff : (e.renameSpeakerGlobal oldID newID now).1 = true ↔
      (trimmed oldID ≠ [] ∧ trimmed newID ≠ [] ∧ trimmed oldID ≠ trimmed newID ∧
        ∃ sp ∈ e.editedTranscript.speakers, sp.id = trimmed oldID) := by
    rw [← hasSpeaker_iff]
    simp only [renameSpeakerGlobal]
    split_ifs with h1 h2 h3
    · simp only [Bool.or_eq_true, List.isEmpty_iff] at h1
      simp only [Bool.false_eq_true, false_iff]
      rintro ⟨ha, hb, _, _⟩
      rcases h1 with h | h
      · exact ha h
      · exact hb h
    · simp only [Bool.false_eq_true, false_iff]
      rintro ⟨_, _, hc, _⟩
      exact hc h2
    · simp only [Bool.false_eq_true, false_iff]
      rintro ⟨_, _, _, hd⟩
      simp [hd] at h3
    · simp only [Bool.or_eq_true, List.isEmpty_iff, not_or] at h1
      simp only [true_iff]
      exact ⟨h1.1, h1.2, h2, by simpa using h3⟩
  refine ⟨hiff, ?_⟩
  intro hs
  obtain ⟨ha, hb, hc, hd⟩ := hiff.mp hs
  have hrec := perform_records e (.renameSpeakerGlobal oldID newID) now hs rfl rfl
  have hval : (e.renameSpeakerGlobal oldID newID now).2.editedTranscript =
      { e.editedTranscript.renameSpeaker (trimmed oldID) (trimmed newID) with
        lastEdited := now } := by
    simp only [renameSpeakerGlobal]
    rw [if_neg (by simp [ha, hb]), if_neg hc, if_neg (by simp [(hasSpeaker_iff e _).mpr hd])]
    rfl
  obtain ⟨hsp, hseg⟩ := renameSpeaker_found e.editedTranscript (trimmed oldID) (trimmed newID) hd
  rw [hval]
  refine ⟨hsp, hseg, ?_, hrec⟩
  intro s hs2
  have hs3 : s ∈ (e.editedTranscript.renameSpeaker (trimmed oldID) (trimmed newID)).segments :=
    hs2
  rw [hseg] at hs3
  obtain ⟨seg, _, hseg2⟩ := List.mem_map.mp hs3
  by_cases hold : seg.speakerID = trimmed oldID
  · rw [if_pos hold] at hseg2
    rw [← hseg2]
    exact fun h => hc h.symm
  · rw [if_neg hold] at hseg2
    rw [← hseg2]
    exact hold

/-- C20 at a sample: the speaker `A` of the sample editor renamed to `B`, with blanks
around both arguments. -/
theorem renameSpeakerGlobal_renames_witness :
    (sampleEditor.renameSpeakerGlobal " A ".toList "B ".toList 5).1 = true ∧
      (sampleEditor.renameSpeakerGlobal " A ".toList "B ".toList 5).2.editedTranscript.segments
        = [⟨"B".toList, "ABCDE".toList⟩, ⟨"B".toList, " y".toList⟩] ∧
      (sampleEditor.renameSpeakerGlobal " A ".toList "B ".toList 5).2.editedTranscript.speakers
        = [⟨"B".toList, "B".toList, none⟩] ∧
      pushedSnapshot sampleEditor (sampleEditor.renameSpeakerGlobal " A ".toList "B ".toList 5).2 ∧
      (trimmed " A ".toList ≠ [] ∧ trimmed "B ".toList ≠ [] ∧
        trimmed " A ".toList ≠ trimmed "B ".toList ∧
        ∃ sp ∈ sampleEditor.editedTranscript.speakers, sp.id = trimmed " A ".toList) :=
  have h := renameSpeakerGlobal_renames sampleEditor " A ".toList "B ".toList 5
  ⟨by decide, by decide, by decide, (h.2 (by decide)).2.2.2, h.1.mp (by decide)⟩

/-! ## Where moveSegment puts the segment -/

/-- With two different valid indices, `moveSegment(from, to)` puts the segment at index
`to` when `to < from` and at index `to - 1` when `from < to`; the other segments keep
their order. -/
theorem moveSegment_lands (e : TranscriptEditor) (fromIndex toIndex : Int) (now : Nat)
    (hf : e.isValidSegmentIndex fromIndex = true) (ht : e.isValidSegmentIndex toIndex = true)
    (hne : fromIndex ≠ toIndex) :
    (e.moveSegment fromIndex toIndex now).1 = true ∧
      (e.moveSegment fromIndex toIndex now).2.editedTranscript.segments[
          if fromIndex < toIndex then toIndex.toNat - 1 else toIndex.toNat]?
        = e.editedTranscript.segments[fromIndex.toNat]? ∧
      (e.moveSegment fromIndex toIndex now).2.editedTranscript.segments.eraseIdx
          (if fromIndex < toIndex then toIndex.toNat - 1 else toIndex.toNat)
        = e.editedTranscript.segments.eraseIdx fromIndex.toNat := by
  have hvf := (isValidSegmentIndex_iff e fromIndex).mp hf
  have hvt := (isValidSegmentIndex_iff e toIndex).mp ht
  have hlen := List.length_eraseIdx_of_lt hvf.2
  simp only [moveSegment]
  rw [if_neg (by simp [hf]), if_neg (by omega), if_neg hne]
  simp only [markEdited, withSegments, saveSnapshot, true_and]
  have hn : (if fromIndex < toIndex then toIndex - 1 else toIndex).toNat
      = if fromIndex < toIndex then toIndex.toNat - 1 else toIndex.toNat := by
    split <;> omega
  rw [hn]
  have hle : (if fromIndex < toIndex then toIndex.toNat - 1 else toIndex.toNat)
      ≤ (e.editedTranscript.segments.eraseIdx fromIndex.toNat).length := by
    rw [hlen]; split <;> omega
  refine ⟨?_, List.eraseIdx_insertIdx _ _⟩
  rw [List.getElem?_eq_getElem (by rw [List.length_insertIdx _ _ hle]; omega),
    List.getElem_insertIdx_self _ _ _ hle, List.getD_eq_getElem _ _ hvf.2,
    List.getElem?_eq_getElem hvf.2]

/-! ## Operations that keep the speakers consistent -/

theorem idsWithin_refl (l : List Segment) : idsWithin l l :=
  fun s hs => ⟨s, hs, rfl⟩

theorem idsWithin_of_subset (a b : List Segment) (h : ∀ s ∈ a, s ∈ b) : idsWithin a b :=
  fun s hs => ⟨s, h s hs, rfl⟩

theorem idsWithin_trans (a b c : List Segment) (h1 : idsWithin a b) (h2 : idsWithin b c) :
    idsWithin a c := by
  intro s hs
  obtain ⟨s1, hs1, e1⟩ := h1 s hs
  obtain ⟨s2, hs2, e2⟩ := h2 s1 hs1
  exact ⟨s2, hs2, e1.trans e2⟩

theorem idsWithin_set (l : List Segment) (i : Nat) (a : Segment)
    (h : ∃ s0 ∈ l, a.speakerID = s0.speakerID) : idsWithin (l.set i a) l := by
  intro s hs
  rcases List.mem_or_eq_of_mem_set hs with h1 | h1
  · exact ⟨s, h1, rfl⟩
  · rw [h1]; exact h

theorem idsWithin_modify (l : List Segment) (i : Nat) (f : Segment → Segment)
    (hf : ∀ s, (f s).speakerID = s.speakerID) : idsWithin (l.modify f i) l := by
  induction l generalizing i with
  | nil => intro s hs; simp at hs
  | cons x rest ih =>
    cases i with
    | zero =>
      intro s hs
      simp only [List.modify_zero_cons, List.mem_cons] at hs
      rcases hs with h | h
      · exact ⟨x, by simp, by rw [h]; exact hf x⟩
      · exact ⟨s, by simp [h], rfl⟩
    | succ j =>
      intro s hs
      simp only [List.modify_succ_cons, List.mem_cons] at hs
      rcases hs with h | h
      · exact ⟨x, by simp, by rw [h]⟩
      · obtain ⟨s0, hs0, e0⟩ := ih j s h
        exact ⟨s0, List.mem_cons_of_mem _ hs0, e0⟩

theorem idsWithin_map (l : List Segment) (f : Segment → Segment)
    (hf : ∀ s, (f s).speakerID = s.speakerID) : idsWithin (l.map f) l := by
  intro s hs
  obtain ⟨s0, hs0, e0⟩ := List.mem_map.mp hs
  exact ⟨s0, hs0, by rw [← e0]; exact hf s0⟩

theorem getD_mem (l : List Segment) (i : Nat) (d : Segment) (h : i < l.length) :
    l.getD i d ∈ l := by
  rw [List.getD_eq_getElem _ _ h]
  exact List.getElem_mem _

theorem replaceAllLoop_idsWithin (fromStr toStr : QString) (cs : CaseSensitivity)
    (segs : List Segment) : idsWithin (replaceAllLoop fromStr toStr cs segs).2 segs := by
  induction segs with
  | nil => intro s hs; simp [replaceAllLoop] at hs
  | cons seg rest ih =>
    intro s hs
    simp only [replaceAllLoop, List.mem_cons] at hs
    rcases hs with h | h
    · exact ⟨seg, by simp, by rw [h]⟩
    · obtain ⟨s0, hs0, e0⟩ := ih s h
      exact ⟨s0, List.mem_cons_of_mem _ hs0, e0⟩

theorem appendText_speakerID (s : Segment) (extra : QString) :
    (s.appendText extra).speakerID = s.speakerID := by
  unfold Segment.appendText
  split <;> rfl

/-- A registered id stays registered when `addSpeakerIfMissing` runs, and the id it is
given is registered afterwards. -/
theorem addSpeakerIfMissing_mem (t : Transcript) (speakerID : QString) :
    (∃ sp ∈ (t.addSpeakerIfMissing speakerID).speakers, sp.id = speakerID) ∧
      (∀ sp ∈ t.speakers, sp ∈ (t.addSpeakerIfMissing speakerID).speakers) ∧
      (t.addSpeakerIfMissing speakerID).segments = t.segments := by
  unfold Transcript.addSpeakerIfMissing
  split
  · exact ⟨⟨{ id := speakerID, displayName := speakerID }, by simp, rfl⟩,
      fun sp hsp => by simp [hsp], rfl⟩
  next hne =>
    refine ⟨?_, fun sp hsp => hsp, rfl⟩
    by_contra hnot
    apply hne
    apply (findSpeakerIndexAux_eq_neg_one speakerID t.speakers 0).mpr
    intro sp hsp hid
    exact hnot ⟨sp, hsp, hid⟩

/-- The calls that neither add segments of a new speaker nor touch the speakers:
afterwards the speakers are the same and every segment has a speaker met before. -/
theorem perform_frame (e : TranscriptEditor) (c : EditorCall) (now : Nat)
    (h1 : ∀ index segment, c ≠ .insertSegment index segment)
    (h2 : ∀ newSegments, c ≠ .setSegments newSegments)
    (h3 : ∀ index speakerID, c ≠ .setSegmentSpeaker index speakerID)
    (h4 : ∀ oldID newID, c ≠ .renameSpeakerGlobal oldID newID) :
    (c.perform e now).2.editedTranscript.speakers = e.editedTranscript.speakers ∧
      idsWithin (c.perform e now).2.editedTranscript.segments e.editedTranscript.segments := by
  cases c <;> simp only [EditorCall.perform]
  case insertSegment index segment => exact absurd rfl (h1 index segment)
  case setSegments newSegments => exact absurd rfl (h2 newSegments)
  case setSegmentSpeaker index speakerID => exact absurd rfl (h3 index speakerID)
  case renameSpeakerGlobal oldID newID => exact absurd rfl (h4 oldID newID)
  case setSegmentText index newText =>
    simp only [setSegmentText]
    split_ifs
    · exact ⟨rfl, idsWithin_refl _⟩
    · exact ⟨rfl, idsWithin_modify _ _ _ (fun _ => rfl)⟩
  case appendToSegment index extraText =>
    simp only [appendToSegment]
    split_ifs
    · exact ⟨rfl, idsWithin_refl _⟩
    · exact ⟨rfl, idsWithin_modify _ _ _ (fun s => appendText_speakerID s extraText)⟩
  case splitSegment index splitPosition =>
    by_cases hs : (e.splitSegment index splitPosition now).1 = -1
    · refine ⟨?_, ?_⟩
      · revert hs; simp only [splitSegment]; split_ifs <;> intro _ <;> rfl
      · revert hs; simp only [splitSegment]
        split_ifs with ha hb hc
        · intro _; exact idsWithin_refl _
        · intro _; exact idsWithin_refl _
        · intro _; exact idsWithin_refl _
        · intro h
          have hv := (isValidSegmentIndex_iff e index).mp (by simpa using ha)
          simp only [] at h
          omega
    · obtain ⟨hidx, h0, hl, hf, hm⟩ := splitSegment_success_inv e index splitPosition now hs
      obtain ⟨_, hsegs, hsp⟩ := splitSegment_success e index splitPosition now hidx h0 hl hf hm
      refine ⟨hsp, ?_⟩
      rw [hsegs]
      have hi := ((isValidSegmentIndex_iff e index).mp hidx).2
      have hmem := getD_mem e.editedTranscript.segments index.toNat emptySegment hi
      intro s hs2
      simp only [List.mem_append, List.mem_cons] at hs2
      rcases hs2 with h | h | h | h
      · exact ⟨s, List.mem_of_mem_take h, rfl⟩
      · exact ⟨_, hmem, by rw [h]⟩
      · exact ⟨_, hmem, by rw [h]⟩
      · exact ⟨s, List.mem_of_mem_drop h, rfl⟩
  case mergeWithNext index =>
    simp only [mergeWithNext]
    split_ifs with ha hb
    · exact ⟨rfl, idsWithin_refl _⟩
    · exact ⟨rfl, idsWithin_refl _⟩
    all_goals
      have hi := ((isValidSegmentIndex_iff e index).mp (by simpa using ha)).2
      exact ⟨rfl, idsWithin_trans _ _ _
        (idsWithin_of_subset _ _ (fun s hs => List.mem_of_mem_eraseIdx hs))
        (idsWithin_set _ _ _ ⟨_, getD_mem _ _ emptySegment hi, rfl⟩)⟩
  case deleteSegment index =>
    simp only [deleteSegment]
    split_ifs
    · exact ⟨rfl, idsWithin_refl _⟩
    · exact ⟨rfl, idsWithin_of_subset _ _ (fun s hs => List.mem_of_mem_eraseIdx hs)⟩
  case removeSegment index =>
    simp only [removeSegment, deleteSegment]
    split_ifs
    · exact ⟨rfl, idsWithin_refl _⟩
    · exact ⟨rfl, idsWithin_of_subset _ _ (fun s hs => List.mem_of_mem_eraseIdx hs)⟩
  case moveSegment fromIndex toIndex =>
    obtain ⟨hp, hsp⟩ := moveSegment_perm e fromIndex toIndex now
    exact ⟨hsp, idsWithin_of_subset _ _ (fun s hs => hp.mem_iff.mp hs)⟩
  case swapSegments indexA indexB =>
    obtain ⟨hp, hsp⟩ := swapSegments_perm e indexA indexB now
    exact ⟨hsp, idsWithin_of_subset _ _ (fun s hs => hp.mem_iff.mp hs)⟩
  case replaceInSegment index fromStr toStr cs =>
    simp only [replaceInSegment]
    split_ifs with ha hb hc
    · exact ⟨rfl, idsWithin_refl _⟩
    · exact ⟨rfl, idsWithin_refl _⟩
    all_goals
      have hi := ((isValidSegmentIndex_iff e index).mp (by simpa using ha)).2
      exact ⟨rfl, idsWithin_set _ _ _ ⟨_, getD_mem _ _ emptySegment hi, rfl⟩⟩
  case replaceAll fromStr toStr cs =>
    simp only [replaceAll]
    split_ifs
    · exact ⟨rfl, idsWithin_refl _⟩
    · exact ⟨rfl, replaceAllLoop_idsWithin _ _ _ _⟩
    · exact ⟨rfl, replaceAllLoop_idsWithin _ _ _ _⟩
  case normalizeWhitespaceAll =>
    simp only [normalizeWhitespaceAll]
    split_ifs
    · exact ⟨rfl, idsWithin_refl _⟩
    · exact ⟨rfl, idsWithin_map _ _ (fun _ => rfl)⟩

theorem mem_modify (l : List Segment) (f : Segment → Segment) (i : Nat) (s : Segment)
    (h : s ∈ l.modify f i) : s ∈ l ∨ ∃ s0 ∈ l, s = f s0 := by
  induction l generalizing i with
  | nil => simp at h
  | cons x rest ih =>
    cases i with
    | zero =>
      simp only [List.modify_zero_cons, List.mem_cons] at h
      rcases h with h | h
      · exact Or.inr ⟨x, by simp, h⟩
      · exact Or.inl (List.mem_cons_of_mem _ h)
    | succ j =>
      simp only [List.modify_succ_cons, List.mem_cons] at h
      rcases h with h | h
      · exact Or.inl (by simp [h])
      · rcases ih j h with h2 | ⟨s0, hs0, e0⟩
        · exact Or.inl (List.mem_cons_of_mem _ h2)
        · exact Or.inr ⟨s0, List.mem_cons_of_mem _ hs0, e0⟩

/-- What a successful `renameSpeakerGlobal` leaves in the transcript. -/
theorem renameSpeakerGlobal_transcript (e : TranscriptEditor) (oldID newID : QString)
    (now : Nat) :
    (e.renameSpeakerGlobal oldID newID now).2.editedTranscript = e.editedTranscript ∨
      ((∃ sp ∈ e.editedTranscript.speakers, sp.id = trimmed oldID) ∧
        trimmed oldID ≠ trimmed newID ∧
        (e.renameSpeakerGlobal oldID newID now).2.editedTranscript =
          { e.editedTranscript.renameSpeaker (trimmed oldID) (trimmed newID) with
            lastEdited := now }) := by
  simp only [renameSpeakerGlobal]
  split_ifs with h1 h2 h3
  · exact Or.inl rfl
  · exact Or.inl rfl
  · exact Or.inl rfl
  · exact Or.inr ⟨(hasSpeaker_iff e _).mp (by simpa using h3), h2, rfl⟩

/-- Every operation of the editor other than a `setSegments` with a segment of an
unregistered speaker keeps every segment's speaker registered. -/
theorem speakersRegistered_preserved (e : TranscriptEditor) (c : EditorCall) (now : Nat)
    (h : speakersRegistered e.editedTranscript)
    (hset : ∀ newSegments, c = .setSegments newSegments →
      ∀ s ∈ newSegments, ∃ sp ∈ e.editedTranscript.speakers, sp.id = s.speakerID) :
    speakersRegistered (c.perform e now).2.editedTranscript := by
  by_cases c1 : ∃ index segment, c = .insertSegment index segment
  · obtain ⟨index, segment, rfl⟩ := c1
    simp only [EditorCall.perform, insertSegment]
    split_ifs with ha
    · exact h
    · obtain ⟨m1, m2, m3⟩ := addSpeakerIfMissing_mem
        (e.saveSnapshot.withSegments
          (e.saveSnapshot.editedTranscript.segments.insertIdx index.toNat segment)).editedTranscript
        segment.speakerID
      intro s hs
      have hs2 : s ∈ e.editedTranscript.segments.insertIdx index.toNat segment := by
        have : s ∈ ((e.saveSnapshot.withSegments
          (e.saveSnapshot.editedTranscript.segments.insertIdx index.toNat segment)
            ).editedTranscript.addSpeakerIfMissing segment.speakerID).segments := hs
        rw [m3] at this
        exact this
      rcases (List.mem_insertIdx (by omega)).mp hs2 with h1 | h1
      · obtain ⟨sp, hsp, hid⟩ := m1
        exact ⟨sp, hsp, by rw [h1]; exact hid⟩
      · obtain ⟨sp, hsp, hid⟩ := h s h1
        exact ⟨sp, m2 sp hsp, hid⟩
  by_cases c2 : ∃ newSegments, c = .setSegments newSegments
  · obtain ⟨newSegments, rfl⟩ := c2
    intro s hs
    exact hset newSegments rfl s hs
  by_cases c3 : ∃ index speakerID, c = .setSegmentSpeaker index speakerID
  · obtain ⟨index, speakerID, rfl⟩ := c3
    simp only [EditorCall.perform, setSegmentSpeaker]
    split_ifs with ha
    · exact h
    · obtain ⟨m1, m2, m3⟩ := addSpeakerIfMissing_mem
        (e.saveSnapshot.withSegments
          (e.saveSnapshot.editedTranscript.segments.modify
            (fun seg => { seg with speakerID := trimmed speakerID }) index.toNat)).editedTranscript
        (trimmed speakerID)
      intro s hs
      have hs2 : s ∈ e.editedTranscript.segments.modify
          (fun seg => { seg with speakerID := trimmed speakerID }) index.toNat := by
        have : s ∈ ((e.saveSnapshot.withSegments
          (e.saveSnapshot.editedTranscript.segments.modify
            (fun seg => { seg with speakerID := trimmed speakerID }) index.toNat)
            ).editedTranscript.addSpeakerIfMissing (trimmed speakerID)).segments := hs
        rw [m3] at this
        exact this
      rcases mem_modify _ _ _ _ hs2 with h1 | ⟨s0, _, e0⟩
      · obtain ⟨sp, hsp, hid⟩ := h s h1
        exact ⟨sp, m2 sp hsp, hid⟩
      · obtain ⟨sp, hsp, hid⟩ := m1
        exact ⟨sp, hsp, by rw [e0]; exact hid⟩
  by_cases c4 : ∃ oldID newID, c = .renameSpeakerGlobal oldID newID
  · obtain ⟨oldID, newID, rfl⟩ := c4
    simp only [EditorCall.perform]
    rcases renameSpeakerGlobal_transcript e oldID newID now with h1 | ⟨hex, _, h1⟩
    · rw [h1]; exact h
    · rw [h1]
      obtain ⟨⟨pre, sp, post, hsp, hid, _, hsp2⟩, hseg⟩ :=
        renameSpeaker_found e.editedTranscript (trimmed oldID) (trimmed newID) hex
      intro s hs
      have hs2 : s ∈ (e.editedTranscript.renameSpeaker (trimmed oldID) (trimmed newID)).segments :=
        hs
      show ∃ sp' ∈ (e.editedTranscript.renameSpeaker (trimmed oldID) (trimmed newID)).speakers,
        sp'.id = s.speakerID
      rw [hseg] at hs2
      rw [hsp2]
      obtain ⟨s0, hs0, e0⟩ := List.mem_map.mp hs2
      by_cases hold : s0.speakerID = trimmed oldID
      · rw [if_pos hold] at e0
        exact ⟨{ sp with id := trimmed newID, displayName := trimmed newID }, by simp,
          by rw [← e0]⟩
      · rw [if_neg hold] at e0
        obtain ⟨sp0, hsp0, hid0⟩ := h s0 hs0
        rw [hsp] at hsp0
        rcases List.mem_append.mp hsp0 with hp | hp
        · exact ⟨sp0, by simp [hp], by rw [← e0]; exact hid0⟩
        · rcases List.mem_cons.mp hp with hp | hp
          · exact absurd (by rw [← hid0, hp]; exact hid) hold
          · exact ⟨sp0, by simp [hp], by rw [← e0]; exact hid0⟩
  obtain ⟨hsp, hids⟩ := perform_frame e c now (fun i s hc => c1 ⟨i, s, hc⟩)
    (fun ns hc => c2 ⟨ns, hc⟩) (fun i s hc => c3 ⟨i, s, hc⟩) (fun a b hc => c4 ⟨a, b, hc⟩)
  intro s hs
  obtain ⟨s0, hs0, e0⟩ := hids s hs
  obtain ⟨sp, hsp2, hid⟩ := h s0 hs0
  exact ⟨sp, by rw [hsp]; exact hsp2, by rw [e0]; exact hid⟩

/-- Every operation of the editor other than a `renameSpeakerGlobal` onto an id that is
already registered keeps the ids of the speakers free of repetitions. -/
theorem speakerIds_nodup_preserved (e : TranscriptEditor) (c : EditorCall) (now : Nat)
    (h : (e.editedTranscript.speakers.map Speaker.id).Nodup)
    (hren : ∀ oldID newID, c = .renameSpeakerGlobal oldID newID →
      ∀ sp ∈ e.editedTranscript.speakers, sp.id ≠ trimmed newID) :
    ((c.perform e now).2.editedTranscript.speakers.map Speaker.id).Nodup := by
  by_cases c1 : ∃ index segment, c = .insertSegment index segment
  · obtain ⟨index, segment, rfl⟩ := c1
    simp only [EditorCall.perform, insertSegment]
    split_ifs with ha
    · exact h
    · exact (addSpeakerIfMissing_spec
        (e.saveSnapshot.withSegments
          (e.saveSnapshot.editedTranscript.segments.insertIdx index.toNat segment)).editedTranscript
        segment.speakerID h).1
  by_cases c2 : ∃ newSegments, c = .setSegments newSegments
  · obtain ⟨newSegments, rfl⟩ := c2
    exact h
  by_cases c3 : ∃ index speakerID, c = .setSegmentSpeaker index speakerID
  · obtain ⟨index, speakerID, rfl⟩ := c3
    simp only [EditorCall.perform, setSegmentSpeaker]
    split_ifs with ha
    · exact h
    · exact (addSpeakerIfMissing_spec
        (e.saveSnapshot.withSegments
          (e.saveSnapshot.editedTranscript.segments.modify
            (fun seg => { seg with speakerID := trimmed speakerID }) index.toNat)).editedTranscript
        (trimmed speakerID) h).1
  by_cases c4 : ∃ oldID newID, c = .renameSpeakerGlobal oldID newID
  · obtain ⟨oldID, newID, rfl⟩ := c4
    simp only [EditorCall.perform]
    rcases renameSpeakerGlobal_transcript e oldID newID now with h1 | ⟨hex, _, h1⟩
    · rw [h1]; exact h
    · rw [h1]
      obtain ⟨⟨pre, sp, post, hsp, _, _, hsp2⟩, _⟩ :=
        renameSpeaker_found e.editedTranscript (trimmed oldID) (trimmed newID) hex
      show ((e.editedTranscript.renameSpeaker (trimmed oldID) (trimmed newID)).speakers.map
        Speaker.id).Nodup
      have hfree := hren oldID newID rfl
      rw [hsp] at h hfree
      rw [hsp2]
      simp only [List.map_append, List.map_cons, List.nodup_append, List.nodup_cons,
        List.mem_map, List.mem_append, List.mem_cons, List.disjoint_cons_right] at h hfree ⊢
      refine ⟨h.1, ⟨?_, h.2.1.2⟩, ?_, h.2.2.2⟩
      · rintro ⟨x, hx, hxid⟩
        exact hfree x (Or.inr (Or.inr hx)) hxid
      · rintro ⟨x, hx, hxid⟩
        exact hfree x (Or.inl hx) hxid
  obtain ⟨hsp, _⟩ := perform_frame e c now (fun i s hc => c1 ⟨i, s, hc⟩)
    (fun ns hc => c2 ⟨ns, hc⟩) (fun i s hc => c3 ⟨i, s, hc⟩) (fun a b hc => c4 ⟨a, b, hc⟩)
  rw [hsp]; exact h

/-! ## Registration on insertSegment and setSegmentSpeaker -/

/-- What `addSpeakerIfMissing` does to the speakers. -/
theorem addSpeakerIfMissing_registeredAfter (t : Transcript) (speakerID : QString) :
    registeredAfter t.speakers speakerID (t.addSpeakerIfMissing speakerID).speakers := by
  unfold registeredAfter Transcript.addSpeakerIfMissing Transcript.findSpeakerIndex
  split
  next heq =>
    have hnot := (findSpeakerIndexAux_eq_neg_one speakerID t.speakers 0).mp heq
    refine ⟨⟨{ id := speakerID, displayName := speakerID }, by simp, rfl⟩, ?_, ?_⟩
    · rintro ⟨sp, hsp, hid⟩
      exact absurd hid (hnot sp hsp)
    · intro _
      exact ⟨{ id := speakerID, displayName := speakerID }, rfl, rfl, rfl⟩
  next hne =>
    have hex : ∃ sp ∈ t.speakers, sp.id = speakerID := by
      by_contra hc
      apply hne
      apply (findSpeakerIndexAux_eq_neg_one speakerID t.speakers 0).mpr
      intro sp hsp hid
      exact hc ⟨sp, hsp, hid⟩
    refine ⟨hex, fun _ => rfl, ?_⟩
    intro hall
    obtain ⟨sp, hsp, hid⟩ := hex
    exact absurd hid (hall sp hsp)

/-- The element put in by `insertIdx` is found at that index. -/
theorem getElem?_insertIdx_self_le (segs : List Segment) (i : Nat) (s : Segment)
    (h : i ≤ segs.length) : (segs.insertIdx i s)[i]? = some s := by
  induction segs generalizing i with
  | nil =>
    have : i = 0 := by simpa using h
    subst this
    simp [List.insertIdx]
  | cons a rest ih =>
    cases i with
    | zero => simp [List.insertIdx]
    | succ n =>
      have hn : n ≤ rest.length := by simpa using h
      simpa [List.insertIdx] using ih n hn

/-- The element changed by `modify` at a valid index. -/
theorem getElem?_modify_self (segs : List Segment) (f : Segment → Segment) (i : Nat) :
    (segs.modify f i)[i]? = (segs[i]?).map f := by
  induction segs generalizing i with
  | nil => simp
  | cons a rest ih =>
    cases i with
    | zero => simp [List.modify]
    | succ n => simpa [List.modify] using ih n

/-- C21: `insertSegment(i, s)` succeeds exactly when `0 ≤ i ≤ segment count`, and then `s`
sits at index `i`; `setSegmentSpeaker(i, id)` succeeds exactly when `i` is a valid index
and the trimmed id is not empty, and then the speaker of segment `i` is the trimmed id.
After either success the assigned id is registered: the speakers are unchanged when the id
had an entry, and otherwise one entry with `displayName` equal to the id is appended at
the end. -/
theorem insert_and_setSpeaker_register (e : TranscriptEditor) (index : Int)
    (segment : Segment) (speakerID : QString) (now : Nat) :
    ((e.insertSegment index segment now).1 = true ↔
        0 ≤ index ∧ index ≤ (e.editedTranscript.segments.length : Int)) ∧
      ((e.insertSegment index segment now).1 = true →
        (e.insertSegment index segment now).2.editedTranscript.segments[index.toNat]? =
            some segment ∧
          registeredAfter e.editedTranscript.speakers segment.speakerID
            (e.insertSegment index segment now).2.editedTranscript.speakers) ∧
      ((e.setSegmentSpeaker index speakerID now).1 = true ↔
        e.isValidSegmentIndex index = true ∧ trimmed speakerID ≠ []) ∧
      ((e.setSegmentSpeaker index speakerID now).1 = true →
        ((e.setSegmentSpeaker index speakerID now).2.editedTranscript.segments[index.toNat]?).map
            Segment.speakerID = some (trimmed speakerID) ∧
          registeredAfter e.editedTranscript.speakers (trimmed speakerID)
            (e.setSegmentSpeaker index speakerID now).2.editedTranscript.speakers) := by
  refine ⟨?_, ?_, ?_, ?_⟩
  · simp only [insertSegment]
    split_ifs with h
    · simp only [Bool.false_eq_true, false_iff]
      omega
    · simp only [true_iff]
      omega
  · simp only [insertSegment]
    split_ifs with h
    · intro hf; exact absurd hf (by simp)
    · intro _
      have hle : index.toNat ≤ e.editedTranscript.segments.length := by omega
      constructor
      · have h1 := addSpeakerIfMissing_mem
          (e.saveSnapshot.withSegments
            (e.saveSnapshot.editedTranscript.segments.insertIdx index.toNat segment)).editedTranscript
          segment.speakerID
        simp only [markEdited, ensureSpeakerExists]
        rw [h1.2.2]
        exact getElem?_insertIdx_self_le _ _ _ hle
      · exact addSpeakerIfMissing_registeredAfter _ _
  · simp only [setSegmentSpeaker]
    split_ifs with h
    · simp only [Bool.false_eq_true, false_iff]
      intro hc
      rcases Bool.or_eq_true _ _ ▸ h with h1 | h1
      · simp [hc.1] at h1
      · exact hc.2 (List.isEmpty_iff.mp h1)
    · simp only [true_iff]
      simp only [Bool.or_eq_true, not_or, Bool.not_eq_true', Bool.not_eq_false,
        Bool.not_eq_true] at h
      refine ⟨by simpa using h.1, ?_⟩
      intro h0
      rw [h0] at h
      simp at h
  · simp only [setSegmentSpeaker]
    split_ifs with h
    · intro hf; exact absurd hf (by simp)
    · intro _
      simp only [Bool.or_eq_true, not_or, Bool.not_eq_true', Bool.not_eq_false,
        Bool.not_eq_true] at h
      have hv : e.isValidSegmentIndex index = true := by simpa using h.1
      have hlt := ((isValidSegmentIndex_iff e index).mp hv).2
      constructor
      · have h1 := addSpeakerIfMissing_mem
          (e.saveSnapshot.withSegments
            (e.saveSnapshot.editedTranscript.segments.modify
              (fun seg => { seg with speakerID := trimmed speakerID }) index.toNat)).editedTranscript
          (trimmed speakerID)
        simp only [markEdited, ensureSpeakerExists]
        rw [h1.2.2]
        simp only [withSegments, saveSnapshot]
        rw [getElem?_modify_self, List.getElem?_eq_getElem hlt]
        rfl
      · exact addSpeakerIfMissing_registeredAfter _ _

theorem insert_and_setSpeaker_register_witness :
    ((sampleStart.insertSegment 2 ⟨"B".toList, "new".toList⟩ 7).2.editedTranscript.segments[2]? =
          some ⟨"B".toList, "new".toList⟩ ∧
        registeredAfter sampleStart.editedTranscript.speakers "B".toList
          (sampleStart.insertSegment 2 ⟨"B".toList, "new".toList⟩ 7).2.editedTranscript.speakers) ∧
      (((sampleStart.setSegmentSpeaker 1 " A ".toList 7).2.editedTranscript.segments[1]?).map
            Segment.speakerID = some (trimmed " A ".toList) ∧
        registeredAfter sampleStart.editedTranscript.speakers (trimmed " A ".toList)
          (sampleStart.setSegmentSpeaker 1 " A ".toList 7).2.editedTranscript.speakers) :=
  ⟨(insert_and_setSpeaker_register sampleStart 2 ⟨"B".toList, "new".toList⟩ [] 7).2.1
      (by decide),
    (insert_and_setSpeaker_register sampleStart 1 ⟨[], []⟩ " A ".toList 7).2.2.2 (by decide)⟩

/-! ## The merge of neighbours of one speaker -/

theorem mergeLoop_acc (rest : List Segment) :
    ∀ (merged : List Segment) (cur : Segment),
      Transcript.mergeLoop rest merged cur = merged ++ Transcript.mergeLoop rest [] cur := by
  induction rest with
  | nil => intro merged cur; simp [Transcript.mergeLoop]
  | cons next rest ih =>
    intro merged cur
    simp only [Transcript.mergeLoop]
    split_ifs with h
    · exact ih merged _
    · rw [ih (merged ++ [cur]) next, ih ([] ++ [cur]) next]
      simp

/-- The merge starts with a segment of the speaker of the current one, and no two
neighbours of its result have the same speaker. -/
theorem mergeLoop_chain (rest : List Segment) :
    ∀ cur : Segment, ∃ c tl, Transcript.mergeLoop rest [] cur = c :: tl ∧
      c.speakerID = cur.speakerID ∧ noAdjacentSameSpeaker (c :: tl) := by
  induction rest with
  | nil =>
    intro cur
    exact ⟨cur, [], by simp [Transcript.mergeLoop], rfl, by simp [noAdjacentSameSpeaker]⟩
  | cons next rest ih =>
    intro cur
    simp only [Transcript.mergeLoop]
    split_ifs with h
    · obtain ⟨c, tl, h1, h2, h3⟩ := ih (cur.appendText next.text)
      exact ⟨c, tl, h1, by rw [h2, appendText_speakerID], h3⟩
    · obtain ⟨c, tl, h1, h2, h3⟩ := ih next
      rw [mergeLoop_acc, h1]
      refine ⟨cur, c :: tl, by simp, rfl, ?_⟩
      unfold noAdjacentSameSpeaker at h3 ⊢
      rw [List.chain'_cons]
      refine ⟨?_, h3⟩
      rw [h2]
      exact fun heq => h heq.symm

/-- The merge leaves a list without equal neighbours as it is. -/
theorem mergeLoop_fixed (rest : List Segment) :
    ∀ cur : Segment, noAdjacentSameSpeaker (cur :: rest) →
      Transcript.mergeLoop rest [] cur = cur :: rest := by
  induction rest with
  | nil => intro cur _; simp [Transcript.mergeLoop]
  | cons next rest ih =>
    intro cur hch
    unfold noAdjacentSameSpeaker at hch
    rw [List.chain'_cons] at hch
    simp only [Transcript.mergeLoop]
    rw [if_neg (fun heq => hch.1 heq.symm), mergeLoop_acc, ih next hch.2]
    simp

/-- C22: `mergeAdjacentSameSpeaker` is idempotent: a second application changes nothing,
and after one application no two adjacent segments have the same `speakerID`. -/
theorem mergeAdjacentSameSpeaker_idempotent (t : Transcript) :
    t.mergeAdjacentSameSpeaker.mergeAdjacentSameSpeaker = t.mergeAdjacentSameSpeaker ∧
      noAdjacentSameSpeaker t.mergeAdjacentSameSpeaker.segments := by
  unfold Transcript.mergeAdjacentSameSpeaker
  rcases hs : t.segments with _ | ⟨first, _ | ⟨second, rest⟩⟩
  · simp [hs, noAdjacentSameSpeaker]
  · simp [hs, noAdjacentSameSpeaker]
  · obtain ⟨c, tl, h1, _, h3⟩ := mergeLoop_chain (second :: rest) first
    simp only [h1]
    refine ⟨?_, h3⟩
    cases tl with
    | nil => rfl
    | cons d tl2 =>
      simp only
      rw [mergeLoop_fixed (d :: tl2) c h3]

/-! ## Lines of a text -/

theorem splitNewline_exists (s : QString) : ∃ h t, splitNewline s = h :: t := by
  cases s with
  | nil => exact ⟨[], [], rfl⟩
  | cons c rest =>
    simp only [splitNewline]
    split_ifs
    · exact ⟨_, _, rfl⟩
    · split
      · exact ⟨_, _, rfl⟩
      · exact ⟨_, _, rfl⟩

theorem splitNewline_newline_cons (rest : QString) :
    splitNewline ('\n' :: rest) = [] :: splitNewline rest := by
  simp [splitNewline]

theorem splitNewline_char_cons (c : Char) (rest h : QString) (t : List QString)
    (hc : c ≠ '\n') (hr : splitNewline rest = h :: t) :
    splitNewline (c :: rest) = (c :: h) :: t := by
  simp [splitNewline, hc, hr]

/-- The lines of two texts joined by a line feed are the lines of the one followed by
the lines of the other. -/
theorem splitNewline_append_newline (a b : QString) :
    splitNewline (a ++ '\n' :: b) = splitNewline a ++ splitNewline b := by
  induction a with
  | nil => simp [splitNewline]
  | cons c a ih =>
    by_cases hc : c = '\n'
    · subst hc
      rw [List.cons_append, splitNewline_newline_cons, splitNewline_newline_cons, ih]
      rfl
    · obtain ⟨h, t, ht⟩ := splitNewline_exists a
      rw [List.cons_append, splitNewline_char_cons c _ h (t ++ splitNewline b) hc (by rw [ih, ht]; rfl),
        splitNewline_char_cons c a h t hc ht]
      rfl

theorem splitNewline_of_no_newline (a : QString) (h : '\n' ∉ a) : splitNewline a = [a] := by
  induction a with
  | nil => rfl
  | cons c a ih =>
    have hc : c ≠ '\n' := fun heq => h (by simp [heq])
    have ha : '\n' ∉ a := fun hm => h (List.mem_cons_of_mem _ hm)
    exact splitNewline_char_cons c a a [] hc (ih ha)

theorem splitNewline_no_newline (s : QString) : ∀ l ∈ splitNewline s, '\n' ∉ l := by
  induction s with
  | nil => simp [splitNewline]
  | cons c rest ih =>
    by_cases hc : c = '\n'
    · subst hc
      rw [splitNewline_newline_cons]
      intro l hl
      rcases List.mem_cons.mp hl with h | h
      · subst h; simp
      · exact ih l h
    · obtain ⟨h, t, ht⟩ := splitNewline_exists rest
      rw [splitNewline_char_cons c rest h t hc ht]
      rw [ht] at ih
      intro l hl
      rcases List.mem_cons.mp hl with h1 | h1
      · subst h1
        intro hm
        rcases List.mem_cons.mp hm with h2 | h2
        · exact hc h2.symm
        · exact ih h (by simp) h2
      · exact ih l (List.mem_cons_of_mem _ h1)

/-- A text ending in a line feed has one more, empty, line. -/
theorem splitNewline_concat_newline (p : QString) :
    splitNewline (p ++ ['\n']) = splitNewline p ++ [[]] := by
  rw [splitNewline_append_newline]
  rfl

/-- A character that is no line feed, put at the end, goes to the end of the last line. -/
theorem splitNewline_concat_char (p : QString) (c : Char) (hc : c ≠ '\n') :
    ∃ init last, splitNewline p = init ++ [last] ∧
      splitNewline (p ++ [c]) = init ++ [last ++ [c]] := by
  induction p with
  | nil =>
    exact ⟨[], [], rfl, by simp [splitNewline, hc]⟩
  | cons d p ih =>
    obtain ⟨init, last, h1, h2⟩ := ih
    by_cases hd : d = '\n'
    · subst hd
      refine ⟨[] :: init, last, ?_, ?_⟩
      · rw [splitNewline_newline_cons, h1]; rfl
      · rw [List.cons_append, splitNewline_newline_cons, h2]; rfl
    · cases init with
      | nil =>
        refine ⟨[], d :: last, ?_, ?_⟩
        · rw [splitNewline_char_cons d p last [] hd (by simpa using h1)]; rfl
        · rw [List.cons_append, splitNewline_char_cons d _ (last ++ [c]) [] hd (by simpa using h2)]
          rfl
      | cons i0 init =>
        refine ⟨(d :: i0) :: init, last, ?_, ?_⟩
        · rw [splitNewline_char_cons d p i0 (init ++ [last]) hd (by simpa using h1)]; rfl
        · rw [List.cons_append,
            splitNewline_char_cons d _ i0 (init ++ [last ++ [c]]) hd (by simpa using h2)]
          rfl

theorem joinNewline_nil : joinNewline [] = [] := rfl

theorem joinNewline_singleton (a : QString) : joinNewline [a] = a := by
  simp [joinNewline, List.intercalate]

theorem joinNewline_cons_cons (a b : QString) (rest : List QString) :
    joinNewline (a :: b :: rest) = a ++ '\n' :: joinNewline (b :: rest) := by
  simp [joinNewline, List.intercalate]

/-- Cutting the joined lines gives the lines back. -/
theorem splitNewline_joinNewline (lines : List QString) (hne : lines ≠ [])
    (h : ∀ l ∈ lines, '\n' ∉ l) : splitNewline (joinNewline lines) = lines := by
  induction lines with
  | nil => exact absurd rfl hne
  | cons a rest ih =>
    cases rest with
    | nil =>
      rw [joinNewline_singleton]
      exact splitNewline_of_no_newline a (h a (by simp))
    | cons b rest =>
      rw [joinNewline_cons_cons, splitNewline_append_newline,
        splitNewline_of_no_newline a (h a (by simp)),
        ih (by simp) (fun l hl => h l (List.mem_cons_of_mem _ hl))]
      rfl

/-- Joining the lines of a text gives the text back. -/
theorem joinNewline_splitNewline (s : QString) : joinNewline (splitNewline s) = s := by
  induction s with
  | nil => rfl
  | cons c rest ih =>
    obtain ⟨h, t, ht⟩ := splitNewline_exists rest
    by_cases hc : c = '\n'
    · subst hc
      rw [splitNewline_newline_cons, ht, joinNewline_cons_cons, ← ht, ih]
      rfl
    · rw [splitNewline_char_cons c rest h t hc ht]
      rw [ht] at ih
      cases t with
      | nil =>
        rw [joinNewline_singleton] at ih
        rw [joinNewline_singleton, ih]
      | cons b t =>
        rw [joinNewline_cons_cons] at ih
        rw [joinNewline_cons_cons, List.cons_append, ih]

/-! ## Runs of line feeds -/

theorem hasTripleNewline_cons_of_ne (c : Char) (s : QString) (hc : c ≠ '\n') :
    hasTripleNewline (c :: s) = hasTripleNewline s := by
  rcases s with _ | ⟨a, _ | ⟨b, rest⟩⟩
  · rfl
  · rfl
  · simp [hasTripleNewline, hc]

theorem hasTripleNewline_cons_cons_of_ne (x c : Char) (s : QString) (hc : c ≠ '\n') :
    hasTripleNewline (x :: c :: s) = hasTripleNewline (c :: s) := by
  cases s with
  | nil => rfl
  | cons b rest => simp [hasTripleNewline, hc]

theorem hasTripleNewline_cons_cons_cons_of_ne (x y c : Char) (s : QString) (hc : c ≠ '\n') :
    hasTripleNewline (x :: y :: c :: s) = hasTripleNewline (y :: c :: s) := by
  simp [hasTripleNewline, hc]

theorem hasTripleNewline_cons_false (c : Char) (s : QString)
    (h : hasTripleNewline (c :: s) = false) : hasTripleNewline s = false := by
  rcases s with _ | ⟨a, _ | ⟨b, rest⟩⟩
  · rfl
  · rfl
  · simp only [hasTripleNewline, Bool.or_eq_false_iff] at h
    exact h.2

theorem hasTripleNewline_append_of_no_newline (a s : QString) (h : '\n' ∉ a) :
    hasTripleNewline (a ++ s) = hasTripleNewline s := by
  induction a with
  | nil => rfl
  | cons c a ih =>
    have hc : c ≠ '\n' := fun heq => h (by simp [heq])
    have ha : '\n' ∉ a := fun hm => h (List.mem_cons_of_mem _ hm)
    rw [List.cons_append, hasTripleNewline_cons_of_ne c _ hc, ih ha]

/-! ## Trimming and lines -/

theorem trimmed_nil : trimmed [] = [] := rfl

/-- A string that starts and ends with a non-blank is left alone by trimming. -/
theorem trimmed_eq_self_of_ends (a : QString) (x y : Char) (rest init : QString)
    (hx : a = x :: rest) (hxs : isSpace x = false) (hy : a = init ++ [y])
    (hys : isSpace y = false) : trimmed a = a := by
  have h := trimmed_sandwich [] a [] x y rest init hx hxs hy hys
    (fun c hc => absurd hc (List.not_mem_nil c)) (fun c hc => absurd hc (List.not_mem_nil c))
  simpa using h

theorem trimmed_idem (s : QString) : trimmed (trimmed s) = trimmed s := by
  by_cases h : trimmed s = []
  · rw [h]; rfl
  · obtain ⟨x, rest, hx, hxs⟩ := trimmed_head s h
    obtain ⟨init, y, hy, hys⟩ := trimmed_last s h
    exact trimmed_eq_self_of_ends _ x y rest init hx hxs hy hys

/-- A trimmed string loses nothing when whitespace is dropped from its start. -/
theorem dropWhile_of_trimmed (l : QString) (h : trimmed l = l) : l.dropWhile isSpace = l := by
  by_cases h0 : l = []
  · rw [h0]; rfl
  · obtain ⟨x, rest, hx, hxs⟩ := trimmed_head l (by rw [h]; exact h0)
    rw [h] at hx
    rw [hx, List.dropWhile_cons_of_neg (by simp [hxs])]

/-- A trimmed string loses nothing when whitespace is dropped from its end. -/
theorem rdropWhile_of_trimmed (l : QString) (h : trimmed l = l) : l.rdropWhile isSpace = l := by
  by_cases h0 : l = []
  · rw [h0]; rfl
  · obtain ⟨init, y, hy, hys⟩ := trimmed_last l (by rw [h]; exact h0)
    rw [h] at hy
    rw [hy, List.rdropWhile_concat_neg _ _ _ (by simp [hys])]

theorem isSpace_ne_newline (c : Char) (h : isSpace c = false) : c ≠ '\n' := by
  intro heq
  rw [heq, isSpace_newline] at h
  exact Bool.noConfusion h

/-- The lines of a text without the whitespace at its start: the lines before the first
non-blank one are gone, and that line has lost the whitespace at its start. -/
theorem splitNewline_dropWhile (s : QString) :
    ∃ pre l r, splitNewline s = pre ++ l :: r ∧
      splitNewline (s.dropWhile isSpace) = l.dropWhile isSpace :: r ∧
      (l.dropWhile isSpace = [] → r = []) := by
  induction s with
  | nil => exact ⟨[], [], [], rfl, rfl, fun _ => rfl⟩
  | cons c rest ih =>
    obtain ⟨pre, l, r, h1, h2, h3⟩ := ih
    by_cases hs : isSpace c = true
    · rw [List.dropWhile_cons_of_pos hs]
      by_cases hc : c = '\n'
      · subst hc
        exact ⟨[] :: pre, l, r, by rw [splitNewline_newline_cons, h1]; rfl, h2, h3⟩
      · cases pre with
        | nil =>
          refine ⟨[], c :: l, r, ?_, ?_, ?_⟩
          · rw [splitNewline_char_cons c rest l r hc (by simpa using h1)]; rfl
          · rw [List.dropWhile_cons_of_pos hs]; exact h2
          · rw [List.dropWhile_cons_of_pos hs]; exact h3
        | cons p0 pre =>
          refine ⟨(c :: p0) :: pre, l, r, ?_, h2, h3⟩
          rw [splitNewline_char_cons c rest p0 (pre ++ l :: r) hc (by simpa using h1)]
          rfl
    · have hs' : isSpace c = false := by simpa using hs
      have hc : c ≠ '\n' := isSpace_ne_newline c hs'
      obtain ⟨h, t, ht⟩ := splitNewline_exists rest
      refine ⟨[], c :: h, t, ?_, ?_, ?_⟩
      · rw [splitNewline_char_cons c rest h t hc ht]; rfl
      · rw [List.dropWhile_cons_of_neg hs, List.dropWhile_cons_of_neg hs,
          splitNewline_char_cons c rest h t hc ht]
      · rw [List.dropWhile_cons_of_neg hs]
        intro h0
        exact absurd h0 (by simp)

/-- The lines of a text without the whitespace at its end: the lines after the last
non-blank one are gone, and that line has lost the whitespace at its end. -/
theorem splitNewline_rdropWhile (d : QString) :
    ∃ pre l post, splitNewline d = pre ++ l :: post ∧
      splitNewline (d.rdropWhile isSpace) = pre ++ [l.rdropWhile isSpace] ∧
      (l.rdropWhile isSpace = [] → pre = []) := by
  induction d using List.reverseRecOn with
  | nil => exact ⟨[], [], [], rfl, rfl, fun _ => rfl⟩
  | append_singleton p c ih =>
    obtain ⟨pre, l, post, h1, h2, h3⟩ := ih
    by_cases hs : isSpace c = true
    · rw [List.rdropWhile_concat_pos _ _ _ hs]
      by_cases hc : c = '\n'
      · subst hc
        refine ⟨pre, l, post ++ [[]], ?_, h2, h3⟩
        rw [splitNewline_concat_newline, h1]
        simp
      · obtain ⟨init, last, h4, h5⟩ := splitNewline_concat_char p c hc
        rcases List.eq_nil_or_concat post with hp | ⟨post1, q, hp⟩
        · subst hp
          have hinit : init = pre ∧ last = l := by
            have := h4.symm.trans h1
            exact List.append_inj' this rfl |>.imp id (fun h => by simpa using h)
          refine ⟨pre, l ++ [c], [], ?_, ?_, ?_⟩
          · rw [h5, hinit.1, hinit.2]
          · rw [List.rdropWhile_concat_pos _ _ _ hs]; exact h2
          · rw [List.rdropWhile_concat_pos _ _ _ hs]; exact h3
        · subst hp
          have hinit : init = pre ++ l :: post1 ∧ last = q := by
            have : init ++ [last] = (pre ++ l :: post1) ++ [q] := by
              rw [← h4, h1]; simp
            exact List.append_inj' this rfl |>.imp id (fun h => by simpa using h)
          refine ⟨pre, l, post1 ++ [q ++ [c]], ?_, h2, h3⟩
          rw [h5, hinit.1, hinit.2]
          simp
    · have hs' : isSpace c = false := by simpa using hs
      have hc : c ≠ '\n' := isSpace_ne_newline c hs'
      obtain ⟨init, last, h4, h5⟩ := splitNewline_concat_char p c hc
      refine ⟨init, last ++ [c], [], h5, ?_, ?_⟩
      · rw [List.rdropWhile_concat_neg _ _ _ hs, List.rdropWhile_concat_neg _ _ _ hs, h5]
      · rw [List.rdropWhile_concat_neg _ _ _ hs]
        intro h0
        exact absurd h0 (by simp)

/-- The lines of a trimmed text: either the one trimmed line that holds all its
non-blanks, or a stretch of the lines of the text whose first and last line have lost the
whitespace at their outer end and are not empty. -/
theorem splitNewline_trimmed (s : QString) :
    (∃ pre l post, splitNewline s = pre ++ l :: post ∧ splitNewline (trimmed s) = [trimmed l]) ∨
    (∃ pre l1 mid l2 post, splitNewline s = pre ++ l1 :: (mid ++ l2 :: post) ∧
      splitNewline (trimmed s) = l1.dropWhile isSpace :: (mid ++ [l2.rdropWhile isSpace]) ∧
      l1.dropWhile isSpace ≠ [] ∧ l2.rdropWhile isSpace ≠ []) := by
  obtain ⟨pre, l, r, h1, h2, h3⟩ := splitNewline_dropWhile s
  obtain ⟨pre2, l2, post2, h4, h5, h6⟩ := splitNewline_rdropWhile (s.dropWhile isSpace)
  rw [h2] at h4
  cases pre2 with
  | nil =>
    left
    have hl : l2 = l.dropWhile isSpace := by
      have := List.cons.inj (by simpa using h4.symm : l2 :: post2 = l.dropWhile isSpace :: r)
      exact this.1
    refine ⟨pre, l, r, h1, ?_⟩
    show splitNewline ((s.dropWhile isSpace).rdropWhile isSpace) = _
    rw [h5, hl]
    rfl
  | cons p pre2 =>
    right
    have hinj := List.cons.inj (by simpa using h4 : l.dropWhile isSpace :: r = p :: (pre2 ++ l2 :: post2))
    refine ⟨pre, l, pre2, l2, post2, ?_, ?_, ?_, ?_⟩
    · rw [h1, hinj.2]
    · show splitNewline ((s.dropWhile isSpace).rdropWhile isSpace) = _
      rw [h5, ← hinj.1]
      rfl
    · intro h0
      have := h3 h0
      rw [hinj.2] at this
      exact absurd this (by simp)
    · intro h0
      exact absurd (h6 h0) (by simp)

/-! ## normalizeSegmentText -/

theorem splitLines_exists (s : QString) : ∃ h t, splitLines s = h :: t := by
  rcases s with _ | ⟨c, _ | ⟨d, rest⟩⟩
  · exact ⟨[], [], rfl⟩
  · simp only [splitLines]
    split_ifs
    · exact ⟨_, _, rfl⟩
    · exact ⟨_, _, rfl⟩
  · simp only [splitLines]
    split_ifs
    · exact ⟨_, _, rfl⟩
    · exact ⟨_, _, rfl⟩
    · split
      · exact ⟨_, _, rfl⟩
      · exact ⟨_, _, rfl⟩

theorem splitLines_no_newline (s : QString) : ∀ l ∈ splitLines s, '\n' ∉ l := by
  induction s with
  | nil => simp [splitLines]
  | cons c rest ih =>
    cases rest with
    | nil =>
      simp only [splitLines]
      split_ifs with hc
      · simp
      · intro l hl
        simp only [List.mem_singleton] at hl
        subst hl
        simpa using fun h => hc h.symm
    | cons d rest =>
      obtain ⟨h, t, ht⟩ := splitLines_exists (d :: rest)
      simp only [splitLines]
      split_ifs with hc hcd
      · intro l hl
        rcases List.mem_cons.mp hl with h1 | h1
        · subst h1; simp
        · exact ih l h1
      · intro l hl
        rcases List.mem_cons.mp hl with h1 | h1
        · subst h1; simp
        · -- the lines of `rest` are among the lines of `d :: rest`
          have hd : d = '\n' := hcd.2
          subst hd
          cases rest with
          | nil => simp [splitLines] at h1; subst h1; simp
          | cons r0 rest =>
            apply ih l
            simp only [splitLines, if_true]
            exact List.mem_cons_of_mem _ h1
      · rw [ht] at ih ⊢
        intro l hl
        rcases List.mem_cons.mp hl with h1 | h1
        · subst h1
          intro hm
          rcases List.mem_cons.mp hm with h2 | h2
          · exact hc h2.symm
          · exact ih h (by simp) h2
        · exact ih l (List.mem_cons_of_mem _ h1)

theorem not_mem_trimmed (c : Char) (l : QString) (h : c ∉ l) : c ∉ trimmed l := by
  intro hm
  apply h
  have h1 : trimmed l <+: l.dropWhile isSpace := List.rdropWhile_prefix _ _
  have h2 : l.dropWhile isSpace <:+ l := List.dropWhile_suffix _
  exact h2.subset (h1.subset hm)

theorem cleanLines_mem (lines : List QString) :
    ∀ (b : Bool), ∀ l ∈ cleanLines b lines, l ∈ lines := by
  induction lines with
  | nil => intro b l hl; simp [cleanLines] at hl
  | cons line rest ih =>
    intro b l hl
    simp only [cleanLines] at hl
    split_ifs at hl with h1 h2
    · rcases List.mem_cons.mp hl with h | h
      · subst h
        simp [List.isEmpty_iff.mp h1]
      · exact List.mem_cons_of_mem _ (ih _ l h)
    · exact List.mem_cons_of_mem _ (ih _ l hl)
    · rcases List.mem_cons.mp hl with h | h
      · subst h; simp
      · exact List.mem_cons_of_mem _ (ih _ l h)

/-- The lines kept by `cleanLines` never hold two empty lines in a row, and do not start
with an empty line when the line before them was empty. -/
theorem cleanLines_chain (lines : List QString) :
    ∀ (b : Bool), List.Chain' (fun a c : QString => ¬ (a = [] ∧ c = [])) (cleanLines b lines) ∧
      (b = true → ∀ h ∈ (cleanLines b lines).head?, h ≠ []) := by
  induction lines with
  | nil => intro b; simp [cleanLines]
  | cons line rest ih =>
    intro b
    simp only [cleanLines]
    split_ifs with h1 h2
    · have hb : b = false := by simpa using h2
      subst hb
      obtain ⟨hc, hh⟩ := ih true
      refine ⟨?_, by simp⟩
      rw [List.chain'_cons']
      refine ⟨?_, hc⟩
      intro y hy hboth
      exact hh rfl y hy hboth.2
    · have hb : b = true := by simpa using h2
      subst hb
      exact ih true
    · obtain ⟨hc, _⟩ := ih false
      have hne : line ≠ [] := fun h0 => h1 (by simp [h0])
      refine ⟨?_, fun _ h hh => by simp at hh; subst hh; exact hne⟩
      rw [List.chain'_cons']
      exact ⟨fun y _ hboth => hne hboth.1, hc⟩

theorem cleanLines_ne_nil (line : QString) (rest : List QString) :
    cleanLines false (line :: rest) ≠ [] := by
  simp only [cleanLines]
  by_cases h : line.isEmpty = true
  · simp [h]
  · simp [h]

/-- Lines without two empty ones in a row pass `cleanLines` unchanged. -/
theorem cleanLines_fixed (lines : List QString) :
    ∀ (b : Bool), List.Chain' (fun a c : QString => ¬ (a = [] ∧ c = [])) lines →
      (b = true → ∀ h ∈ lines.head?, h ≠ []) → cleanLines b lines = lines := by
  induction lines with
  | nil => intro b _ _; rfl
  | cons line rest ih =>
    intro b hc hb
    rw [List.chain'_cons'] at hc
    simp only [cleanLines]
    by_cases h1 : line.isEmpty = true
    · have h0 : line = [] := List.isEmpty_iff.mp h1
      have hbf : b = false := by
        cases b with
        | false => rfl
        | true => exact absurd h0 (hb rfl line (by simp))
      subst hbf
      rw [if_pos h1, if_pos (by simp), ih true hc.2 (fun _ y hy hy0 => hc.1 y hy ⟨h0, hy0⟩), h0]
    · rw [if_neg h1, ih false hc.2 (fun hf => Bool.noConfusion hf)]

/-- Among trimmed lines, no two empty lines in a row means no two blank lines in a row. -/
theorem chain_blank_of_chain_empty (lines : List QString) (ht : ∀ l ∈ lines, trimmed l = l)
    (h : List.Chain' (fun a c : QString => ¬ (a = [] ∧ c = [])) lines) :
    List.Chain' (fun a c : QString => ¬ (allSpace a ∧ allSpace c)) lines := by
  induction lines with
  | nil => simp
  | cons a rest ih =>
    rw [List.chain'_cons'] at h ⊢
    refine ⟨?_, ih (fun l hl => ht l (List.mem_cons_of_mem _ hl)) h.2⟩
    intro y hy hboth
    have hyr : y ∈ rest := List.mem_of_mem_head? hy
    have ha : a = [] := by
      rw [← ht a (by simp)]; exact (trimmed_eq_nil_iff a).mpr hboth.1
    have hy0 : y = [] := by
      rw [← ht y (List.mem_cons_of_mem _ hyr)]; exact (trimmed_eq_nil_iff y).mpr hboth.2
    exact h.1 y hy ⟨ha, hy0⟩

theorem chain_empty_of_chain_blank (lines : List QString)
    (h : List.Chain' (fun a c : QString => ¬ (allSpace a ∧ allSpace c)) lines) :
    List.Chain' (fun a c : QString => ¬ (a = [] ∧ c = [])) lines := by
  refine List.Chain'.imp ?_ h
  intro a c hac hboth
  apply hac
  rw [hboth.1, hboth.2]
  exact ⟨fun c hc => absurd hc (List.not_mem_nil c), fun c hc => absurd hc (List.not_mem_nil c)⟩

/-- The text left by `normalizeSegmentText` has no whitespace at either end, nor has any
of its lines, and no two of its lines in a row are blank. -/
theorem normalizeSegmentText_normal (t : QString) :
    trimmed (normalizeSegmentText t) = normalizeSegmentText t ∧
      linesTrimmed (normalizeSegmentText t) ∧ noTwoBlankLines (normalizeSegmentText t) := by
  unfold normalizeSegmentText
  simp only []
  refine ⟨trimmed_idem _, ?_⟩
  obtain ⟨h0, t0, hsl⟩ := splitLines_exists t
  have hX : ∀ l ∈ (splitLines t).map trimmed, trimmed l = l ∧ '\n' ∉ l := by
    intro l hl
    obtain ⟨l0, hl0, rfl⟩ := List.mem_map.mp hl
    exact ⟨trimmed_idem l0, not_mem_trimmed _ _ (splitLines_no_newline t l0 hl0)⟩
  have hL : ∀ l ∈ cleanLines false ((splitLines t).map trimmed), trimmed l = l ∧ '\n' ∉ l :=
    fun l hl => hX l (cleanLines_mem _ false l hl)
  have hne : cleanLines false ((splitLines t).map trimmed) ≠ [] := by
    rw [hsl]; exact cleanLines_ne_nil _ _
  have hch := (cleanLines_chain ((splitLines t).map trimmed) false).1
  generalize cleanLines false ((splitLines t).map trimmed) = L at hL hne hch
  have hlines : splitNewline (joinNewline L) = L :=
    splitNewline_joinNewline L hne (fun l hl => (hL l hl).2)
  have hchb := chain_blank_of_chain_empty L (fun l hl => (hL l hl).1) hch
  rcases splitNewline_trimmed (joinNewline L) with
    ⟨pre, l, post, h1, h2⟩ | ⟨pre, l1, mid, l2, post, h1, h2, _, _⟩
  · rw [hlines] at h1
    have hl : l ∈ L := by rw [h1]; simp
    unfold linesTrimmed noTwoBlankLines
    rw [h2]
    exact ⟨fun x hx => by simp only [List.mem_singleton] at hx; subst hx; exact trimmed_idem l,
      by simp⟩
  · rw [hlines] at h1
    have hl1 : l1 ∈ L := by rw [h1]; simp
    have hl2 : l2 ∈ L := by rw [h1]; simp
    rw [dropWhile_of_trimmed l1 (hL l1 hl1).1, rdropWhile_of_trimmed l2 (hL l2 hl2).1] at h2
    have hinf : (l1 :: (mid ++ [l2])) <:+: L := by
      refine ⟨pre, post, ?_⟩
      rw [h1]; simp
    unfold linesTrimmed noTwoBlankLines
    rw [h2]
    exact ⟨fun x hx => (hL x (hinf.subset hx)).1, List.Chain'.infix hchb hinf⟩

/-- A text without a carriage return at the end of a line is cut by `splitLines` as by
`splitNewline`. -/
theorem splitLines_eq_splitNewline (s : QString)
    (h : ∀ l ∈ splitNewline s, l.getLast? ≠ some '\r') : splitLines s = splitNewline s := by
  induction s with
  | nil => rfl
  | cons c rest ih =>
    cases rest with
    | nil =>
      simp only [splitLines, splitNewline]
    | cons d rest =>
      obtain ⟨h1, t1, ht⟩ := splitNewline_exists (d :: rest)
      by_cases hc : c = '\n'
      · subst hc
        rw [splitNewline_newline_cons] at h ⊢
        simp only [splitLines, if_true]
        rw [ih (fun l hl => h l (List.mem_cons_of_mem _ hl))]
      · rw [splitNewline_char_cons c _ h1 t1 hc ht] at h ⊢
        have hih : splitLines (d :: rest) = h1 :: t1 := by
          rw [← ht]
          apply ih
          rw [ht]
          intro l hl
          rcases List.mem_cons.mp hl with h2 | h2
          · subst h2
            have h3 := h (c :: l) (by simp)
            cases l with
            | nil => simp
            | cons x l => simpa [List.getLast?_cons_cons] using h3
          · exact h l (List.mem_cons_of_mem _ h2)
        simp only [splitLines, if_neg hc]
        by_cases hcd : c = '\r' ∧ d = '\n'
        · exfalso
          obtain ⟨hc1, hd1⟩ := hcd
          subst hc1 hd1
          rw [splitNewline_newline_cons] at ht
          have := (List.cons.inj ht).1
          subst this
          exact h ['\r'] (by simp) rfl
        · rw [if_neg hcd, hih]

/-- A text in the form left by `normalizeSegmentText` is left as it is. -/
theorem normalizeSegmentText_fixed (o : QString) (h1 : trimmed o = o) (h2 : linesTrimmed o)
    (h3 : noTwoBlankLines o) : normalizeSegmentText o = o := by
  unfold normalizeSegmentText
  simp only []
  have hsl : splitLines o = splitNewline o := by
    apply splitLines_eq_splitNewline
    intro l hl hlast
    have htl := h2 l hl
    have hne : l ≠ [] := by intro h0; rw [h0] at hlast; simp at hlast
    obtain ⟨init, y, hy, hys⟩ := trimmed_last l (by rw [htl]; exact hne)
    rw [htl] at hy
    have hly : l.getLast? = some y := by rw [hy]; simp
    rw [hly] at hlast
    have hyr : y = '\r' := Option.some.inj hlast
    rw [hyr] at hys
    exact absurd hys (by decide)
  have hmap : (splitNewline o).map trimmed = splitNewline o := by
    conv_rhs => rw [← List.map_id (splitNewline o)]
    exact List.map_congr_left h2
  rw [hsl, hmap, cleanLines_fixed _ false (chain_empty_of_chain_blank _ h3)
    (fun hf => Bool.noConfusion hf), joinNewline_splitNewline, h1]

/-! ## Claims on normalizeWhitespaceAll -/

/-- The segments after `normalizeWhitespaceAll`: every text replaced by its normalised
form. -/
theorem normalizeWhitespaceAll_segments (e : TranscriptEditor) (now : Nat) :
    (e.normalizeWhitespaceAll now).editedTranscript.segments =
      e.editedTranscript.segments.map
        (fun seg => { seg with text := normalizeSegmentText seg.text }) := by
  unfold normalizeWhitespaceAll
  split_ifs with h
  · rw [List.isEmpty_iff.mp h]; rfl
  · rfl

/-- On a transcript with a segment, `normalizeWhitespaceAll` pushes the state before the
call on the undo stack. -/
theorem normalizeWhitespaceAll_pushes (e : TranscriptEditor) (now : Nat)
    (hne : e.editedTranscript.segments ≠ []) :
    (e.normalizeWhitespaceAll now).undoStack = e.undoStack ++ [e.current] := by
  unfold normalizeWhitespaceAll
  rw [if_neg (by simpa using hne)]
  rfl

/-- C23: after `normalizeWhitespaceAll` on a transcript with at least one segment, every
segment text has no whitespace at its start or end, every line of it (cut at the line
feeds) has none either, and no two of its lines in a row are blank; exactly one snapshot,
of the state before the call, is pushed on the undo stack. On a transcript with no
segments the call changes nothing and pushes no snapshot. -/
theorem normalizeWhitespaceAll_normalises (e : TranscriptEditor) (now : Nat) :
    (e.editedTranscript.segments ≠ [] →
      (∀ s ∈ (e.normalizeWhitespaceAll now).editedTranscript.segments,
        trimmed s.text = s.text ∧ linesTrimmed s.text ∧ noTwoBlankLines s.text) ∧
      (e.normalizeWhitespaceAll now).undoStack = e.undoStack ++ [e.current]) ∧
    (e.editedTranscript.segments = [] → e.normalizeWhitespaceAll now = e) := by
  constructor
  · intro hne
    constructor
    · intro s hs
      rw [normalizeWhitespaceAll_segments] at hs
      obtain ⟨s0, _, rfl⟩ := List.mem_map.mp hs
      exact normalizeSegmentText_normal s0.text
    · exact normalizeWhitespaceAll_pushes e now hne
  · intro h0
    unfold normalizeWhitespaceAll
    rw [if_pos (by simp [h0])]

theorem normalizeWhitespaceAll_normalises_witness :
    ((∀ s ∈ (sampleEditor.normalizeWhitespaceAll 9).editedTranscript.segments,
          trimmed s.text = s.text ∧ linesTrimmed s.text ∧ noTwoBlankLines s.text) ∧
        (sampleEditor.normalizeWhitespaceAll 9).undoStack =
          sampleEditor.undoStack ++ [sampleEditor.current]) ∧
      emptyEditor.normalizeWhitespaceAll 9 = emptyEditor :=
  ⟨(normalizeWhitespaceAll_normalises sampleEditor 9).1 (by decide),
    (normalizeWhitespaceAll_normalises emptyEditor 9).2 (by decide)⟩

/-- C30, on the transcript with no segments: neither the first nor the second call of
`normalizeWhitespaceAll` pushes a snapshot. -/
theorem normalizeWhitespaceAll_twice_on_empty_pushes_nothing :
    ((emptyEditor.normalizeWhitespaceAll 1).normalizeWhitespaceAll 2).undoStack =
        (emptyEditor.normalizeWhitespaceAll 1).undoStack ∧
      ((emptyEditor.normalizeWhitespaceAll 1).normalizeWhitespaceAll 2).undoStack = [] := by
  decide

/-- C30, amended: `normalizeWhitespaceAll` is idempotent on the document: the segments
after calling it twice are the segments after calling it once; and when the transcript
has at least one segment the second call still pushes a snapshot on the undo stack. -/
theorem normalizeWhitespaceAll_idempotent (e : TranscriptEditor) (now1 now2 : Nat) :
    ((e.normalizeWhitespaceAll now1).normalizeWhitespaceAll now2).editedTranscript.segments =
        (e.normalizeWhitespaceAll now1).editedTranscript.segments ∧
      (e.editedTranscript.segments ≠ [] →
        ((e.normalizeWhitespaceAll now1).normalizeWhitespaceAll now2).undoStack =
          (e.normalizeWhitespaceAll now1).undoStack ++ [(e.normalizeWhitespaceAll now1).current]) := by
  constructor
  · rw [normalizeWhitespaceAll_segments (e.normalizeWhitespaceAll now1) now2]
    conv_rhs => rw [← List.map_id (e.normalizeWhitespaceAll now1).editedTranscript.segments]
    apply List.map_congr_left
    intro s hs
    rw [normalizeWhitespaceAll_segments] at hs
    obtain ⟨s0, _, rfl⟩ := List.mem_map.mp hs
    obtain ⟨h1, h2, h3⟩ := normalizeSegmentText_normal s0.text
    simp only [id]
    rw [normalizeSegmentText_fixed _ h1 h2 h3]
  · intro hne
    have hne1 : (e.normalizeWhitespaceAll now1).editedTranscript.segments ≠ [] := by
      rw [normalizeWhitespaceAll_segments]
      simpa using hne
    exact normalizeWhitespaceAll_pushes (e.normalizeWhitespaceAll now1) now2 hne1

theorem normalizeWhitespaceAll_idempotent_witness :
    ((sampleEditor.normalizeWhitespaceAll 4).normalizeWhitespaceAll 5).undoStack =
      (sampleEditor.normalizeWhitespaceAll 4).undoStack ++
        [(sampleEditor.normalizeWhitespaceAll 4).current] :=
  (normalizeWhitespaceAll_idempotent sampleEditor 4 5).2 (by decide)

/-! ## Search -/

/-- With no speaker filter and a pattern that is not empty, the loop of
`findBySpeakersAndText` is the loop of `findSegmentsContaining`. -/
theorem findBySpeakersAndTextLoop_no_speakers (pattern : QString) (cs : CaseSensitivity)
    (segs : List Segment) :
    ∀ i : Nat, TranscriptSearch.findBySpeakersAndTextLoop [] pattern cs false true segs i =
      TranscriptSearch.findSegmentsContainingLoop pattern cs segs i := by
  induction segs with
  | nil => intro i; rfl
  | cons seg rest ih =>
    intro i
    simp only [TranscriptSearch.findBySpeakersAndTextLoop,
      TranscriptSearch.findSegmentsContainingLoop, Bool.false_and, Bool.true_and, ih]
    cases contains seg.text pattern cs <;> simp

/-- With an empty `speakerIDs` list and a pattern that is not empty,
`findBySpeakersAndText` returns what `findSegmentsContaining` returns. -/
theorem findBySpeakersAndText_no_speakers (t : Transcript) (pattern : QString)
    (cs : CaseSensitivity) (hp : pattern ≠ []) :
    TranscriptSearch.findBySpeakersAndText t [] pattern cs =
      TranscriptSearch.findSegmentsContaining t pattern cs := by
  cases pattern with
  | nil => exact absurd rfl hp
  | cons c p =>
    simp only [TranscriptSearch.findBySpeakersAndText, TranscriptSearch.findSegmentsContaining,
      List.isEmpty_nil, List.isEmpty_cons, Bool.not_true, Bool.not_false]
    exact findBySpeakersAndTextLoop_no_speakers (c :: p) cs t.segments 0

/-- C24, at the empty pattern: with no speakers and no pattern `findBySpeakersAndText`
returns every index, for either case mode, while `findSegmentsContaining` returns none. -/
theorem findBySpeakersAndText_empty_pattern_returns_all :
    TranscriptSearch.findBySpeakersAndText sampleStart.editedTranscript [] [] .CaseSensitive =
        [0, 1] ∧
      TranscriptSearch.findBySpeakersAndText sampleStart.editedTranscript [] []
        .CaseInsensitive = [0, 1] ∧
      TranscriptSearch.findSegmentsContaining sampleStart.editedTranscript [] .CaseSensitive =
        [] ∧
      TranscriptSearch.findSegmentsContaining sampleStart.editedTranscript []
        .CaseInsensitive = [] := by
  decide

/-! ## Segment::startsWithLabel -/

/-- No occurrence of a character that is not in the string. -/
theorem indexOfAux_char_none (c : Char) (s : QString) (h : c ∉ s) :
    ∀ i : Nat, indexOfAux .CaseSensitive [c] s i = none := by
  induction s with
  | nil => intro i; simp [indexOfAux]
  | cons d rest ih =>
    intro i
    have hd : d ≠ c := fun heq => h (by simp [heq])
    have hr : c ∉ rest := fun hm => h (List.mem_cons_of_mem _ hm)
    simp only [indexOfAux]
    rw [if_neg, ih hr]
    rw [matchesAt_caseSensitive]
    simp [hd]

/-- A text without a space is never taken to start with a label. -/
theorem startsWithLabel_false_of_no_space (s : Segment) (h : ' ' ∉ s.text) :
    s.startsWithLabel = false := by
  unfold Segment.startsWithLabel indexOfInt
  have h1 : indexOf s.text [' '] 0 .CaseSensitive = none := by
    unfold indexOf
    rw [if_neg (by omega)]
    exact indexOfAux_char_none ' ' _ (by simpa using h) 0
  rw [h1]
  cases indexOf s.text [':'] 0 .CaseSensitive with
  | none => simp
  | some i =>
    simp only [Bool.and_eq_false_imp, decide_eq_false_iff_not]
    intro _
    omega

/-- C28, at the text `Stephen:` named by the header and at a label followed by text
without a space: `startsWithLabel` returns false. -/
theorem startsWithLabel_rejects_label_without_space :
    Segment.startsWithLabel ⟨"Stephen".toList, "Stephen:".toList⟩ = false ∧
      Segment.startsWithLabel ⟨"Stephen".toList, "Stephen:hello".toList⟩ = false ∧
      Segment.startsWithLabel ⟨"Stephen".toList, "Stephen: hello".toList⟩ = true := by
  decide

/-! ## Evaluations of the parser -/

/-- C26, where the label of `Ann` lies inside the label of `Joann`: the text after the
labels is returned twice, once for each speaker. -/
theorem splitInlineLabels_overlapping_labels_repeat_text :
    splitInlineLabels "x Joann: hi".toList ["Ann".toList, "Joann".toList] "Bob".toList =
      [("Bob".toList, "x".toList), ("Joann".toList, "hi".toList),
        ("Ann".toList, "hi".toList)] := by
  decide

/-- C25, at two lines of speaker `A` of which the second holds the label of `B` only: the
parser keeps `B:` as text of `A`, the exporter writes it at the start of a line, and the
second parse reads that line as a label. -/
theorem parse_export_parse_loses_label_line :
    (parse "A: x\nA: B:".toList {} ["A".toList, "B".toList]).1 = true ∧
      (parse "A: x\nA: B:".toList {} ["A".toList, "B".toList]).2.segments =
        [⟨"A".toList, "x\nB:".toList⟩] ∧
      TranscriptExporter.buildTranscriptText
          (parse "A: x\nA: B:".toList {} ["A".toList, "B".toList]).2 = "A: x\nB:\n".toList ∧
      (parse "A: x\nB:\n".toList {} ["A".toList, "B".toList]).1 = true ∧
      (parse "A: x\nB:\n".toList {} ["A".toList, "B".toList]).2.segments =
        [⟨"A".toList, "x".toList⟩] := by
  decide

/-! ## Collapsing runs of line feeds -/

theorem splitNewline_replicate_append (k : Nat) (x : QString) :
    splitNewline (List.replicate k '\n' ++ x) = List.replicate k [] ++ splitNewline x := by
  induction k with
  | zero => rfl
  | succ k ih =>
    rw [List.replicate_succ, List.cons_append, splitNewline_newline_cons, ih]
    rfl

/-- The lines after collapsing are empty or lines of the text; with no line feed pending
the first line is kept, and with one pending the first line is empty. -/
theorem collapseNewlinesAux_lines (s : QString) :
    ∀ run : Nat, ∃ h t h1 t1, splitNewline s = h :: t ∧
      splitNewline (collapseNewlinesAux run s) = h1 :: t1 ∧
      (∀ l ∈ h1 :: t1, l = [] ∨ l ∈ h :: t) ∧ (0 < run → h1 = []) ∧
      (run = 0 → h1 = h ∧ ∀ l ∈ t1, l = [] ∨ l ∈ t) := by
  induction s with
  | nil =>
    intro run
    have hk : min run 2 = 0 ∨ min run 2 = 1 ∨ min run 2 = 2 := by omega
    simp only [collapseNewlinesAux]
    rcases hk with hk | hk | hk
    · rw [hk]
      exact ⟨[], [], [], [], rfl, rfl, by simp, fun _ => rfl, fun _ => ⟨rfl, by simp⟩⟩
    · rw [hk]
      exact ⟨[], [], [], [[]], rfl, rfl, by simp, fun _ => rfl, fun h0 => by omega⟩
    · rw [hk]
      exact ⟨[], [], [], [[], []], rfl, rfl, by simp, fun _ => rfl, fun h0 => by omega⟩
  | cons c rest ih =>
    intro run
    by_cases hc : c = '\n'
    · subst hc
      obtain ⟨h, t, h1, t1, e1, e2, m, hpos, _⟩ := ih (run + 1)
      have hh1 : h1 = [] := hpos (by omega)
      refine ⟨[], h :: t, h1, t1, by rw [splitNewline_newline_cons, e1], ?_, ?_, fun _ => hh1,
        fun _ => ⟨hh1, ?_⟩⟩
      · simp only [collapseNewlinesAux, if_true]
        exact e2
      · intro l hl
        rcases m l hl with h0 | h0
        · exact Or.inl h0
        · exact Or.inr (List.mem_cons_of_mem _ h0)
      · intro l hl
        exact m l (List.mem_cons_of_mem _ hl)
    · obtain ⟨h, t, h1, t1, e1, e2, _, _, hzero⟩ := ih 0
      obtain ⟨hh, ht⟩ := hzero rfl
      subst hh
      have elines : splitNewline (c :: collapseNewlinesAux 0 rest) = (c :: h1) :: t1 :=
        splitNewline_char_cons c _ h1 t1 hc e2
      have hk : min run 2 = 0 ∨ min run 2 = 1 ∨ min run 2 = 2 := by omega
      have hmem : ∀ l ∈ (c :: h1) :: t1, l = [] ∨ l ∈ (c :: h1) :: t := by
        intro l hl
        rcases List.mem_cons.mp hl with h0 | h0
        · exact Or.inr (by simp [h0])
        · rcases ht l h0 with h2 | h2
          · exact Or.inl h2
          · exact Or.inr (List.mem_cons_of_mem _ h2)
      simp only [collapseNewlinesAux, if_neg hc]
      rw [splitNewline_replicate_append, elines]
      rcases hk with hk | hk | hk
      · rw [hk]
        refine ⟨c :: h1, t, c :: h1, t1, splitNewline_char_cons c rest h1 t hc e1, rfl, hmem,
          fun h0 => by omega, fun _ => ⟨rfl, ht⟩⟩
      · rw [hk]
        refine ⟨c :: h1, t, [], (c :: h1) :: t1, splitNewline_char_cons c rest h1 t hc e1, rfl,
          ?_, fun _ => rfl, fun h0 => by omega⟩
        intro l hl
        rcases List.mem_cons.mp hl with h0 | h0
        · exact Or.inl h0
        · exact hmem l h0
      · rw [hk]
        refine ⟨c :: h1, t, [], [] :: (c :: h1) :: t1,
          splitNewline_char_cons c rest h1 t hc e1, rfl, ?_, fun _ => rfl, fun h0 => by omega⟩
        intro l hl
        rcases List.mem_cons.mp hl with h0 | h0
        · exact Or.inl h0
        · rcases List.mem_cons.mp h0 with h2 | h2
          · exact Or.inl h2
          · exact hmem l h2

/-- After collapsing a text that does not end in a line feed, no two lines in a row
after the first are empty. -/
theorem collapseNewlinesAux_chain (s : QString) :
    ∀ run : Nat, (∃ body y, s = body ++ [y] ∧ y ≠ '\n') →
      List.Chain' (fun a c : QString => ¬ (a = [] ∧ c = []))
        (splitNewline (collapseNewlinesAux run s)).tail := by
  induction s with
  | nil =>
    rintro run ⟨body, y, h, _⟩
    exact absurd h (by simp)
  | cons c rest ih =>
    rintro run ⟨body, y, h, hy⟩
    have hrest : rest = [] ∨ ∃ body1, rest = body1 ++ [y] := by
      cases body with
      | nil => left; simpa using (List.cons.inj h).2
      | cons b body => right; exact ⟨body, (List.cons.inj h).2⟩
    by_cases hc : c = '\n'
    · subst hc
      simp only [collapseNewlinesAux, if_true]
      rcases hrest with h0 | ⟨body1, h0⟩
      · subst h0
        cases body with
        | nil => exact absurd (List.cons.inj h).1 (fun h1 => hy h1.symm)
        | cons b body => exact absurd (List.cons.inj h).2 (by simp)
      · exact ih (run + 1) ⟨body1, y, h0, hy⟩
    · obtain ⟨h1, t1, e2⟩ := splitNewline_exists (collapseNewlinesAux 0 rest)
      have hch : List.Chain' (fun a c : QString => ¬ (a = [] ∧ c = [])) t1 := by
        rcases hrest with h0 | ⟨body1, h0⟩
        · subst h0
          simp only [collapseNewlinesAux] at e2
          have : t1 = [] := by
            have := (List.cons.inj (by simpa [splitNewline] using e2 : ([] : QString) :: [] = h1 :: t1)).2
            exact this.symm
          rw [this]; simp
        · have := ih 0 ⟨body1, y, h0, hy⟩
          rw [e2] at this
          exact this
      have hch2 : List.Chain' (fun a c : QString => ¬ (a = [] ∧ c = [])) ((c :: h1) :: t1) := by
        rw [List.chain'_cons']
        exact ⟨fun y _ hboth => absurd hboth.1 (by simp), hch⟩
      have hk : min run 2 = 0 ∨ min run 2 = 1 ∨ min run 2 = 2 := by omega
      simp only [collapseNewlinesAux, if_neg hc]
      rw [splitNewline_replicate_append, splitNewline_char_cons c _ h1 t1 hc e2]
      rcases hk with hk | hk | hk
      · rw [hk]; exact hch
      · rw [hk]; exact hch2
      · rw [hk]
        show List.Chain' _ ([] :: (c :: h1) :: t1)
        rw [List.chain'_cons']
        exact ⟨fun y hy hboth => by simp at hy; subst hy; exact absurd hboth.2 (by simp), hch2⟩

/-- Collapsing keeps a last character that is no line feed. -/
theorem collapseNewlinesAux_concat (s : QString) (y : Char) (hy : y ≠ '\n') :
    ∀ run : Nat, ∃ p, collapseNewlinesAux run (s ++ [y]) = p ++ [y] := by
  induction s with
  | nil =>
    intro run
    exact ⟨List.replicate (min run 2) '\n', by simp [collapseNewlinesAux, hy]⟩
  | cons c rest ih =>
    intro run
    by_cases hc : c = '\n'
    · subst hc
      simp only [List.cons_append, collapseNewlinesAux, if_true]
      exact ih (run + 1)
    · obtain ⟨p, hp⟩ := ih 0
      refine ⟨List.replicate (min run 2) '\n' ++ c :: p, ?_⟩
      simp only [List.cons_append, collapseNewlinesAux, if_neg hc, hp]
      simp [hp]

/-! ## Joined lines -/

theorem hasTripleNewline_of_no_newline (a : QString) (h : '\n' ∉ a) :
    hasTripleNewline a = false := by
  have := hasTripleNewline_append_of_no_newline a [] h
  simpa [hasTripleNewline] using this

/-- Lines without two empty ones in a row, joined, hold no run of three line feeds, also
with one line feed put before them, and with two when the first line is not empty. -/
theorem hasTripleNewline_joinNewline_aux (lines : List QString)
    (hn : ∀ l ∈ lines, '\n' ∉ l)
    (hc : List.Chain' (fun a c : QString => ¬ (a = [] ∧ c = [])) lines) :
    hasTripleNewline ('\n' :: joinNewline lines) = false ∧
      ((∀ h ∈ lines.head?, h ≠ []) →
        hasTripleNewline ('\n' :: '\n' :: joinNewline lines) = false) := by
  induction lines with
  | nil => exact ⟨rfl, fun _ => rfl⟩
  | cons a rest ih =>
    have hna : '\n' ∉ a := hn a (by simp)
    rw [List.chain'_cons'] at hc
    obtain ⟨ih1, ih2⟩ := ih (fun l hl => hn l (List.mem_cons_of_mem _ hl)) hc.2
    cases rest with
    | nil =>
      rw [joinNewline_singleton]
      cases a with
      | nil => exact ⟨rfl, fun h => absurd rfl (h [] (by simp))⟩
      | cons x a =>
        have hx : x ≠ '\n' := fun heq => hna (by simp [heq])
        have h0 := hasTripleNewline_of_no_newline (x :: a) hna
        exact ⟨by rw [hasTripleNewline_cons_cons_of_ne _ x _ hx, h0],
          fun _ => by
            rw [hasTripleNewline_cons_cons_cons_of_ne _ _ x _ hx,
              hasTripleNewline_cons_cons_of_ne _ x _ hx, h0]⟩
    | cons b rest =>
      rw [joinNewline_cons_cons]
      cases a with
      | nil =>
        have hb : b ≠ [] := fun hb0 => hc.1 b (by simp) ⟨rfl, hb0⟩
        have h2 := ih2 (fun h hh => by simp at hh; subst hh; exact hb)
        exact ⟨h2, fun h => absurd rfl (h [] (by simp))⟩
      | cons x a =>
        have hx : x ≠ '\n' := fun heq => hna (by simp [heq])
        have h0 : hasTripleNewline ((x :: a) ++ '\n' :: joinNewline (b :: rest)) = false := by
          rw [hasTripleNewline_append_of_no_newline _ _ hna]; exact ih1
        exact ⟨by rw [List.cons_append] at h0 ⊢; rw [hasTripleNewline_cons_cons_of_ne _ x _ hx, h0],
          fun _ => by
            rw [List.cons_append] at h0 ⊢
            rw [hasTripleNewline_cons_cons_cons_of_ne _ _ x _ hx,
              hasTripleNewline_cons_cons_of_ne _ x _ hx, h0]⟩

/-- Lines without line feeds and without two empty ones in a row, joined, hold no run of
three line feeds. -/
theorem hasTripleNewline_joinNewline (lines : List QString)
    (hn : ∀ l ∈ lines, '\n' ∉ l)
    (hc : List.Chain' (fun a c : QString => ¬ (a = [] ∧ c = [])) lines) :
    hasTripleNewline (joinNewline lines) = false :=
  hasTripleNewline_cons_false '\n' _ (hasTripleNewline_joinNewline_aux lines hn hc).1

theorem joinNewline_concat (lines : List QString) (b : QString) :
    ∃ p, joinNewline (lines ++ [b]) = p ++ b := by
  induction lines with
  | nil => exact ⟨[], by simp [joinNewline_singleton]⟩
  | cons a rest ih =>
    obtain ⟨p, hp⟩ := ih
    cases rest with
    | nil =>
      exact ⟨a ++ ['\n'], by simp [joinNewline_cons_cons, joinNewline_singleton]⟩
    | cons c rest =>
      refine ⟨a ++ '\n' :: p, ?_⟩
      rw [List.cons_append, List.cons_append, joinNewline_cons_cons, ← List.cons_append, hp]
      simp

/-- Trimmed lines of which the first and the last are not empty, joined, make a trimmed
text. -/
theorem trimmed_joinNewline_self (lines : List QString) (ht : ∀ l ∈ lines, trimmed l = l)
    (hh : ∀ h ∈ lines.head?, h ≠ []) (hl : ∀ h ∈ lines.getLast?, h ≠ []) :
    trimmed (joinNewline lines) = joinNewline lines := by
  rcases List.eq_nil_or_concat lines with h0 | ⟨front, last, h0⟩
  · rw [h0]; rfl
  · rw [List.concat_eq_append] at h0
    obtain ⟨first, more, h1⟩ : ∃ first more, lines = first :: more := by
      cases lines with
      | nil => exact absurd h0 (by simp)
      | cons a r => exact ⟨a, r, rfl⟩
    have hfirst : first ≠ [] := hh first (by rw [h1]; rfl)
    have hlast : last ≠ [] := hl last (by rw [h0]; simp)
    have htf : trimmed first = first := ht first (by rw [h1]; simp)
    have htl : trimmed last = last := ht last (by rw [h0]; simp)
    obtain ⟨x, r, hx, hxs⟩ := trimmed_head first (by rw [htf]; exact hfirst)
    obtain ⟨i, y, hy, hys⟩ := trimmed_last last (by rw [htl]; exact hlast)
    rw [htf] at hx
    rw [htl] at hy
    obtain ⟨m1, hm1⟩ := joinNewline_cons first more
    obtain ⟨p, hp⟩ := joinNewline_concat front last
    refine trimmed_eq_self_of_ends _ x y (r ++ m1) (p ++ i) ?_ hxs ?_ hys
    · rw [h1, hm1, hx]; rfl
    · rw [h0, hp, hy]; simp

/-! ## normalizeText on the buffer of the parser -/

theorem eq_nil_of_open_of_trimmed (l : QString)
    (hq : l = [] ∨ ∃ c ∈ l, isSpace c = false) (h : trimmed l = []) : l = [] := by
  rcases hq with h0 | h0
  · exact h0
  · exact absurd h ((trimmed_ne_nil_iff l).mpr h0)

/-- Trimming lines that are empty or hold a non-blank makes no new empty line. -/
theorem chain_map_trimmed (lines : List QString)
    (hq : ∀ l ∈ lines, l = [] ∨ ∃ c ∈ l, isSpace c = false)
    (h : List.Chain' (fun a c : QString => ¬ (a = [] ∧ c = [])) lines) :
    List.Chain' (fun a c : QString => ¬ (a = [] ∧ c = [])) (lines.map trimmed) := by
  induction lines with
  | nil => simp
  | cons a rest ih =>
    cases rest with
    | nil => simp
    | cons b rest =>
      rw [List.chain'_cons] at h
      rw [List.map_cons, List.map_cons, List.chain'_cons]
      refine ⟨?_, ih (fun l hl => hq l (List.mem_cons_of_mem _ hl)) h.2⟩
      intro hboth
      exact h.1 ⟨eq_nil_of_open_of_trimmed a (hq a (by simp)) hboth.1,
        eq_nil_of_open_of_trimmed b (hq b (by simp)) hboth.2⟩

theorem mem_tail_append_cons {α : Type} (pre : List α) (a : α) (r : List α) (x : α)
    (hx : x ∈ r) : x ∈ (pre ++ a :: r).tail := by
  cases pre with
  | nil => exact hx
  | cons p pre => simp [hx]

/-- The lines of a trimmed text are empty or hold a non-blank when the lines of the text
after the first do. -/
theorem lines_open_of_trimmed (text : QString) (hopen : laterLinesOpen text) :
    ∀ l ∈ splitNewline (trimmed text), l = [] ∨ ∃ c ∈ l, isSpace c = false := by
  rcases splitNewline_trimmed text with
    ⟨pre, l, post, h1, h2⟩ | ⟨pre, l1, mid, l2, post, h1, h2, h3, h4⟩
  · rw [h2]
    intro l0 hl0
    simp only [List.mem_singleton] at hl0
    subst hl0
    by_cases h0 : trimmed l = []
    · exact Or.inl h0
    · obtain ⟨x0, r0, hx0, hxs0⟩ := trimmed_head l h0
      exact Or.inr ⟨x0, by rw [hx0]; simp, hxs0⟩
  · rw [h2]
    intro l0 hl0
    rcases List.mem_cons.mp hl0 with h5 | h5
    · subst h5
      exact Or.inr ⟨(l1.dropWhile isSpace).head h3, List.head_mem h3,
        by simpa using List.head_dropWhile_not isSpace l1 h3⟩
    · rcases List.mem_append.mp h5 with h6 | h6
      · apply hopen
        rw [h1]
        exact mem_tail_append_cons pre l1 _ l0 (by simp [h6])
      · simp only [List.mem_singleton] at h6
        subst h6
        exact Or.inr ⟨(l2.rdropWhile isSpace).getLast h4, List.getLast_mem h4,
          by simpa using List.rdropWhile_last_not (p := isSpace) (l := l2) h4⟩

/-- A tidy text is in normal form. -/
theorem normalForm_of_tidyText (t : QString) (h : tidyText t) : normalForm t := by
  obtain ⟨h1, h2, h3⟩ := h
  refine ⟨h1, h2, ?_⟩
  rw [← joinNewline_splitNewline t]
  exact hasTripleNewline_joinNewline _ (splitNewline_no_newline t)
    (chain_empty_of_chain_blank _ h3)

/-- What `normalizeText` makes of a buffer whose lines after the first are empty or hold
a non-blank is tidy. -/
theorem normalizeText_tidy (text : QString) (hopen : laterLinesOpen text)
    (hne : normalizeText text ≠ []) : tidyText (normalizeText text) := by
  unfold normalizeText at hne ⊢
  simp only [] at hne ⊢
  by_cases ht : (trimmed text).isEmpty = true
  · rw [if_pos ht] at hne
    exact absurd (List.isEmpty_iff.mp ht) hne
  · rw [if_neg ht]
    have hne0 : trimmed text ≠ [] := fun h0 => ht (List.isEmpty_iff.mpr h0)
    obtain ⟨x, rest, hx, hxs⟩ := trimmed_head text hne0
    obtain ⟨init, y, hy, hys⟩ := trimmed_last text hne0
    have hQ := lines_open_of_trimmed text hopen
    obtain ⟨h, tt, h1, t1, e1, e2, hm, _, hz⟩ := collapseNewlinesAux_lines (trimmed text) 0
    obtain ⟨hh, _⟩ := hz rfl
    subst hh
    have hch := collapseNewlinesAux_chain (trimmed text) 0 ⟨init, y, hy, isSpace_ne_newline y hys⟩
    rw [e2] at hch
    have hxh : x ∈ h1 := by
      obtain ⟨l, ls, hl⟩ := splitNewline_cons_of_ne x rest (isSpace_ne_newline x hxs)
      rw [← hx, e1] at hl
      rw [(List.cons.inj hl).1]
      simp
    have hh1 : h1 ≠ [] := fun h0 => by rw [h0] at hxh; exact absurd hxh (List.not_mem_nil x)
    have hchJ : List.Chain' (fun a c : QString => ¬ (a = [] ∧ c = [])) (h1 :: t1) := by
      rw [List.chain'_cons']
      exact ⟨fun _ _ hboth => hh1 hboth.1, hch⟩
    have hQJ : ∀ l ∈ h1 :: t1, l = [] ∨ ∃ c ∈ l, isSpace c = false := by
      intro l hl
      rcases hm l hl with h0 | h0
      · exact Or.inl h0
      · exact hQ l (by rw [e1]; exact h0)
    have hnl : ∀ l ∈ (h1 :: t1).map trimmed, '\n' ∉ l := by
      intro l hl
      obtain ⟨l0, hl0, rfl⟩ := List.mem_map.mp hl
      apply not_mem_trimmed
      apply splitNewline_no_newline (collapseNewlinesAux 0 (trimmed text))
      rw [e2]; exact hl0
    have htr : ∀ l ∈ (h1 :: t1).map trimmed, trimmed l = l := by
      intro l hl
      obtain ⟨l0, _, rfl⟩ := List.mem_map.mp hl
      exact trimmed_idem l0
    have hlast : ∀ l ∈ ((h1 :: t1).map trimmed).getLast?, l ≠ [] := by
      obtain ⟨p, hp⟩ := collapseNewlinesAux_concat init y (isSpace_ne_newline y hys) 0
      obtain ⟨i2, l2, _, h5⟩ := splitNewline_concat_char p y (isSpace_ne_newline y hys)
      rw [← hp, ← hy, e2] at h5
      rw [h5]
      intro l hl
      have hg : (List.map trimmed (i2 ++ [l2 ++ [y]])).getLast? = some (trimmed (l2 ++ [y])) := by
        rw [List.map_append, List.map_singleton, List.getLast?_append_of_ne_nil _ (by simp)]
        rfl
      rw [hg] at hl
      have hl2 : trimmed (l2 ++ [y]) = l := Option.some.inj hl
      subst hl2
      exact (trimmed_ne_nil_iff _).mpr ⟨y, by simp, hys⟩
    have hfirst : ∀ l ∈ ((h1 :: t1).map trimmed).head?, l ≠ [] := by
      intro l hl
      simp only [List.map_cons, List.head?_cons, Option.mem_def, Option.some.injEq] at hl
      subst hl
      exact (trimmed_ne_nil_iff _).mpr ⟨x, hxh, hxs⟩
    unfold collapseNewlines
    rw [e2]
    refine ⟨trimmed_joinNewline_self _ htr hfirst hlast, ?_, ?_⟩
    · unfold linesTrimmed
      rw [splitNewline_joinNewline _ (by simp) hnl]
      exact htr
    · unfold noTwoBlankLines
      rw [splitNewline_joinNewline _ (by simp) hnl]
      exact chain_blank_of_chain_empty _ htr (chain_map_trimmed _ hQJ hchJ)

/-! ## Claim on normalizeText -/

theorem mem_of_mem_trimmed (c : Char) (l : QString) (h : c ∈ trimmed l) : c ∈ l := by
  by_contra hc
  exact not_mem_trimmed c l hc h

theorem mem_of_mem_mid (s : QString) (p n : Int) (c : Char) (h : c ∈ mid s p n) : c ∈ s := by
  unfold mid at h
  simp only [] at h
  split_ifs at h
  · exact absurd h (List.not_mem_nil c)
  · exact h
  · exact absurd h (List.not_mem_nil c)
  · exact List.mem_of_mem_take h
  · exact List.mem_of_mem_drop h
  · exact List.mem_of_mem_drop (List.mem_of_mem_take h)

/-- The slicing loop hands out characters of the line only. -/
theorem foldl_sliceStep_text (full : QString) (hits : List Hit) :
    ∀ (st : SliceState), (∀ p ∈ st.result, ∀ c ∈ p.2, c ∈ full) →
      ∀ p ∈ (hits.foldl (sliceStep full) st).result, ∀ c ∈ p.2, c ∈ full := by
  induction hits with
  | nil => intro st h; exact h
  | cons x xs ih =>
    intro st h
    rw [List.foldl_cons]
    apply ih
    intro p hp
    simp only [sliceStep] at hp
    split at hp
    · rcases List.mem_append.mp hp with h3 | h3
      · exact h p h3
      · simp only [List.mem_singleton] at h3
        rw [h3]
        intro c hc
        exact mem_of_mem_mid _ _ _ c (mem_of_mem_trimmed c _ hc)
    · exact h p hp

/-- Every run of `splitInlineLabels` is made of characters of the line. -/
theorem splitInlineLabels_text_mem (text : QString) (ks : List QString) (init : QString) :
    ∀ p ∈ splitInlineLabels text ks init, ∀ c ∈ p.2, c ∈ text := by
  intro p hp
  unfold splitInlineLabels at hp
  simp only [] at hp
  split at hp
  · simp at hp
  · split at hp
    · split at hp
      · simp only [List.mem_singleton] at hp
        rw [hp]
        exact fun c hc => mem_of_mem_trimmed c _ hc
      · simp at hp
    · have hfold := foldl_sliceStep_text text (sortHits (allHits text ks)) ⟨[], init, 0⟩
        (by intro q hq; simp at hq)
      split at hp
      · rcases List.mem_append.mp hp with h3 | h3
        · exact hfold p h3
        · simp only [List.mem_singleton] at h3
          rw [h3]
          intro c hc
          exact mem_of_mem_mid _ _ _ c (mem_of_mem_trimmed c _ hc)
      · exact hfold p hp

/-- The text after a label at the start of a line is made of characters of the line. -/
theorem startsWithSpeakerLabel_after_mem (line : QString) (ks : List QString)
    (sp after : QString) (h : startsWithSpeakerLabel line ks = some (sp, after)) :
    ∀ c ∈ after, c ∈ line := by
  unfold startsWithSpeakerLabel at h
  simp only [] at h
  split_ifs at h
  obtain ⟨k, _, hk⟩ := List.exists_of_findSome?_eq_some h
  split_ifs at hk
  have h2 := (Prod.mk.inj (Option.some.inj hk)).2
  rw [← h2]
  intro c hc
  exact mem_of_mem_mid _ _ _ c hc

theorem laterLinesOpen_of_no_newline (a : QString) (h : '\n' ∉ a) : laterLinesOpen a := by
  unfold laterLinesOpen
  rw [splitNewline_of_no_newline a h]
  intro l hl
  exact absurd hl (List.not_mem_nil l)

theorem laterLinesOpen_append_line (text txt : QString) (hopen : laterLinesOpen text)
    (hn : '\n' ∉ txt) (hb : txt = [] ∨ ∃ c ∈ txt, isSpace c = false) :
    laterLinesOpen (text ++ '\n' :: txt) := by
  unfold laterLinesOpen at hopen ⊢
  obtain ⟨h, t, ht⟩ := splitNewline_exists text
  rw [splitNewline_append_newline, splitNewline_of_no_newline txt hn, ht]
  rw [ht] at hopen
  intro l hl
  simp only [List.cons_append, List.tail_cons, List.mem_append, List.mem_singleton] at hl
  rcases hl with h1 | h1
  · exact hopen l h1
  · rw [h1]; exact hb

theorem appendToCurrent_textInv (st : ParseState) (txt : QString) (hinv : textInv st)
    (hn : '\n' ∉ txt) (hb : st.currentText = [] ∨ ∃ c ∈ txt, isSpace c = false) :
    textInv (appendToCurrent st txt) := by
  obtain ⟨h1, h2⟩ := hinv
  refine ⟨h1, ?_⟩
  simp only [appendToCurrent]
  by_cases he : st.currentText = []
  · rw [he]
    exact laterLinesOpen_of_no_newline txt hn
  · rw [if_pos (by simpa using he), List.append_assoc]
    rcases hb with hb | hb
    · exact absurd hb he
    · exact laterLinesOpen_append_line _ _ h2 hn (Or.inr hb)

theorem flushSegment_textInv (st : ParseState) (hinv : textInv st) :
    textInv (flushSegment st) := by
  obtain ⟨h1, h2⟩ := hinv
  refine ⟨?_, laterLinesOpen_of_no_newline [] (by simp)⟩
  intro s hs
  simp only [flushSegment] at hs
  split at hs
  next hc =>
    simp only [Bool.and_eq_true, Bool.not_eq_true', List.isEmpty_eq_false] at hc
    rcases List.mem_append.mp hs with h3 | h3
    · exact h1 s h3
    · simp only [List.mem_singleton] at h3
      subst h3
      have hne : normalizeText st.currentText ≠ [] := by
        intro h0
        rw [h0] at hc
        simp at hc
      exact ⟨normalizeText_tidy _ h2 hne, hne⟩
  · exact h1 s hs

theorem integratePart_textInv (st : ParseState) (part : QString × QString)
    (hinv : textInv st) (hn : '\n' ∉ part.2) : textInv (integratePart st part) := by
  simp only [integratePart]
  split_ifs with h1 h2 h3
  · exact hinv
  · exact ⟨hinv.1, laterLinesOpen_of_no_newline _ hn⟩
  · apply appendToCurrent_textInv st part.2 hinv hn
    right
    exact (trimmed_ne_nil_iff part.2).mp (fun h0 => h1 (by simp [h0]))
  · exact ⟨(flushSegment_textInv st hinv).1, laterLinesOpen_of_no_newline _ hn⟩

theorem foldl_integratePart_textInv (parts : List (QString × QString)) :
    ∀ (st : ParseState), textInv st → (∀ p ∈ parts, '\n' ∉ p.2) →
      textInv (parts.foldl integratePart st) := by
  induction parts with
  | nil => intro st h _; exact h
  | cons p ps ih =>
    intro st h hn
    rw [List.foldl_cons]
    exact ih _ (integratePart_textInv st p h (hn p (by simp)))
      (fun q hq => hn q (List.mem_cons_of_mem _ hq))

theorem integrateLine_textInv (ks : List QString) (st : ParseState)
    (baseSpeaker content : QString) (hinv : textInv st) (hn : '\n' ∉ content)
    (hb : st.currentText = [] ∨ ∃ c ∈ content, isSpace c = false) :
    textInv (integrateLine ks st baseSpeaker content) := by
  simp only [integrateLine]
  split_ifs with h1 h2 h3 h4
  · exact appendToCurrent_textInv _ content ⟨hinv.1, hinv.2⟩ hn hb
  · exact ⟨(flushSegment_textInv { st with currentSpeaker := baseSpeaker }
      ⟨hinv.1, hinv.2⟩).1, laterLinesOpen_of_no_newline _ hn⟩
  · exact appendToCurrent_textInv st content hinv hn hb
  · exact ⟨(flushSegment_textInv st hinv).1, laterLinesOpen_of_no_newline _ hn⟩
  · exact hinv
  · apply foldl_integratePart_textInv _ st hinv
    intro p hp hc
    exact hn (splitInlineLabels_text_mem content ks baseSpeaker p hp '\n' hc)

theorem processLine_textInv (ks : List QString) (st : ParseState) (line : QString)
    (hinv : textInv st) (hn : '\n' ∉ line) : textInv (processLine ks st line) := by
  unfold processLine
  split_ifs with h1 h2
  · refine ⟨hinv.1, ?_⟩
    have := laterLinesOpen_append_line st.currentText [] hinv.2 (by simp) (Or.inl rfl)
    exact this
  · exact hinv
  · have hnb : ∃ c ∈ line, isSpace c = false :=
      (trimmed_ne_nil_iff line).mp (fun h0 => h1 (by simp [h0]))
    split
    next sp after heq =>
      apply integrateLine_textInv ks _ sp after (flushSegment_textInv st hinv)
      · exact fun hc => hn (startsWithSpeakerLabel_after_mem line ks sp after heq '\n' hc)
      · left; rfl
    next => exact integrateLine_textInv ks st _ line hinv hn (Or.inr hnb)

theorem foldl_processLine_textInv (ks : List QString) (lines : List QString) :
    ∀ (st : ParseState), textInv st → (∀ l ∈ lines, '\n' ∉ l) →
      textInv (lines.foldl (processLine ks) st) := by
  induction lines with
  | nil => intro st h _; exact h
  | cons l ls ih =>
    intro st h hn
    rw [List.foldl_cons]
    exact ih _ (processLine_textInv ks st l h (hn l (by simp)))
      (fun q hq => hn q (List.mem_cons_of_mem _ hq))

/-- Every text emitted by `parseSegments` is tidy and not empty. -/
theorem parseSegments_tidy (rawText : QString) (ks : List QString) :
    ∀ s ∈ parseSegments rawText ks, tidyText s.text ∧ s.text ≠ [] := by
  unfold parseSegments
  simp only []
  have h0 : textInv ⟨[], [], []⟩ :=
    ⟨fun s hs => absurd hs (List.not_mem_nil s), laterLinesOpen_of_no_newline [] (by simp)⟩
  exact (flushSegment_textInv _
    (foldl_processLine_textInv ks (splitLines rawText) _ h0 (splitLines_no_newline rawText))).1

/-! ## The texts after the final merge -/

/-- Two tidy texts that are not empty, joined by a line feed, make a tidy text. -/
theorem tidyText_append_newline (a b : QString) (ha : tidyText a) (ha0 : a ≠ [])
    (hb : tidyText b) (hb0 : b ≠ []) : tidyText (a ++ '\n' :: b) := by
  obtain ⟨a1, a2, a3⟩ := ha
  obtain ⟨b1, b2, b3⟩ := hb
  obtain ⟨x, ra, hx, hxs⟩ := trimmed_head a (by rw [a1]; exact ha0)
  obtain ⟨ia, ya, hya, hyas⟩ := trimmed_last a (by rw [a1]; exact ha0)
  obtain ⟨ib, yb, hyb, hybs⟩ := trimmed_last b (by rw [b1]; exact hb0)
  rw [a1] at hx hya
  rw [b1] at hyb
  refine ⟨?_, ?_, ?_⟩
  · refine trimmed_eq_self_of_ends _ x yb (ra ++ '\n' :: b) (a ++ '\n' :: ib) ?_ hxs ?_ hybs
    · rw [hx]; rfl
    · rw [hyb]; simp
  · unfold linesTrimmed
    rw [splitNewline_append_newline]
    intro l hl
    rcases List.mem_append.mp hl with h | h
    · exact a2 l h
    · exact b2 l h
  · unfold noTwoBlankLines at a3 b3 ⊢
    rw [splitNewline_append_newline]
    apply List.Chain'.append a3 b3
    intro l hl _ _ hboth
    obtain ⟨i, l0, _, h5⟩ := splitNewline_concat_char ia ya (isSpace_ne_newline ya hyas)
    rw [← hya] at h5
    rw [h5, List.getLast?_append_of_ne_nil _ (by simp)] at hl
    have hl2 : l0 ++ [ya] = l := Option.some.inj hl
    have := hboth.1 ya (by rw [← hl2]; simp)
    rw [hyas] at this
    exact Bool.noConfusion this

theorem appendText_tidy (s : Segment) (extra : QString)
    (hs : tidyText s.text ∧ s.text ≠ []) (he : tidyText extra) :
    tidyText (s.appendText extra).text ∧ (s.appendText extra).text ≠ [] := by
  unfold Segment.appendText
  split
  · exact hs
  next hne =>
    have he0 : extra ≠ [] := fun h0 => hne (by simp [h0])
    obtain ⟨ia, ya, hya, hyas⟩ := trimmed_last s.text (by rw [hs.1.1]; exact hs.2)
    rw [hs.1.1] at hya
    have hend : endsWithNewline s.text = false := by
      unfold endsWithNewline
      rw [hya, List.getLast?_append_of_ne_nil _ (by simp)]
      simp only [List.getLast?_singleton, beq_eq_false_iff_ne, ne_eq, Option.some.injEq]
      exact isSpace_ne_newline ya hyas
    simp only [hend, Bool.not_false, if_true, List.append_assoc, List.singleton_append]
    exact ⟨tidyText_append_newline _ _ hs.1 hs.2 he he0, by simp [hs.2]⟩

theorem mergeLoop_tidy (rest : List Segment) :
    ∀ (merged : List Segment) (current : Segment),
      (∀ s ∈ rest, tidyText s.text ∧ s.text ≠ []) →
      (∀ s ∈ merged, tidyText s.text ∧ s.text ≠ []) →
      (tidyText current.text ∧ current.text ≠ []) →
      ∀ s ∈ Transcript.mergeLoop rest merged current, tidyText s.text ∧ s.text ≠ [] := by
  induction rest with
  | nil =>
    intro merged current _ hm hc s hs
    simp only [Transcript.mergeLoop, List.mem_append, List.mem_singleton] at hs
    rcases hs with h | h
    · exact hm s h
    · rw [h]; exact hc
  | cons next rest ih =>
    intro merged current hr hm hc s hs
    simp only [Transcript.mergeLoop] at hs
    have hrest : ∀ s ∈ rest, tidyText s.text ∧ s.text ≠ [] :=
      fun x hx => hr x (List.mem_cons_of_mem _ hx)
    have hnext := hr next (List.mem_cons_self _ _)
    split at hs
    · exact ih merged _ hrest hm (appendText_tidy current _ hc hnext.1) s hs
    · refine ih _ next hrest ?_ hnext s hs
      intro x hx
      rcases List.mem_append.mp hx with h | h
      · exact hm x h
      · simp only [List.mem_singleton] at h
        rw [h]; exact hc

theorem mergeAdjacentSameSpeaker_tidy (t : Transcript)
    (h : ∀ s ∈ t.segments, tidyText s.text ∧ s.text ≠ []) :
    ∀ s ∈ t.mergeAdjacentSameSpeaker.segments, tidyText s.text ∧ s.text ≠ [] := by
  unfold Transcript.mergeAdjacentSameSpeaker
  split
  next first second rest heq =>
    simp only []
    rw [heq] at h
    exact mergeLoop_tidy _ [] first
      (fun s hs => h s (List.mem_cons_of_mem _ hs)) (by intro s hs; simp at hs)
      (h first (List.mem_cons_self _ _))
  next => exact h

/-- After a successful `parse` every segment text is tidy and not empty. -/
theorem parse_tidy (rawText : QString) (t : Transcript) (ks : List QString)
    (h : (parse rawText t ks).1 = true) :
    ∀ s ∈ (parse rawText t ks).2.segments, tidyText s.text ∧ s.text ≠ [] := by
  revert h
  unfold parse
  simp only []
  split
  · simp
  · split
    · simp
    · intro _
      simp only []
      obtain ⟨_, _, _, b4⟩ := foldl_addSpeakerIfMissing ks
        { t with segments := [], speakers := [] } (by simp)
      obtain ⟨c1, _⟩ := foldl_addSegment (parseSegments rawText ks)
        (ks.foldl (fun t sp => t.addSpeakerIfMissing sp) { t with segments := [], speakers := [] })
      apply mergeAdjacentSameSpeaker_tidy
      rw [c1, b4]
      simpa using parseSegments_tidy rawText ks

/-- C29: after a successful `parse` every segment text of the transcript, as left by the
final `mergeAdjacentSameSpeaker` pass, is in normal form: it has no whitespace at its
start or end, none of its lines has, and it holds no run of three or more line feeds. -/
theorem parse_texts_normalForm (rawText : QString) (outTranscript : Transcript)
    (knownSpeakers : List QString) (h : (parse rawText outTranscript knownSpeakers).1 = true) :
    ∀ s ∈ (parse rawText outTranscript knownSpeakers).2.segments, normalForm s.text :=
  fun s hs => normalForm_of_tidyText s.text (parse_tidy rawText outTranscript knownSpeakers h s hs).1

theorem parse_texts_normalForm_witness :
    (parse "A: x \n\n\n\n  y\nA: z\nB:  w".toList {} ["A".toList, "B".toList]).1 = true ∧
      ∀ s ∈ (parse "A: x \n\n\n\n  y\nA: z\nB:  w".toList {} ["A".toList, "B".toList]).2.segments,
        normalForm s.text :=
  ⟨by decide, parse_texts_normalForm _ _ _ (by decide)⟩

end TranscriptEditingApp
